import Mathlib

/-!
# VROOM: Christofides heuristic and local-search operator ordering

A shallow embedding of

* `src/problems/tsp/heuristics/christofides.cpp` (function `christofides`),
* `src/problems/cvrp/local_search/operator.cpp` (`ls_operator`, `gain`, `operator<`),

followed by the properties proved about them.

Conventions.

* `index_t` and `cost_t` are unsigned machine integers; the embedded code only compares
  and copies them (the single arithmetic operation is `size() % 2`), so they are `Nat`.
  `gain_t` is a signed integer that is only compared, so it is `Int`.
* A `std::unordered_map<index_t, T>` is an association list `List (Nat × T)` with pairwise
  distinct keys.  The order in which a range-for visits such a map is not fixed by the
  language; for the maps built inside the embedded code it is supplied by the environment
  (`Env.iter_adj`, `Env.iter_map`), for the maps returned by absent helpers it is the order of
  the returned list.  Whatever the order, a visit meets every entry exactly once
  (`Env.iter_adj_perm`, `Env.iter_map_perm`).
* Code that can fail (a failed `assert`, `std::unordered_map::at` on an absent key,
  `front()` of an empty list, an index past the end of a vector) returns `Except failure`.
-/

namespace Vroom

/-! ## Definitions -/

/-- The ways in which the embedded code can stop without a result. -/
inductive failure where
  /-- an `assert` does not hold -/
  | assertion_failed
  /-- `std::unordered_map::at` on a key that is absent -/
  | out_of_range
  /-- `front()` of an empty list, `operator[]` past the end of a vector, `begin()` of an
  empty map dereferenced -/
  | undefined_behaviour
  /-- the loop budget of the model is used up (never the case with the budget that
  `hierholzer` gives, see `hierholzer_loop_fuel`) -/
  | out_of_fuel
deriving DecidableEq, Repr

deriving instance DecidableEq for Except

/-! ### `operator.cpp` -/

/-- The data members of `ls_operator` that `gain` and `operator<` read.  The reference
members (`_input`, `_sol`, ...) are not read by the embedded functions. -/
structure ls_operator where
  source_vehicle : Nat
  source_rank : Nat
  target_vehicle : Nat
  target_rank : Nat
  gain_computed : Bool
  stored_gain : Int
deriving DecidableEq, Repr

/-- The constructor `ls_operator::ls_operator`: it copies the four indices and sets
`gain_computed(false)`.  `stored_gain` has no initialiser; `uninitialised` stands for whatever
value the member happens to hold. -/
def ls_operator.ctor (source_vehicle source_rank target_vehicle target_rank : Nat)
    (uninitialised : Int) : ls_operator :=
  ⟨source_vehicle, source_rank, target_vehicle, target_rank, false, uninitialised⟩

/-- The member `gain_t ls_operator::gain() const` as defined in `operator.cpp`:
`assert(gain_computed); return stored_gain;`.  The result is paired with the state of the
operator after the call.  (The declaration in `operator.h` lacks the `const`; the embedded
code is the definition.) -/
def ls_operator.gain (op : ls_operator) : Except failure (Int × ls_operator) :=
  if op.gain_computed then .ok (op.stored_gain, op) else .error failure.assertion_failed

/-- The free function `bool operator<(const ls_operator& lhs, const ls_operator& rhs)`:
`return lhs.gain() > rhs.gain();`. -/
def operator_lt (lhs rhs : ls_operator) : Except failure Bool :=
  match lhs.gain with
  | .error e => .error e
  | .ok (l, _) =>
    match rhs.gain with
    | .error e => .error e
    | .ok (r, _) => .ok (decide (l > r))

/-- The tuple `(source_vehicle, source_rank, target_vehicle, target_rank)` of an operator. -/
def ls_operator.tuple (op : ls_operator) : Nat × Nat × Nat × Nat :=
  (op.source_vehicle, op.source_rank, op.target_vehicle, op.target_rank)

/-- Lexicographic "lower" on index tuples. -/
def tuple_lower (a b : Nat × Nat × Nat × Nat) : Bool :=
  decide (a.1 < b.1) || (decide (a.1 = b.1) && (decide (a.2.1 < b.2.1) ||
    (decide (a.2.1 = b.2.1) && (decide (a.2.2.1 < b.2.2.1) ||
      (decide (a.2.2.1 = b.2.2.1) && decide (a.2.2.2 < b.2.2.2))))))

/-! ### Collaborators of `christofides` that are declared outside the given sources -/

/-- Modelled from the spec: the class `matrix<cost_t>` (header absent), an "immutable 2-D cost
matrix": its order and its entries. -/
structure matrix where
  size : Nat
  cost : Nat → Nat → Nat

/-- Modelled from the spec: `matrix::get_sub_matrix` (definition absent), "submatrix extraction
by index list": entry `(i, j)` of the result is entry `(indices[i], indices[j])`. -/
def matrix.get_sub_matrix (m : matrix) (indices : List Nat) : matrix :=
  ⟨indices.length, fun i j => m.cost (indices.getD i 0) (indices.getD j 0)⟩

/-- Modelled from the spec: the class `edge<cost_t>` (header absent): two end vertices and a
weight. -/
structure edge where
  first_vertex : Nat
  second_vertex : Nat
  weight : Nat
deriving DecidableEq, Repr

/-- Read `m[k]` for a `std::unordered_map<index_t, std::list<index_t>>`; an absent key reads as
the empty list that `operator[]` would insert. -/
def adj_get (m : List (Nat × List Nat)) (k : Nat) : List Nat :=
  match m with
  | [] => []
  | (k1, l) :: rest => if k1 = k then l else adj_get rest k

/-- Write `m[k] = l`: the entry of `k` is replaced where it stands, a new key is added. -/
def adj_set (m : List (Nat × List Nat)) (k : Nat) (l : List Nat) : List (Nat × List Nat) :=
  match m with
  | [] => [(k, l)]
  | (k1, l1) :: rest => if k1 = k then (k1, l) :: rest else (k1, l1) :: adj_set rest k l

/-- The statement `m[k].push_back(v)`. -/
def adj_push (m : List (Nat × List Nat)) (k v : Nat) : List (Nat × List Nat) :=
  adj_set m k (adj_get m k ++ [v])

/-- Modelled from the spec: the adjacency list of `undirected_graph<cost_t>(edges)` (class
absent), "mapping vertex → list of neighbors, neighbor duplication allowed for multigraph
use": every edge, in the order of the edge list, appends each end vertex to the list of the
other one. -/
def adjacency_list_of_edges (edges : List edge) : List (Nat × List Nat) :=
  edges.foldl (fun m e => adj_push (adj_push m e.first_vertex e.second_vertex)
    e.second_vertex e.first_vertex) []

/-- The helpers of `christofides` whose definitions are not among the given sources, and the
visiting order of the unordered maps. -/
structure Env where
  /-- the edge list of `minimum_spanning_tree(undirected_graph<cost_t>(sym_matrix))` -/
  mst_edges : matrix → List edge
  /-- the map returned by `minimum_weight_perfect_matching`, in the order a range-for visits it -/
  minimum_weight_perfect_matching : matrix → List (Nat × Nat)
  /-- the map returned by `greedy_symmetric_approx_mwpm`, in the order a range-for visits it -/
  greedy_symmetric_approx_mwpm : matrix → List (Nat × Nat)
  /-- the order in which an `unordered_map<index_t, std::list<index_t>>` is visited -/
  iter_adj : List (Nat × List Nat) → List (Nat × List Nat)
  /-- a visit meets every entry once -/
  iter_adj_perm : ∀ l, (iter_adj l).Perm l
  /-- the order in which an `unordered_map<index_t, index_t>` is visited -/
  iter_map : List (Nat × Nat) → List (Nat × Nat)
  /-- a visit meets every entry once -/
  iter_map_perm : ∀ l, (iter_map l).Perm l

/-! ### `christofides.cpp` -/

/-- Lines 38-44: the keys of `adjacency_list` whose list has odd size, in visiting order. -/
def odd_degree_vertices (visited : List (Nat × List Nat)) : List Nat :=
  visited.filterMap (fun a => if a.2.length % 2 = 1 then some a.1 else none)

/-- The call `m.at(k)` on a `std::unordered_map<index_t, index_t>`. -/
def map_at (m : List (Nat × Nat)) (k : Nat) : Except failure Nat :=
  match m with
  | [] => .error failure.out_of_range
  | (k1, v) :: rest => if k1 = k then .ok v else map_at rest k

/-- The call `m.emplace(k, v)`: nothing happens when the key is present. -/
def map_emplace (m : List (Nat × Nat)) (k v : Nat) : List (Nat × Nat) :=
  if (m.map Prod.fst).contains k then m else m ++ [(k, v)]

/-- Lines 62-71: the loop over `mwpm` that fills `mwpm_final` and `wrong_vertices`.
`todo` is the part of `mwpm` still to visit. -/
def split_loop (mwpm : List (Nat × Nat)) :
    List (Nat × Nat) → List (Nat × Nat) → List Nat → Except failure (List (Nat × Nat) × List Nat)
  | [], mwpm_final, wrong_vertices => .ok (mwpm_final, wrong_vertices)
  | e :: todo, mwpm_final, wrong_vertices =>
    match map_at mwpm e.2 with
    | .error err => .error err
    | .ok back =>
      if back = e.1 then
        split_loop mwpm todo (map_emplace mwpm_final (min e.1 e.2) (max e.1 e.2)) wrong_vertices
      else
        split_loop mwpm todo mwpm_final (wrong_vertices ++ [e.1])

/-- Read `v[i]` for a `std::vector<index_t>`. -/
def vec_at (v : List Nat) (i : Nat) : Except failure Nat :=
  match v.get? i with
  | some x => .ok x
  | none => .error failure.undefined_behaviour

/-- Lines 82-87: the loop over `remaining_greedy_mwpm` that adds the repaired pairs to
`mwpm_final`. -/
def repair_loop (wrong_vertices : List Nat) :
    List (Nat × Nat) → List (Nat × Nat) → Except failure (List (Nat × Nat))
  | [], mwpm_final => .ok mwpm_final
  | e :: todo, mwpm_final =>
    match vec_at wrong_vertices e.1 with
    | .error err => .error err
    | .ok a =>
      match vec_at wrong_vertices e.2 with
      | .error err => .error err
      | .ok b => repair_loop wrong_vertices todo (map_emplace mwpm_final (min a b) (max a b))

/-- Lines 56-88: `mwpm_final` from `mwpm`; the greedy matching is requested only when
`wrong_vertices` is not empty. -/
def build_mwpm_final (greedy : matrix → List (Nat × Nat)) (sub_matrix : matrix)
    (mwpm : List (Nat × Nat)) : Except failure (List (Nat × Nat)) :=
  match split_loop mwpm mwpm [] [] with
  | .error err => .error err
  | .ok (mwpm_final, wrong_vertices) =>
    if wrong_vertices.isEmpty then .ok mwpm_final
    else repair_loop wrong_vertices (greedy (sub_matrix.get_sub_matrix wrong_vertices)) mwpm_final

/-- Read `sym_matrix[i][j]`. -/
def matrix_at (m : matrix) (i j : Nat) : Except failure Nat :=
  if i < m.size ∧ j < m.size then .ok (m.cost i j) else .error failure.undefined_behaviour

/-- Lines 96-106: the loop over `mwpm_final` that appends the matching edges, with the
original vertex indices, to `eulerian_graph_edges`. -/
def add_matching_edges (sym_matrix : matrix) (mst_odd_vertices : List Nat) :
    List (Nat × Nat) → List edge → List Nat → Except failure (List edge)
  | [], eulerian_graph_edges, _ => .ok eulerian_graph_edges
  | e :: todo, eulerian_graph_edges, already_added =>
    match vec_at mst_odd_vertices e.1 with
    | .error err => .error err
    | .ok first_index =>
      match vec_at mst_odd_vertices e.2 with
      | .error err => .error err
      | .ok second_index =>
        if already_added.contains first_index then
          add_matching_edges sym_matrix mst_odd_vertices todo eulerian_graph_edges already_added
        else
          match matrix_at sym_matrix first_index second_index with
          | .error err => .error err
          | .ok w =>
            add_matching_edges sym_matrix mst_odd_vertices todo
              (eulerian_graph_edges ++ [⟨first_index, second_index, w⟩])
              (second_index :: already_added)

/-- Lines 145-157: one round of the inner `do` loop without the `push_back`: take the front
of the list of `current_vertex`, pop it, erase the first `current_vertex` from the list of
`next_vertex`.  The result is the new adjacency list and `next_vertex`. -/
def walk_step (adj : List (Nat × List Nat)) (current_vertex : Nat) :
    Except failure (List (Nat × List Nat) × Nat) :=
  match adj_get adj current_vertex with
  | [] => .error failure.undefined_behaviour
  | next_vertex :: rest =>
    let adj1 := adj_set adj current_vertex rest
    .ok (adj_set adj1 next_vertex ((adj_get adj1 next_vertex).erase current_vertex), next_vertex)

/-- Lines 144-158: the inner `do ... while (current_vertex != initial_vertex)` loop. -/
def new_tour_loop : Nat → List (Nat × List Nat) → Nat → Nat → List Nat →
    Except failure (List (Nat × List Nat) × List Nat)
  | 0, _, _, _, _ => .error failure.out_of_fuel
  | fuel + 1, adj, initial_vertex, current_vertex, new_tour =>
    match walk_step adj current_vertex with
    | .error err => .error err
    | .ok (adj1, next_vertex) =>
      if next_vertex ≠ initial_vertex then
        new_tour_loop fuel adj1 initial_vertex next_vertex (new_tour ++ [current_vertex])
      else .ok (adj1, new_tour ++ [current_vertex])

/-- The number of entries of all the lists of an adjacency list. -/
def adj_total (adj : List (Nat × List Nat)) : Nat :=
  (adj.map (fun a => a.2.length)).sum

/-- Lines 128-135: the position of the first element of `eulerian_path` that still has an
adjacent edge. -/
def find_new_tour_start (adj : List (Nat × List Nat)) : List Nat → Option Nat
  | [] => none
  | v :: rest =>
    if (adj_get adj v).length > 0 then some 0
    else (find_new_tour_start adj rest).map (fun i => i + 1)

/-- Lines 123-163: the outer `do ... while (!complete_tour)` loop.  Every round of either
loop removes at least one entry of the adjacency list, which bounds the number of rounds. -/
def hierholzer_loop : Nat → List (Nat × List Nat) → List Nat → Except failure (List Nat)
  | 0, _, _ => .error failure.out_of_fuel
  | fuel + 1, adj, eulerian_path =>
    match find_new_tour_start adj eulerian_path with
    | none => .ok eulerian_path
    | some i =>
      let initial_vertex := eulerian_path.getD i 0
      match new_tour_loop (adj_total adj + 1) adj initial_vertex initial_vertex [] with
      | .error err => .error err
      | .ok (adj1, new_tour) =>
        hierholzer_loop fuel adj1 (eulerian_path.take i ++ new_tour ++ eulerian_path.drop i)

/-- Lines 114-163: Hierholzer's algorithm from the adjacency list of the Eulerian graph.
`visited` is that adjacency list in visiting order, its first key is
`eulerian_adjacency_list.begin()->first`. -/
def hierholzer (adj visited : List (Nat × List Nat)) : Except failure (List Nat) :=
  match visited with
  | [] => .error failure.undefined_behaviour
  | a :: _ => hierholzer_loop (adj_total adj + 1) adj [a.1]

/-- Lines 165-173: the loop over `eulerian_path` that fills `tour`. -/
def shortcut_loop : List Nat → List Nat → List Nat → List Nat
  | [], _, tour => tour
  | vertex :: rest, already_visited, tour =>
    if already_visited.contains vertex then shortcut_loop rest already_visited tour
    else shortcut_loop rest (vertex :: already_visited) (tour ++ [vertex])

/-- Lines 165-174: the tour obtained from `eulerian_path`. -/
def shortcut (eulerian_path : List Nat) : List Nat :=
  shortcut_loop eulerian_path [] []

/-- The function `christofides` (lines 20-175).  The size of `undirected_graph<cost_t>(edges)`
(class absent) is modelled from the spec as its "vertex count", the number of keys of its
adjacency list. -/
def christofides (E : Env) (sym_matrix : matrix) : Except failure (List Nat) :=
  let mst_graph_edges := E.mst_edges sym_matrix
  let adjacency_list := adjacency_list_of_edges mst_graph_edges
  let mst_odd_vertices := odd_degree_vertices (E.iter_adj adjacency_list)
  let sub_matrix := sym_matrix.get_sub_matrix mst_odd_vertices
  let mwpm := E.minimum_weight_perfect_matching sub_matrix
  match build_mwpm_final E.greedy_symmetric_approx_mwpm sub_matrix mwpm with
  | .error err => .error err
  | .ok mwpm_final =>
    match add_matching_edges sym_matrix mst_odd_vertices (E.iter_map mwpm_final)
        mst_graph_edges [] with
    | .error err => .error err
    | .ok eulerian_graph_edges =>
      let eulerian_adjacency_list := adjacency_list_of_edges eulerian_graph_edges
      if eulerian_adjacency_list.length < 2 then .error failure.assertion_failed
      else
        match hierholzer eulerian_adjacency_list (E.iter_adj eulerian_adjacency_list) with
        | .error err => .error err
        | .ok eulerian_path => .ok (shortcut eulerian_path)

/-! ### Walks, multigraphs and the invariants of the adjacency list -/

/-- The pairs of neighbouring elements of a list, in order: the steps of a walk. -/
def consecutive_pairs : List Nat → List (Nat × Nat)
  | [] => []
  | [_] => []
  | a :: b :: rest => (a, b) :: consecutive_pairs (b :: rest)

/-- The end points of the edges of an edge list. -/
def edge_pairs (edges : List edge) : List (Nat × Nat) :=
  edges.map (fun e => (e.first_vertex, e.second_vertex))

/-- How often the pair `u`, `v` occurs in a list of pairs, in either direction. -/
def arc_count (l : List (Nat × Nat)) (u v : Nat) : Nat :=
  l.count (u, v) + l.count (v, u)

/-- Every pair of vertices is listed as often in one direction as in the other one. -/
def adj_symmetric (adj : List (Nat × List Nat)) : Prop :=
  ∀ u v, (adj_get adj u).count v = (adj_get adj v).count u

/-- Every vertex lists itself an even number of times (a loop is listed twice). -/
def adj_loops_even (adj : List (Nat × List Nat)) : Prop :=
  ∀ u, (adj_get adj u).count u % 2 = 0

/-- Every vertex has even degree. -/
def adj_even (adj : List (Nat × List Nat)) : Prop :=
  ∀ u, (adj_get adj u).length % 2 = 0

/-- The vertices `a` and `b` are the two ends of an edge of the list. -/
def linked (edges : List edge) (a b : Nat) : Prop :=
  ∃ e ∈ edges, (e.first_vertex = a ∧ e.second_vertex = b) ∨
    (e.first_vertex = b ∧ e.second_vertex = a)

/-- The multigraph of an edge list is connected: any two end vertices of edges are joined by
a chain of edges. -/
def connected (edges : List edge) : Prop :=
  ∀ e1 ∈ edges, ∀ e2 ∈ edges, Relation.ReflTransGen (linked edges) e1.first_vertex e2.first_vertex

/-! ### Matchings -/

/-- The map `mwpm` is a permutation of `0..k-1` without fixed point: its keys are the indices
`0..k-1`, each once, so are its values, and no key is mapped to itself. -/
def is_fixed_point_free_permutation (mwpm : List (Nat × Nat)) (k : Nat) : Prop :=
  (mwpm.map Prod.fst).Perm (List.range k) ∧ (mwpm.map Prod.snd).Perm (List.range k) ∧
    ∀ e ∈ mwpm, e.1 ≠ e.2

/-- The map `m` is a perfect matching of `0..k-1` with one entry per pair: every index occurs
exactly once among the keys and values together. -/
def is_perfect_matching (m : List (Nat × Nat)) (k : Nat) : Prop :=
  (m.map Prod.fst ++ m.map Prod.snd).Perm (List.range k)

/-- Every entry of `final` is a pair that `mwpm` maps in both directions, smaller index
first. -/
def coherent_pairs (mwpm final : List (Nat × Nat)) : Prop :=
  ∀ e ∈ final, e.1 < e.2 ∧ (e.1, e.2) ∈ mwpm ∧ (e.2, e.1) ∈ mwpm

/-! ### The greedy helper -/

/-- The pairs `(i, j)` of a list with `i` before `j`, first by `i`, then by `j`. -/
def ordered_pairs : List Nat → List (Nat × Nat)
  | [] => []
  | i :: rest => rest.map (fun j => (i, j)) ++ ordered_pairs rest

/-- The first pair of least cost among `best` and the pairs of the list. -/
def min_cost_pair (m : matrix) (best : Nat × Nat) : List (Nat × Nat) → Nat × Nat
  | [] => best
  | p :: rest =>
    if m.cost p.1 p.2 < m.cost best.1 best.2 then min_cost_pair m p rest
    else min_cost_pair m best rest

/-- The rounds of the greedy matching: pair the two remaining indices of least cost, remove
them, go on while two indices remain. -/
def greedy_loop (m : matrix) : Nat → List Nat → List (Nat × Nat) → List (Nat × Nat)
  | 0, _, matching => matching
  | fuel + 1, remaining, matching =>
    match ordered_pairs remaining with
    | [] => matching
    | p :: rest =>
      let chosen := min_cost_pair m p rest
      greedy_loop m fuel ((remaining.erase chosen.1).erase chosen.2) (matching ++ [chosen])

/-- Modelled from the spec: `greedy_symmetric_approx_mwpm` (definition absent), "a greedy
symmetric approximation (repeatedly pair the unmatched pair with minimum edge cost)"; among
pairs of equal cost the first one in index order is taken, and the entries are visited in the
order in which they were made. -/
def greedy_symmetric_approx_mwpm (m : matrix) : List (Nat × Nat) :=
  greedy_loop m m.size (List.range m.size) []

instance (mwpm : List (Nat × Nat)) (k : Nat) :
    Decidable (is_fixed_point_free_permutation mwpm k) := by
  unfold is_fixed_point_free_permutation
  infer_instance

instance (m : List (Nat × Nat)) (k : Nat) : Decidable (is_perfect_matching m k) := by
  unfold is_perfect_matching
  infer_instance

/-! ### Spanning trees and intermediate values of `christofides` -/

/-- The edge list is a spanning tree of the complete graph on `0..n-1`: it has `n - 1` edges,
each between two different vertices below `n`, and a chain of edges joins vertex `0` to every
vertex. -/
def is_spanning_tree (n : Nat) (edges : List edge) : Prop :=
  edges.length + 1 = n ∧
  (∀ e ∈ edges, e.first_vertex < n ∧ e.second_vertex < n ∧ e.first_vertex ≠ e.second_vertex) ∧
  ∀ v, v < n → Relation.ReflTransGen (linked edges) 0 v

/-- The vector `mst_odd_vertices` of `christofides` (lines 38-44). -/
def mst_odd_vertices (E : Env) (sym_matrix : matrix) : List Nat :=
  odd_degree_vertices (E.iter_adj (adjacency_list_of_edges (E.mst_edges sym_matrix)))

/-- The map `mwpm` of `christofides` (lines 49-54). -/
def mwpm_of (E : Env) (sym_matrix : matrix) : List (Nat × Nat) :=
  E.minimum_weight_perfect_matching (sym_matrix.get_sub_matrix (mst_odd_vertices E sym_matrix))

/-- The edges that lines 96-106 append for the entries of `mwpm_final` when none is skipped:
the entry `(a, b)` gives the edge between `mst_odd_vertices[a]` and `mst_odd_vertices[b]` with
the cost that `sym_matrix` has for them. -/
def matching_edges (sym_matrix : matrix) (mst_odd_vertices : List Nat)
    (entries : List (Nat × Nat)) : List edge :=
  entries.map (fun e => ⟨mst_odd_vertices.getD e.1 0, mst_odd_vertices.getD e.2 0,
    sym_matrix.cost (mst_odd_vertices.getD e.1 0) (mst_odd_vertices.getD e.2 0)⟩)

/-! ### Tour cost and small instances -/

/-- The cost of the closed tour: the costs between neighbouring vertices of the list plus the
cost from the last vertex back to the first one. -/
def tour_cost (m : matrix) (tour : List Nat) : Nat :=
  ((consecutive_pairs (tour ++ tour.take 1)).map (fun p => m.cost p.1 p.2)).sum

/-- The matrix of order `n` with `0` on the diagonal and `1` everywhere else. -/
def unit_matrix (n : Nat) : matrix :=
  ⟨n, fun i j => if i = j then 0 else 1⟩

/-- A spanning tree of the complete graph on the vertices of `m`: the star around vertex `0`. -/
def star_edges (m : matrix) : List edge :=
  (List.range (m.size - 1)).map (fun i => ⟨0, i + 1, m.cost 0 (i + 1)⟩)

/-- The cyclic shift of the indices of `m`, a permutation without fixed point when `m` has
order at least two. -/
def rotation (m : matrix) : List (Nat × Nat) :=
  (List.range m.size).map (fun i => (i, (i + 1) % m.size))

/-- An environment for examples: the star as spanning tree, the cyclic shift as assignment,
the greedy matching of the model, every map visited in the order of its entries. -/
def star_env : Env where
  mst_edges := star_edges
  minimum_weight_perfect_matching := rotation
  greedy_symmetric_approx_mwpm := greedy_symmetric_approx_mwpm
  iter_adj := id
  iter_adj_perm := fun l => List.Perm.refl l
  iter_map := id
  iter_map_perm := fun l => List.Perm.refl l

/-- A multigraph for examples: the triangle on the vertices `0`, `1`, `2` with unit weights. -/
def triangle_edges : List edge :=
  [⟨0, 1, 1⟩, ⟨1, 2, 1⟩, ⟨2, 0, 1⟩]

/-! ### Metric matrices, trees and matchings of least cost -/

/-- The matrix is symmetric. -/
def matrix.symmetric (m : matrix) : Prop :=
  ∀ i, i < m.size → ∀ j, j < m.size → m.cost i j = m.cost j i

/-- The entries of the matrix satisfy the triangle inequality. -/
def matrix.triangle (m : matrix) : Prop :=
  ∀ i, i < m.size → ∀ j, j < m.size → ∀ k, k < m.size → m.cost i k ≤ m.cost i j + m.cost j k

instance (m : matrix) : Decidable m.symmetric := by
  unfold matrix.symmetric
  infer_instance

instance (m : matrix) : Decidable m.triangle := by
  unfold matrix.triangle
  infer_instance

/-- The sum of the costs that the matrix has for the edges of the list. -/
def edges_cost (m : matrix) (edges : List edge) : Nat :=
  (edges.map (fun e => m.cost e.first_vertex e.second_vertex)).sum

/-- The sum of the costs that the matrix has for the pairs of the list. -/
def pairs_cost (m : matrix) (pairs : List (Nat × Nat)) : Nat :=
  (pairs.map (fun p => m.cost p.1 p.2)).sum

/-- The edge list is a minimum spanning tree for the costs of the matrix. -/
def is_minimum_spanning_tree (m : matrix) (edges : List edge) : Prop :=
  is_spanning_tree m.size edges ∧
  ∀ other, is_spanning_tree m.size other → edges_cost m edges ≤ edges_cost m other

/-- The map is an assignment of least cost among the permutations of the indices of the
matrix without fixed point (the output contract of the Munkres step). -/
def is_minimum_cost_assignment (m : matrix) (mwpm : List (Nat × Nat)) : Prop :=
  is_fixed_point_free_permutation mwpm m.size ∧
  ∀ other, is_fixed_point_free_permutation other m.size → pairs_cost m mwpm ≤ pairs_cost m other

/-- A symmetric matrix of order 7 with zero diagonal whose entries satisfy the triangle
inequality. -/
def cx_matrix : matrix :=
  ⟨7, fun i j => (([[0, 1, 1, 2, 2, 2, 2], [1, 0, 2, 2, 1, 1, 2], [1, 2, 0, 1, 2, 2, 1],
    [2, 2, 1, 0, 1, 1, 2], [2, 1, 2, 1, 0, 2, 1], [2, 1, 2, 1, 2, 0, 3],
    [2, 2, 1, 2, 1, 3, 0]] : List (List Nat)).getD i []).getD j 0⟩

/-- An environment for `cx_matrix`: a minimum spanning tree, an assignment of least cost (a
cycle through the six odd-degree vertices), the greedy matching of the model, every map
visited in the order of its entries. -/
def cx_env : Env where
  mst_edges := fun _ => [⟨0, 1, 1⟩, ⟨0, 2, 1⟩, ⟨2, 3, 1⟩, ⟨1, 4, 1⟩, ⟨1, 5, 1⟩, ⟨2, 6, 1⟩]
  minimum_weight_perfect_matching := fun _ => [(0, 3), (1, 2), (2, 4), (3, 5), (4, 0), (5, 1)]
  greedy_symmetric_approx_mwpm := greedy_symmetric_approx_mwpm
  iter_adj := id
  iter_adj_perm := fun l => List.Perm.refl l
  iter_map := id
  iter_map_perm := fun l => List.Perm.refl l

/-- The cost of a walk: the sum of the costs of its steps. -/
def walk_cost (m : matrix) (walk : List Nat) : Nat :=
  pairs_cost m (consecutive_pairs walk)

/-- The pairs made of the first and second, third and fourth, ... element of a list. -/
def alt_pairs : List Nat → List (Nat × Nat)
  | a :: b :: rest => (a, b) :: alt_pairs rest
  | _ => []

/-- The edges between neighbouring vertices of a list, with the costs of the matrix. -/
def path_edges (m : matrix) (walk : List Nat) : List edge :=
  (consecutive_pairs walk).map (fun p => ⟨p.1, p.2, m.cost p.1 p.2⟩)

/-- The entries of `mwpm_final` are a perfect matching of the odd-degree vertices of least
cost: no way of pairing up the vertices of `mst_odd_vertices` costs less. -/
def is_minimum_weight_perfect_matching (m : matrix) (mst_odd_vertices : List Nat)
    (mwpm_final : List (Nat × Nat)) : Prop :=
  is_perfect_matching mwpm_final mst_odd_vertices.length ∧
  ∀ pairs : List (Nat × Nat), (pairs.map Prod.fst ++ pairs.map Prod.snd).Perm mst_odd_vertices →
    edges_cost m (matching_edges m mst_odd_vertices mwpm_final) ≤ pairs_cost m pairs

/-! ### The states of the loops of Hierholzer and more small instances -/

/-- The states met at the top of a round of the inner loop (lines 144-158) that starts at
`initial_vertex` with the adjacency list `adj0`: the adjacency list and `current_vertex`.
The first state is `adj0` with `initial_vertex`; a round whose `next_vertex` is not
`initial_vertex` leads to the next state, any other round leaves the loop. -/
inductive walk_reaches (adj0 : List (Nat × List Nat)) (initial_vertex : Nat) :
    List (Nat × List Nat) → Nat → Prop
  | start : walk_reaches adj0 initial_vertex adj0 initial_vertex
  | step (adj : List (Nat × List Nat)) (current_vertex : Nat) (adj1 : List (Nat × List Nat))
      (next_vertex : Nat) :
      walk_reaches adj0 initial_vertex adj current_vertex →
      walk_step adj current_vertex = .ok (adj1, next_vertex) →
      next_vertex ≠ initial_vertex →
      walk_reaches adj0 initial_vertex adj1 next_vertex

/-- The states met at the top of a round of the outer loop (lines 123-163) that starts with
the adjacency list `adj0` and the path `path0`: the adjacency list and `eulerian_path`.  A
round that finds a vertex with a remaining edge at position `i` runs the inner loop from it
and splices the new tour into the path. -/
inductive tour_reaches (adj0 : List (Nat × List Nat)) (path0 : List Nat) :
    List (Nat × List Nat) → List Nat → Prop
  | start : tour_reaches adj0 path0 adj0 path0
  | round (adj : List (Nat × List Nat)) (eulerian_path : List Nat) (i : Nat)
      (adj1 : List (Nat × List Nat)) (new_tour : List Nat) :
      tour_reaches adj0 path0 adj eulerian_path →
      find_new_tour_start adj eulerian_path = some i →
      new_tour_loop (adj_total adj + 1) adj (eulerian_path.getD i 0) (eulerian_path.getD i 0) [] =
        .ok (adj1, new_tour) →
      tour_reaches adj0 path0 adj1
        (eulerian_path.take i ++ new_tour ++ eulerian_path.drop i)

/-- A permutation of `0..3` for examples: `0` is a fixed point, `1`, `2`, `3` form a cycle. -/
def fixed_point_cycle : List (Nat × Nat) :=
  [(0, 0), (1, 2), (2, 3), (3, 1)]

/-- A permutation of `0..7` for examples: `0` and `1` are mapped to each other, `2` and `3`
are fixed points, `4`, `5`, `6`, `7` form a cycle. -/
def mixed_assignment : List (Nat × Nat) :=
  [(0, 1), (1, 0), (2, 2), (3, 3), (4, 5), (5, 6), (6, 7), (7, 4)]

/-- The identity assignment on the indices of `m`; no assignment is cheaper when the
diagonal of `m` is zero. -/
def identity_assignment (m : matrix) : List (Nat × Nat) :=
  (List.range m.size).map (fun i => (i, i))

/-- An environment for examples: the star as spanning tree, the identity as assignment, the
greedy matching of the model, every map visited in the order of its entries. -/
def identity_env : Env where
  mst_edges := star_edges
  minimum_weight_perfect_matching := identity_assignment
  greedy_symmetric_approx_mwpm := greedy_symmetric_approx_mwpm
  iter_adj := id
  iter_adj_perm := fun l => List.Perm.refl l
  iter_map := id
  iter_map_perm := fun l => List.Perm.refl l

/-! ## Theorems -/

/-! ### Adjacency lists -/

theorem adj_get_set (m : List (Nat × List Nat)) (k : Nat) (l : List Nat) (j : Nat) :
    adj_get (adj_set m k l) j = if j = k then l else adj_get m j := by
  induction m with
  | nil =>
    by_cases h : j = k
    · simp [adj_set, adj_get, h]
    · have h1 : ¬ k = j := fun e => h e.symm
      simp [adj_set, adj_get, h, h1]
  | cons a rest ih =>
    obtain ⟨k1, l1⟩ := a
    by_cases h1 : k1 = k
    · by_cases h : j = k
      · simp [adj_set, adj_get, h1, h]
      · have h2 : ¬ k = j := fun e => h e.symm
        simp [adj_set, adj_get, h1, h, h2]
    · by_cases h : j = k
      · subst h
        simp [adj_set, adj_get, h1, ih]
      · by_cases h3 : k1 = j
        · simp [adj_set, adj_get, h1, h, h3]
        · simp [adj_set, adj_get, h1, h, h3, ih]

theorem adj_total_set (m : List (Nat × List Nat)) (k : Nat) (l : List Nat) :
    adj_total (adj_set m k l) + (adj_get m k).length = adj_total m + l.length := by
  induction m with
  | nil => simp [adj_set, adj_get, adj_total]
  | cons a rest ih =>
    obtain ⟨k1, l1⟩ := a
    by_cases h1 : k1 = k
    · simp [adj_set, adj_get, adj_total, h1]; omega
    · simp only [adj_total] at ih
      simp [adj_set, adj_get, adj_total, h1]; omega

theorem adj_keys_set (m : List (Nat × List Nat)) (k : Nat) (l : List Nat) :
    (adj_set m k l).map Prod.fst =
      if k ∈ m.map Prod.fst then m.map Prod.fst else m.map Prod.fst ++ [k] := by
  induction m with
  | nil => simp [adj_set]
  | cons a rest ih =>
    obtain ⟨k1, l1⟩ := a
    by_cases h1 : k1 = k
    · simp [adj_set, h1]
    · have h2 : ¬ k = k1 := fun e => h1 e.symm
      simp only [adj_set, h1, if_false, List.map_cons, ih, List.mem_cons, h2, false_or]
      split <;> simp

theorem adj_get_eq_nil_of_not_key (m : List (Nat × List Nat)) (k : Nat)
    (h : k ∉ m.map Prod.fst) : adj_get m k = [] := by
  induction m with
  | nil => rfl
  | cons a rest ih =>
    obtain ⟨k1, l1⟩ := a
    simp only [List.map_cons, List.mem_cons, not_or] at h
    have h1 : ¬ k1 = k := fun e => h.1 e.symm
    simp [adj_get, h1, ih h.2]

theorem adjacency_list_of_edges_snoc (es : List edge) (e : edge) :
    adjacency_list_of_edges (es ++ [e]) =
      adj_push (adj_push (adjacency_list_of_edges es) e.first_vertex e.second_vertex)
        e.second_vertex e.first_vertex := by
  simp [adjacency_list_of_edges, List.foldl_append]

theorem adj_get_push (m : List (Nat × List Nat)) (k v j : Nat) :
    adj_get (adj_push m k v) j = if j = k then adj_get m k ++ [v] else adj_get m j := by
  simp [adj_push, adj_get_set]

/-- The list of `v` in the adjacency list built from an edge list holds, edge after edge, the
other end of every edge that has `v` as an end (both ends for a loop at `v`). -/
theorem adj_get_adjacency_list_of_edges (es : List edge) (v : Nat) :
    adj_get (adjacency_list_of_edges es) v =
      es.flatMap (fun e => (if e.first_vertex = v then [e.second_vertex] else []) ++
        (if e.second_vertex = v then [e.first_vertex] else [])) := by
  induction es using List.reverseRecOn with
  | nil => simp [adjacency_list_of_edges, adj_get]
  | append_singleton es e ih =>
    rw [List.flatMap_append, ← ih, adjacency_list_of_edges_snoc]
    simp only [adj_get_push]
    by_cases h1 : v = e.first_vertex <;> by_cases h2 : v = e.second_vertex
    · subst h1
      simp [← h2]
    · have h3 : ¬ e.second_vertex = v := fun e => h2 e.symm
      have h4 : ¬ e.first_vertex = e.second_vertex := fun e => h3 (e ▸ h1.symm)
      simp [h1, h3, h4, Ne.symm h4]
    · have h3 : ¬ e.first_vertex = v := fun e => h1 e.symm
      have h4 : ¬ e.second_vertex = e.first_vertex := fun e => h3 (e ▸ h2.symm)
      simp [h2, h3, h4, Ne.symm h4]
    · have h3 : ¬ e.first_vertex = v := fun e => h1 e.symm
      have h4 : ¬ e.second_vertex = v := fun e => h2 e.symm
      simp [h1, h2, h3, h4]

theorem count_edge_contribution (a b u v : Nat) :
    ((if a = u then [b] else []) ++ (if b = u then [a] else [])).count v =
      (if (a, b) = (u, v) then 1 else 0) + (if (a, b) = (v, u) then 1 else 0) := by
  by_cases h1 : a = u <;> by_cases h2 : b = v <;> by_cases h3 : b = u <;> by_cases h4 : a = v <;>
    simp [h1, h2, h3, h4, Prod.ext_iff, List.count_cons, List.count_nil] <;>
    first | omega | (subst_vars; simp_all [List.count_cons])

theorem count_adj_get_adjacency_list_of_edges (es : List edge) (u v : Nat) :
    (adj_get (adjacency_list_of_edges es) u).count v = arc_count (edge_pairs es) u v := by
  rw [adj_get_adjacency_list_of_edges]
  induction es with
  | nil => simp [arc_count, edge_pairs]
  | cons e es ih =>
    rw [List.flatMap_cons, List.count_append, ih, count_edge_contribution]
    simp only [arc_count, edge_pairs, List.map_cons, List.count_cons, beq_iff_eq]
    omega

theorem length_adj_get_adjacency_list_of_edges_append (es1 es2 : List edge) (v : Nat) :
    adj_get (adjacency_list_of_edges (es1 ++ es2)) v =
      adj_get (adjacency_list_of_edges es1) v ++ adj_get (adjacency_list_of_edges es2) v := by
  simp [adj_get_adjacency_list_of_edges, List.flatMap_append]

/-! ### One step of the inner loop -/

theorem walk_step_get (adj : List (Nat × List Nat)) (cur next : Nat) (rest : List Nat)
    (h : adj_get adj cur = next :: rest) :
    ∃ adj1, walk_step adj cur = .ok (adj1, next) ∧
      (∀ u, adj_get adj1 u =
        if u = next then
          (if next = cur then rest.erase cur else (adj_get adj next).erase cur)
        else if u = cur then rest else adj_get adj u) ∧
      adj_total adj1 < adj_total adj := by
  refine ⟨adj_set (adj_set adj cur rest) next ((adj_get (adj_set adj cur rest) next).erase cur),
    by simp only [walk_step, h], ?_, ?_⟩
  · intro u
    rw [adj_get_set, adj_get_set]
    by_cases h1 : u = next
    · by_cases h2 : next = cur
      · simp [h1, h2]
      · simp [h1, h2]
    · simp only [h1, if_false, adj_get_set]
  · have e1 := adj_total_set adj cur rest
    have e2 := adj_total_set (adj_set adj cur rest) next
      ((adj_get (adj_set adj cur rest) next).erase cur)
    have e3 : ((adj_get (adj_set adj cur rest) next).erase cur).length ≤
        (adj_get (adj_set adj cur rest) next).length := by
      rw [List.length_erase]; split <;> omega
    rw [h] at e1
    simp only [List.length_cons] at e1
    omega

theorem walk_step_counts (adj : List (Nat × List Nat)) (cur next : Nat) (rest : List Nat)
    (h : adj_get adj cur = next :: rest) (hs : adj_symmetric adj) (hl : adj_loops_even adj) :
    ∃ adj1, walk_step adj cur = .ok (adj1, next) ∧
      (∀ u v, (adj_get adj1 u).count v + arc_count [(cur, next)] u v = (adj_get adj u).count v) ∧
      (∀ u, (adj_get adj1 u).length + (if u = cur then 1 else 0) + (if u = next then 1 else 0) =
        (adj_get adj u).length) ∧
      adj_total adj1 < adj_total adj := by
  obtain ⟨adj1, h1, h2, h3⟩ := walk_step_get adj cur next rest h
  refine ⟨adj1, h1, ?_, ?_, h3⟩
  · intro u v
    rw [h2 u]
    simp only [arc_count, List.count_cons, List.count_nil, beq_iff_eq, Prod.ext_iff]
    by_cases hnc : next = cur
    · subst hnc
      have hev := hl next
      rw [h, List.count_cons_self] at hev
      have hmem : 0 < rest.count next := by omega
      by_cases hu : u = next
      · subst hu
        by_cases hv : v = u
        · subst hv
          simp [h, List.count_erase_self]; omega
        · have hv1 : ¬ u = v := fun e => hv e.symm
          simp [h, hv, hv1, List.count_erase_of_ne hv, List.count_cons]
      · have hu1 : ¬ next = u := fun e => hu e.symm
        simp [hu, hu1]
    · have hsym := hs next cur
      rw [h, List.count_cons_self] at hsym
      by_cases hu : u = next
      · subst hu
        by_cases hv : v = cur
        · subst hv
          have hne : ¬ v = u := fun e => hnc e.symm
          simp [hnc, hne, List.count_erase_self]; omega
        · have hv1 : ¬ cur = v := fun e => hv e.symm
          have hcu : ¬ cur = u := fun e => hnc e.symm
          simp [hnc, hv, hv1, hcu, List.count_erase_of_ne hv]
      · have hu1 : ¬ next = u := fun e => hu e.symm
        by_cases hu2 : u = cur
        · subst hu2
          by_cases hv : v = next
          · subst hv
            simp [hu, hu1, h]
          · have hv1 : ¬ next = v := fun e => hv e.symm
            simp [hu, hu1, h, hv, hv1, List.count_cons]
        · have hu3 : ¬ cur = u := fun e => hu2 e.symm
          simp [hu, hu1, hu2, hu3]
  · intro u
    rw [h2 u]
    by_cases hnc : next = cur
    · subst hnc
      have hev := hl next
      rw [h, List.count_cons_self] at hev
      have hmem : next ∈ rest := List.count_pos_iff.1 (by omega)
      by_cases hu : u = next
      · subst hu
        have := List.length_pos_of_mem hmem
        simp [h, List.length_erase_of_mem hmem]; omega
      · simp [hu]
    · have hsym := hs next cur
      rw [h, List.count_cons_self] at hsym
      have hmem : cur ∈ adj_get adj next := List.count_pos_iff.1 (by omega)
      by_cases hu : u = next
      · subst hu
        have := List.length_pos_of_mem hmem
        simp [hnc, List.length_erase_of_mem hmem]; omega
      · by_cases hu2 : u = cur
        · subst hu2
          simp [hu, h]
        · simp [hu, hu2]

/-! ### The loop budget -/

theorem walk_step_total (adj adj1 : List (Nat × List Nat)) (cur next : Nat)
    (h : walk_step adj cur = .ok (adj1, next)) : adj_total adj1 < adj_total adj := by
  cases hg : adj_get adj cur with
  | nil => simp [walk_step, hg] at h
  | cons n rest =>
    obtain ⟨adj2, h1, _, h3⟩ := walk_step_get adj cur n rest hg
    rw [h1] at h
    simp only [Except.ok.injEq, Prod.mk.injEq] at h
    rw [← h.1]
    exact h3

/-- The inner loop never uses up a budget larger than the number of entries of the adjacency
list, and it removes at least one entry when it returns. -/
theorem new_tour_loop_fuel : ∀ (fuel : Nat) (adj : List (Nat × List Nat)) (init cur : Nat)
    (acc : List Nat), adj_total adj < fuel →
    new_tour_loop fuel adj init cur acc ≠ .error failure.out_of_fuel ∧
    ∀ adj1 t, new_tour_loop fuel adj init cur acc = .ok (adj1, t) →
      adj_total adj1 < adj_total adj := by
  intro fuel
  induction fuel with
  | zero => intro adj init cur acc h; omega
  | succ fuel ih =>
    intro adj init cur acc hfuel
    cases hs : walk_step adj cur with
    | error e =>
      have he : e = failure.undefined_behaviour := by
        unfold walk_step at hs
        split at hs
        · simpa using hs.symm
        · simp at hs
      simp [new_tour_loop, hs, he]
    | ok r =>
      obtain ⟨adj1, next⟩ := r
      have htot := walk_step_total adj adj1 cur next hs
      by_cases hn : next = init
      · simp only [new_tour_loop, hs, hn, ne_eq, not_true_eq_false, if_false]
        refine ⟨by simp, ?_⟩
        intro adj2 t h
        simp only [Except.ok.injEq, Prod.mk.injEq] at h
        rw [← h.1]
        exact htot
      · obtain ⟨h1, h2⟩ := ih adj1 init next (acc ++ [cur]) (by omega)
        simp only [new_tour_loop, hs, ne_eq, hn, not_false_eq_true, if_true]
        refine ⟨h1, ?_⟩
        intro adj2 t h
        have := h2 adj2 t h
        omega

/-- The outer loop never uses up a budget larger than the number of entries of the adjacency
list: the budget that `hierholzer` gives it is enough for every input. -/
theorem hierholzer_loop_fuel : ∀ (fuel : Nat) (adj : List (Nat × List Nat)) (path : List Nat),
    adj_total adj < fuel → hierholzer_loop fuel adj path ≠ .error failure.out_of_fuel := by
  intro fuel
  induction fuel with
  | zero => intro adj path h; omega
  | succ fuel ih =>
    intro adj path hfuel
    cases hf : find_new_tour_start adj path with
    | none => simp [hierholzer_loop, hf]
    | some i =>
      obtain ⟨h1, h2⟩ := new_tour_loop_fuel (adj_total adj + 1) adj (path.getD i 0)
        (path.getD i 0) [] (by omega)
      cases hr : new_tour_loop (adj_total adj + 1) adj (path.getD i 0) (path.getD i 0) [] with
      | error e =>
        simp only [hierholzer_loop, hf, hr]
        intro hc
        apply h1
        rw [hr]
        injection hc with hc
        rw [hc]
      | ok r =>
        obtain ⟨adj1, t⟩ := r
        simp only [hierholzer_loop, hf, hr]
        exact ih adj1 _ (by have := h2 adj1 t hr; omega)

/-! ### The inner loop of Hierholzer -/

theorem consecutive_pairs_append_cons (l1 : List Nat) (x : Nat) (l2 : List Nat) :
    consecutive_pairs (l1 ++ x :: l2) =
      consecutive_pairs (l1 ++ [x]) ++ consecutive_pairs (x :: l2) := by
  induction l1 with
  | nil => simp [consecutive_pairs]
  | cons a l1 ih =>
    cases l1 with
    | nil => simp [consecutive_pairs]
    | cons b l1 =>
      have e1 : (a :: b :: l1) ++ x :: l2 = a :: b :: (l1 ++ x :: l2) := rfl
      have e2 : (a :: b :: l1) ++ [x] = a :: b :: (l1 ++ [x]) := rfl
      have e3 : (b :: l1) ++ x :: l2 = b :: (l1 ++ x :: l2) := rfl
      have e4 : (b :: l1) ++ [x] = b :: (l1 ++ [x]) := rfl
      rw [e3, e4] at ih
      rw [e1, e2, consecutive_pairs, consecutive_pairs, ih]
      rfl

theorem arc_count_append (l1 l2 : List (Nat × Nat)) (u v : Nat) :
    arc_count (l1 ++ l2) u v = arc_count l1 u v + arc_count l2 u v := by
  simp only [arc_count, List.count_append]; omega

theorem arc_count_comm (l : List (Nat × Nat)) (u v : Nat) :
    arc_count l u v = arc_count l v u := by
  simp only [arc_count]; omega

theorem arc_count_cons (p : Nat × Nat) (l : List (Nat × Nat)) (u v : Nat) :
    arc_count (p :: l) u v = arc_count [p] u v + arc_count l u v := by
  simp only [arc_count, List.count_cons, List.count_nil]; omega

theorem mem_of_mem_consecutive_pairs (p : List Nat) (x y : Nat)
    (h : (x, y) ∈ consecutive_pairs p) : x ∈ p ∧ y ∈ p := by
  induction p with
  | nil => simp [consecutive_pairs] at h
  | cons a p ih =>
    cases p with
    | nil => simp [consecutive_pairs] at h
    | cons b p =>
      simp only [consecutive_pairs, List.mem_cons, Prod.mk.injEq] at h
      rcases h with ⟨h1, h2⟩ | h
      · subst h1; subst h2; simp
      · have := ih h
        exact ⟨List.mem_cons_of_mem _ this.1, List.mem_cons_of_mem _ this.2⟩

theorem mem_of_arc_count_pos (p : List Nat) (u v : Nat)
    (h : 0 < arc_count (consecutive_pairs p) u v) : u ∈ p ∧ v ∈ p := by
  simp only [arc_count] at h
  by_cases h1 : 0 < (consecutive_pairs p).count (u, v)
  · exact mem_of_mem_consecutive_pairs p u v (List.count_pos_iff.1 h1)
  · have h2 : 0 < (consecutive_pairs p).count (v, u) := by omega
    exact (mem_of_mem_consecutive_pairs p v u (List.count_pos_iff.1 h2)).symm

theorem adj_invariants_of_counts (adj adj1 : List (Nat × List Nat)) (l : List (Nat × Nat))
    (hs : adj_symmetric adj) (hl : adj_loops_even adj)
    (hc : ∀ u v, (adj_get adj1 u).count v + arc_count l u v = (adj_get adj u).count v) :
    adj_symmetric adj1 ∧ adj_loops_even adj1 := by
  constructor
  · intro u v
    have h1 := hc u v
    have h2 := hc v u
    have h3 := hs u v
    have h4 := arc_count_comm l u v
    omega
  · intro u
    have h1 := hc u u
    have h2 := hl u
    simp only [arc_count] at h1
    omega

theorem new_tour_loop_spec : ∀ (fuel : Nat) (adj : List (Nat × List Nat))
    (init cur : Nat) (acc : List Nat),
    adj_symmetric adj → adj_loops_even adj →
    (∀ u, ((adj_get adj u).length + (if u = init then 1 else 0) +
      (if u = cur then 1 else 0)) % 2 = 0) →
    0 < (adj_get adj cur).length → adj_total adj < fuel →
    ∃ adj1 t, new_tour_loop fuel adj init cur acc = .ok (adj1, acc ++ cur :: t) ∧
      adj_symmetric adj1 ∧ adj_loops_even adj1 ∧ adj_even adj1 ∧
      (∀ u v, (adj_get adj1 u).count v +
        arc_count (consecutive_pairs (cur :: t ++ [init])) u v = (adj_get adj u).count v) ∧
      adj_total adj1 < adj_total adj := by
  intro fuel
  induction fuel with
  | zero => intro adj init cur acc _ _ _ _ h; omega
  | succ fuel ih =>
    intro adj init cur acc hs hl hpar hpos hfuel
    obtain ⟨next, rest, hget⟩ : ∃ next rest, adj_get adj cur = next :: rest := by
      cases hg : adj_get adj cur with
      | nil => rw [hg] at hpos; simp at hpos
      | cons a b => exact ⟨a, b, rfl⟩
    obtain ⟨adj1, hstep, hcnt, hdeg, htot⟩ := walk_step_counts adj cur next rest hget hs hl
    obtain ⟨hs1, hl1⟩ := adj_invariants_of_counts adj adj1 _ hs hl hcnt
    by_cases hni : next = init
    · refine ⟨adj1, [], ?_, hs1, hl1, ?_, ?_, htot⟩
      · simp [new_tour_loop, hstep, hni]
      · intro u
        have h1 := hdeg u
        have h2 := hpar u
        rw [hni] at h1
        omega
      · intro u v
        have := hcnt u v
        simpa [consecutive_pairs, hni] using this
    · have hpar1 : ∀ u, ((adj_get adj1 u).length + (if u = init then 1 else 0) +
          (if u = next then 1 else 0)) % 2 = 0 := by
        intro u
        have h1 := hdeg u
        have h2 := hpar u
        omega
      have hpos1 : 0 < (adj_get adj1 next).length := by
        have := hpar1 next
        simp only [hni, if_false, if_true] at this
        omega
      obtain ⟨adj2, t, hrun, hs2, hl2, he2, hcnt2, htot2⟩ :=
        ih adj1 init next (acc ++ [cur]) hs1 hl1 hpar1 hpos1 (by omega)
      refine ⟨adj2, next :: t, ?_, hs2, hl2, he2, ?_, by omega⟩
      · simp [new_tour_loop, hstep, hni, hrun]
      · intro u v
        have h1 := hcnt u v
        have h2 := hcnt2 u v
        have h3 : consecutive_pairs (cur :: (next :: t) ++ [init]) =
            (cur, next) :: consecutive_pairs (next :: t ++ [init]) := by
          simp [consecutive_pairs]
        rw [h3, arc_count_cons]
        omega

/-! ### The outer loop of Hierholzer -/

theorem find_new_tour_start_none (adj : List (Nat × List Nat)) (path : List Nat)
    (h : find_new_tour_start adj path = none) : ∀ v ∈ path, adj_get adj v = [] := by
  induction path with
  | nil => intro v hv; simp at hv
  | cons a path ih =>
    intro v hv
    simp only [find_new_tour_start] at h
    split at h
    · simp at h
    · rename_i hlen
      simp only [Option.map_eq_none'] at h
      rcases List.mem_cons.1 hv with hv | hv
      · subst hv
        exact List.length_eq_zero.1 (by omega)
      · exact ih h v hv

theorem find_new_tour_start_some (adj : List (Nat × List Nat)) (path : List Nat) (i : Nat)
    (h : find_new_tour_start adj path = some i) :
    ∃ pre post, path = pre ++ path.getD i 0 :: post ∧ pre = path.take i ∧
      path.drop i = path.getD i 0 :: post ∧ 0 < (adj_get adj (path.getD i 0)).length := by
  induction path generalizing i with
  | nil => simp [find_new_tour_start] at h
  | cons a path ih =>
    simp only [find_new_tour_start] at h
    split at h
    · rename_i hlen
      simp only [Option.some.injEq] at h
      subst h
      exact ⟨[], path, by simp, by simp, by simp, by simpa using hlen⟩
    · simp only [Option.map_eq_some'] at h
      obtain ⟨j, hj, hji⟩ := h
      subst hji
      obtain ⟨pre, post, h1, h2, h3, h4⟩ := ih j hj
      refine ⟨a :: pre, post, ?_, ?_, ?_, ?_⟩
      · simp only [List.getD_cons_succ, List.cons_append]
        rw [← h1]
      · simp [h2]
      · simpa using h3
      · simpa using h4

theorem getLast?_append_cons (l : List Nat) (x : Nat) (post : List Nat) :
    (l ++ x :: post).getLast? = (x :: post).getLast? := by
  rw [List.getLast?_append, List.getLast?_eq_getLast (x :: post) (by simp)]
  rfl

theorem hierholzer_loop_spec (C0 : Nat → Nat → Nat) : ∀ (fuel : Nat)
    (adj : List (Nat × List Nat)) (path : List Nat), path ≠ [] →
    adj_symmetric adj → adj_loops_even adj → adj_even adj → adj_total adj < fuel →
    (∀ u v, (adj_get adj u).count v + arc_count (consecutive_pairs path) u v = C0 u v) →
    ∃ path1, hierholzer_loop fuel adj path = .ok path1 ∧ path1.head? = path.head? ∧
      path1.getLast? = path.getLast? ∧
      (∀ u v, arc_count (consecutive_pairs path1) u v ≤ C0 u v) ∧
      (∀ a ∈ path1, ∀ b, arc_count (consecutive_pairs path1) a b = C0 a b) := by
  intro fuel
  induction fuel with
  | zero => intro adj path _ _ _ _ h; omega
  | succ fuel ih =>
    intro adj path hne hs hl he hfuel hC
    cases hf : find_new_tour_start adj path with
    | none =>
      refine ⟨path, by simp [hierholzer_loop, hf], rfl, rfl, ?_, ?_⟩
      · intro u v
        have := hC u v
        omega
      · intro a ha b
        have h1 := find_new_tour_start_none adj path hf a ha
        have h2 := hC a b
        rw [h1] at h2
        simpa using h2
    | some i =>
      obtain ⟨pre, post, hpath, hpre, hdrop, hpos⟩ := find_new_tour_start_some adj path i hf
      have hstep : ∀ adj1 new_tour,
          new_tour_loop (adj_total adj + 1) adj (path.getD i 0) (path.getD i 0) [] =
            .ok (adj1, new_tour) →
          hierholzer_loop (fuel + 1) adj path =
            hierholzer_loop fuel adj1 (pre ++ new_tour ++ path.getD i 0 :: post) := by
        intro adj1 new_tour hrun
        rw [hpre]
        simp only [hierholzer_loop, hf, hdrop, hrun]
      generalize path.getD i 0 = x at hpath hpos hstep
      clear hpre hdrop
      subst hpath
      have hpar : ∀ u, ((adj_get adj u).length + (if u = x then 1 else 0) +
          (if u = x then 1 else 0)) % 2 = 0 := by
        intro u
        have := he u
        split <;> omega
      obtain ⟨adj1, t, hrun, hs1, hl1, he1, hcnt, htot⟩ :=
        new_tour_loop_spec (adj_total adj + 1) adj x x [] hs hl hpar hpos (by omega)
      have hC1 : ∀ u v, (adj_get adj1 u).count v + arc_count (consecutive_pairs
          (pre ++ ([] ++ x :: t) ++ x :: post)) u v = C0 u v := by
        intro u v
        have h1 := hC u v
        have h2 := hcnt u v
        have e1 : pre ++ ([] ++ x :: t) ++ x :: post = pre ++ x :: (t ++ x :: post) := by simp
        have e2 : x :: (t ++ x :: post) = (x :: t) ++ x :: post := by simp
        have e3 := consecutive_pairs_append_cons pre x (t ++ x :: post)
        have e4 := consecutive_pairs_append_cons (x :: t) x post
        have e5 := consecutive_pairs_append_cons pre x post
        rw [e1, e3, e2, e4, arc_count_append, arc_count_append]
        rw [e5, arc_count_append] at h1
        omega
      obtain ⟨path1, hrun1, hh, hlast, hle, heq⟩ :=
        ih adj1 (pre ++ ([] ++ x :: t) ++ x :: post) (by simp) hs1 hl1 he1 (by omega) hC1
      refine ⟨path1, ?_, ?_, ?_, hle, heq⟩
      · rw [hstep _ _ hrun]
        exact hrun1
      · rw [hh]
        cases pre <;> simp
      · rw [hlast]
        have e1 : pre ++ ([] ++ x :: t) ++ x :: post = (pre ++ x :: t) ++ x :: post := by simp
        rw [e1, getLast?_append_cons, getLast?_append_cons]

/-! ### Keys, links and unordered pairs -/

theorem adj_keys_push (m : List (Nat × List Nat)) (k v : Nat) :
    (adj_push m k v).map Prod.fst =
      if k ∈ m.map Prod.fst then m.map Prod.fst else m.map Prod.fst ++ [k] := by
  simp only [adj_push, adj_keys_set]

theorem adjacency_list_of_edges_keys (es : List edge) :
    ((adjacency_list_of_edges es).map Prod.fst).Nodup ∧
    ∀ k, k ∈ (adjacency_list_of_edges es).map Prod.fst ↔
      ∃ e ∈ es, e.first_vertex = k ∨ e.second_vertex = k := by
  induction es using List.reverseRecOn with
  | nil => simp [adjacency_list_of_edges]
  | append_singleton es e ih =>
    obtain ⟨hnd, hmem⟩ := ih
    rw [adjacency_list_of_edges_snoc, adj_keys_push, adj_keys_push]
    have hnd1 : (if e.first_vertex ∈ (adjacency_list_of_edges es).map Prod.fst then
        (adjacency_list_of_edges es).map Prod.fst
        else (adjacency_list_of_edges es).map Prod.fst ++ [e.first_vertex]).Nodup := by
      split
      · exact hnd
      · rename_i h
        rw [List.nodup_append]
        refine ⟨hnd, List.nodup_singleton _, ?_⟩
        intro a ha hb
        rw [List.mem_singleton] at hb
        exact h (hb ▸ ha)
    have hmem1 : ∀ k, k ∈ (if e.first_vertex ∈ (adjacency_list_of_edges es).map Prod.fst then
        (adjacency_list_of_edges es).map Prod.fst
        else (adjacency_list_of_edges es).map Prod.fst ++ [e.first_vertex]) ↔
        (k ∈ (adjacency_list_of_edges es).map Prod.fst ∨ k = e.first_vertex) := by
      intro k
      split
      · rename_i h
        constructor
        · exact Or.inl
        · rintro (h1 | h1)
          · exact h1
          · exact h1 ▸ h
      · simp
    generalize (if e.first_vertex ∈ (adjacency_list_of_edges es).map Prod.fst then
        (adjacency_list_of_edges es).map Prod.fst
        else (adjacency_list_of_edges es).map Prod.fst ++ [e.first_vertex]) = ks at hnd1 hmem1
    constructor
    · split
      · exact hnd1
      · rename_i h
        rw [List.nodup_append]
        refine ⟨hnd1, List.nodup_singleton _, ?_⟩
        intro a ha hb
        rw [List.mem_singleton] at hb
        exact h (hb ▸ ha)
    · intro k
      have key : k ∈ (if e.second_vertex ∈ ks then ks else ks ++ [e.second_vertex]) ↔
          (k ∈ ks ∨ k = e.second_vertex) := by
        split
        · rename_i h
          constructor
          · exact Or.inl
          · rintro (h1 | h1)
            · exact h1
            · exact h1 ▸ h
        · simp
      rw [key, hmem1, hmem k]
      simp only [List.mem_append, List.mem_singleton]
      constructor
      · rintro ((⟨e1, he1, h1⟩ | h1) | h1)
        · exact ⟨e1, Or.inl he1, h1⟩
        · exact ⟨e, Or.inr rfl, Or.inl h1.symm⟩
        · exact ⟨e, Or.inr rfl, Or.inr h1.symm⟩
      · rintro ⟨e1, he1 | he1, h1⟩
        · exact Or.inl (Or.inl ⟨e1, he1, h1⟩)
        · subst he1
          rcases h1 with h1 | h1
          · exact Or.inl (Or.inr h1.symm)
          · exact Or.inr h1.symm

theorem adjacency_list_of_edges_invariants (es : List edge) :
    adj_symmetric (adjacency_list_of_edges es) ∧ adj_loops_even (adjacency_list_of_edges es) := by
  constructor
  · intro u v
    rw [count_adj_get_adjacency_list_of_edges, count_adj_get_adjacency_list_of_edges]
    exact arc_count_comm _ u v
  · intro u
    rw [count_adj_get_adjacency_list_of_edges]
    simp only [arc_count]
    omega

theorem linked_iff_arc_count_pos (es : List edge) (a b : Nat) :
    linked es a b ↔ 0 < arc_count (edge_pairs es) a b := by
  simp only [linked, arc_count, edge_pairs]
  constructor
  · rintro ⟨e, he, h | h⟩
    · have : (a, b) ∈ es.map (fun e => (e.first_vertex, e.second_vertex)) :=
        List.mem_map.2 ⟨e, he, by rw [h.1, h.2]⟩
      have := List.count_pos_iff.2 this
      omega
    · have : (b, a) ∈ es.map (fun e => (e.first_vertex, e.second_vertex)) :=
        List.mem_map.2 ⟨e, he, by rw [h.1, h.2]⟩
      have := List.count_pos_iff.2 this
      omega
  · intro h
    by_cases h1 : 0 < (es.map (fun e => (e.first_vertex, e.second_vertex))).count (a, b)
    · obtain ⟨e, he, h2⟩ := List.mem_map.1 (List.count_pos_iff.1 h1)
      simp only [Prod.mk.injEq] at h2
      exact ⟨e, he, Or.inl h2⟩
    · have h3 : 0 < (es.map (fun e => (e.first_vertex, e.second_vertex))).count (b, a) := by
        omega
      obtain ⟨e, he, h2⟩ := List.mem_map.1 (List.count_pos_iff.1 h3)
      simp only [Prod.mk.injEq] at h2
      exact ⟨e, he, Or.inr h2⟩

theorem count_sym2_map (l : List (Nat × Nat)) (u v : Nat) :
    (l.map (fun p => s(p.1, p.2))).count s(u, v) =
      if u = v then l.count (u, u) else l.count (u, v) + l.count (v, u) := by
  induction l with
  | nil => simp
  | cons p l ih =>
    obtain ⟨a, b⟩ := p
    simp only [List.map_cons, List.count_cons, ih, beq_iff_eq, Sym2.eq_iff, Prod.mk.injEq]
    by_cases huv : u = v
    · subst huv
      by_cases h1 : a = u <;> by_cases h2 : b = u <;> simp [h1, h2]
    · by_cases h1 : a = u <;> by_cases h2 : b = v <;> by_cases h3 : a = v <;>
        by_cases h4 : b = u <;> simp [huv, h1, h2, h3, h4] <;>
        first | omega | (subst_vars; simp_all)

theorem sym2_perm_of_arc_count (l1 l2 : List (Nat × Nat))
    (h : ∀ u v, arc_count l1 u v = arc_count l2 u v) :
    (l1.map (fun p => s(p.1, p.2))).Perm (l2.map (fun p => s(p.1, p.2))) := by
  rw [List.perm_iff_count]
  intro z
  induction z using Sym2.ind with
  | _ u v =>
    rw [count_sym2_map, count_sym2_map]
    have := h u v
    simp only [arc_count] at this
    split
    · rename_i huv
      subst huv
      omega
    · exact this

theorem length_consecutive_pairs (p : List Nat) :
    (consecutive_pairs p).length = p.length - 1 := by
  induction p with
  | nil => rfl
  | cons a p ih =>
    cases p with
    | nil => rfl
    | cons b p =>
      simp only [consecutive_pairs, List.length_cons] at ih ⊢
      omega

/-! ### The Eulerian circuit -/

/-- Hierholzer's loops on the adjacency list of an edge list in which every vertex has even
degree: they return a closed walk from `start` that uses no edge more often than the graph has
it, and uses every edge at every vertex that a chain of edges joins to `start`. -/
theorem hierholzer_loop_reachable (es : List edge) (start : Nat)
    (heven : adj_even (adjacency_list_of_edges es)) :
    ∃ path, hierholzer_loop (adj_total (adjacency_list_of_edges es) + 1)
        (adjacency_list_of_edges es) [start] = .ok path ∧
      path.head? = some start ∧ path.getLast? = some start ∧
      (∀ u v, arc_count (consecutive_pairs path) u v ≤ arc_count (edge_pairs es) u v) ∧
      (∀ w, Relation.ReflTransGen (linked es) start w →
        w ∈ path ∧ ∀ b, arc_count (consecutive_pairs path) w b =
          arc_count (edge_pairs es) w b) := by
  obtain ⟨hs, hl⟩ := adjacency_list_of_edges_invariants es
  obtain ⟨path, hrun, hh, hlast, hle, heq⟩ :=
    hierholzer_loop_spec (fun u v => arc_count (edge_pairs es) u v)
      (adj_total (adjacency_list_of_edges es) + 1) (adjacency_list_of_edges es) [start]
      (by simp) hs hl heven (by omega)
      (by intro u v; simp [consecutive_pairs, arc_count, count_adj_get_adjacency_list_of_edges])
  have hstart : start ∈ path := by
    have : path.head? = some start := by simpa using hh
    exact List.mem_of_mem_head? this
  refine ⟨path, hrun, by simpa using hh, by simpa using hlast, hle, ?_⟩
  intro w hw
  have hmem : w ∈ path := by
    induction hw with
    | refl => exact hstart
    | @tail a b _ hab ih =>
      have h1 := (linked_iff_arc_count_pos es a b).1 hab
      have h2 := heq a ih b
      simp only at h2
      exact (mem_of_arc_count_pos path a b (by omega)).2
  exact ⟨hmem, heq w hmem⟩

/-- Hierholzer's loops on the adjacency list of a connected multigraph with at least one edge
and even degree everywhere return a closed walk that traverses every edge exactly once. -/
theorem hierholzer_circuit (es : List edge) (visited : List (Nat × List Nat))
    (hne : es ≠ []) (hvis : visited.Perm (adjacency_list_of_edges es))
    (hconn : connected es) (heven : adj_even (adjacency_list_of_edges es)) :
    ∃ eulerian_path, hierholzer (adjacency_list_of_edges es) visited = .ok eulerian_path ∧
      eulerian_path.head? = eulerian_path.getLast? ∧
      eulerian_path.length = es.length + 1 ∧
      ((consecutive_pairs eulerian_path).map (fun p => s(p.1, p.2))).Perm
        (es.map (fun e => s(e.first_vertex, e.second_vertex))) := by
  obtain ⟨hnd, hkeys⟩ := adjacency_list_of_edges_keys es
  cases hv : visited with
  | nil =>
    exfalso
    rw [hv] at hvis
    have h1 := hvis.symm.eq_nil
    obtain ⟨e, he⟩ := List.exists_mem_of_ne_nil es hne
    have h2 := (hkeys e.first_vertex).2 ⟨e, he, Or.inl rfl⟩
    rw [h1] at h2
    simp at h2
  | cons a rest =>
    have ha : a.1 ∈ (adjacency_list_of_edges es).map Prod.fst := by
      apply List.mem_map_of_mem
      apply hvis.subset
      rw [hv]
      exact List.mem_cons_self _ _
    obtain ⟨e0, he0, hend⟩ := (hkeys a.1).1 ha
    obtain ⟨path, hrun, hh, hlast, hle, hreach⟩ := hierholzer_loop_reachable es a.1 heven
    have hfrom : ∀ e ∈ es, Relation.ReflTransGen (linked es) a.1 e.first_vertex := by
      intro e he
      rcases hend with h | h
      · rw [← h]; exact hconn e0 he0 e he
      · have h1 : linked es a.1 e0.first_vertex := ⟨e0, he0, Or.inr ⟨rfl, h⟩⟩
        exact Relation.ReflTransGen.head h1 (hconn e0 he0 e he)
    have hall : ∀ u v, arc_count (consecutive_pairs path) u v =
        arc_count (edge_pairs es) u v := by
      intro u v
      by_cases h0 : 0 < arc_count (edge_pairs es) u v
      · obtain ⟨e, he, h | h⟩ := (linked_iff_arc_count_pos es u v).2 h0
        · have := hfrom e he
          rw [h.1] at this
          exact (hreach u this).2 v
        · have h1 := hfrom e he
          have h2 : linked es e.first_vertex u := ⟨e, he, Or.inl ⟨rfl, h.2⟩⟩
          exact (hreach u (Relation.ReflTransGen.tail h1 h2)).2 v
      · have := hle u v
        omega
    have hperm : ((consecutive_pairs path).map (fun p => s(p.1, p.2))).Perm
        (es.map (fun e => s(e.first_vertex, e.second_vertex))) := by
      have := sym2_perm_of_arc_count (consecutive_pairs path) (edge_pairs es) hall
      simpa [edge_pairs, List.map_map] using this
    refine ⟨path, by simp only [hierholzer, hrun], by rw [hh, hlast], ?_, hperm⟩
    have h1 := hperm.length_eq
    simp only [List.length_map, length_consecutive_pairs] at h1
    have h2 : 0 < path.length := by
      cases path with
      | nil => simp at hh
      | cons _ _ => simp
    omega

/-! ### Shortcutting -/

theorem shortcut_loop_spec (rest : List Nat) : ∀ (vis tour : List Nat),
    (∀ x, x ∈ vis ↔ x ∈ tour) → tour.Nodup →
    (shortcut_loop rest vis tour).Nodup ∧
    (∀ x, x ∈ shortcut_loop rest vis tour ↔ x ∈ tour ∨ x ∈ rest) ∧
    (∀ u v, u ∈ shortcut_loop rest vis tour → v ∈ shortcut_loop rest vis tour →
      ((shortcut_loop rest vis tour).indexOf u < (shortcut_loop rest vis tour).indexOf v ↔
        (tour ++ rest).indexOf u < (tour ++ rest).indexOf v)) := by
  induction rest with
  | nil =>
    intro vis tour _ hnd
    simp [shortcut_loop, hnd]
  | cons x rest ih =>
    intro vis tour hvis hnd
    by_cases hx : x ∈ vis
    · have hxt : x ∈ tour := (hvis x).1 hx
      have hloop : shortcut_loop (x :: rest) vis tour = shortcut_loop rest vis tour := by
        simp [shortcut_loop, hx]
      rw [hloop]
      obtain ⟨h1, h2, h3⟩ := ih vis tour hvis hnd
      refine ⟨h1, ?_, ?_⟩
      · intro y
        rw [h2 y]
        constructor
        · rintro (h | h)
          · exact Or.inl h
          · exact Or.inr (List.mem_cons_of_mem _ h)
        · rintro (h | h)
          · exact Or.inl h
          · rcases List.mem_cons.1 h with h | h
            · exact Or.inl (h ▸ hxt)
            · exact Or.inr h
      · intro u v hu hv
        rw [h3 u v hu hv]
        have key : ∀ w, w ∈ tour ∨ w ∈ rest →
            ((w ∈ tour ∧ (tour ++ rest).indexOf w = tour.indexOf w ∧
              (tour ++ x :: rest).indexOf w = tour.indexOf w ∧ tour.indexOf w < tour.length) ∨
             (w ∉ tour ∧ (tour ++ rest).indexOf w = tour.length + rest.indexOf w ∧
              (tour ++ x :: rest).indexOf w = tour.length + (rest.indexOf w + 1))) := by
          intro w hw
          by_cases hwt : w ∈ tour
          · left
            exact ⟨hwt, List.indexOf_append_of_mem hwt, List.indexOf_append_of_mem hwt,
              List.indexOf_lt_length.2 hwt⟩
          · right
            have hne : x ≠ w := fun e => hwt (e ▸ hxt)
            refine ⟨hwt, List.indexOf_append_of_not_mem hwt, ?_⟩
            rw [List.indexOf_append_of_not_mem hwt, List.indexOf_cons_ne _ hne]
        rcases key u ((h2 u).1 hu) with ⟨_, a1, a2, a3⟩ | ⟨_, a1, a2⟩ <;>
        rcases key v ((h2 v).1 hv) with ⟨_, b1, b2, b3⟩ | ⟨_, b1, b2⟩ <;>
        rw [a1, a2, b1, b2] <;> omega
    · have hxt : x ∉ tour := fun h => hx ((hvis x).2 h)
      have hloop : shortcut_loop (x :: rest) vis tour =
          shortcut_loop rest (x :: vis) (tour ++ [x]) := by
        simp [shortcut_loop, hx]
      rw [hloop]
      have hvis1 : ∀ y, y ∈ x :: vis ↔ y ∈ tour ++ [x] := by
        intro y
        simp [hvis y, or_comm]
      have hnd1 : (tour ++ [x]).Nodup := by
        rw [List.nodup_append]
        refine ⟨hnd, List.nodup_singleton x, ?_⟩
        intro a ha hb
        rw [List.mem_singleton] at hb
        exact hxt (hb ▸ ha)
      obtain ⟨h1, h2, h3⟩ := ih (x :: vis) (tour ++ [x]) hvis1 hnd1
      refine ⟨h1, ?_, ?_⟩
      · intro y
        rw [h2 y]
        simp [or_assoc]
      · intro u v hu hv
        rw [h3 u v hu hv]
        simp

/-- The shortcutting loop keeps the first appearance of every vertex, in order. -/
theorem shortcut_spec (eulerian_path : List Nat) :
    (shortcut eulerian_path).Nodup ∧
    (∀ v, v ∈ shortcut eulerian_path ↔ v ∈ eulerian_path) ∧
    (∀ u v, u ∈ shortcut eulerian_path → v ∈ shortcut eulerian_path →
      ((shortcut eulerian_path).indexOf u < (shortcut eulerian_path).indexOf v ↔
        eulerian_path.indexOf u < eulerian_path.indexOf v)) := by
  have h := shortcut_loop_spec eulerian_path [] [] (by simp) List.nodup_nil
  simpa [shortcut] using h

/-! ### The split of the assignment -/

theorem map_at_of_mem (m : List (Nat × Nat)) (hnd : (m.map Prod.fst).Nodup) (a b : Nat)
    (h : (a, b) ∈ m) : map_at m a = .ok b := by
  induction m with
  | nil => simp at h
  | cons p m ih =>
    obtain ⟨k, v⟩ := p
    simp only [List.map_cons, List.nodup_cons] at hnd
    rcases List.mem_cons.1 h with h | h
    · simp only [Prod.mk.injEq] at h
      simp [map_at, h.1, h.2]
    · have hk : k ≠ a := by
        intro e
        subst e
        exact hnd.1 (List.mem_map.2 ⟨(k, b), h, rfl⟩)
      simp [map_at, hk, ih hnd.2 h]

theorem map_at_mem (m : List (Nat × Nat)) (a b : Nat) (h : map_at m a = .ok b) :
    (a, b) ∈ m := by
  induction m with
  | nil => simp [map_at] at h
  | cons p m ih =>
    obtain ⟨k, v⟩ := p
    simp only [map_at] at h
    split at h
    · rename_i hk
      simp only [Except.ok.injEq] at h
      simp [hk, h]
    · exact List.mem_cons_of_mem _ (ih h)

theorem eq_of_mem_of_nodup_keys (m : List (Nat × Nat)) (hnd : (m.map Prod.fst).Nodup)
    (a b c : Nat) (h1 : (a, b) ∈ m) (h2 : (a, c) ∈ m) : b = c := by
  have e1 := map_at_of_mem m hnd a b h1
  have e2 := map_at_of_mem m hnd a c h2
  rw [e1] at e2
  simpa using e2

theorem map_emplace_of_mem (m : List (Nat × Nat)) (k v : Nat) (h : k ∈ m.map Prod.fst) :
    map_emplace m k v = m := by
  have : (m.map Prod.fst).contains k = true := by simpa using h
  simp only [map_emplace, this, if_true]

theorem map_emplace_of_not_mem (m : List (Nat × Nat)) (k v : Nat) (h : k ∉ m.map Prod.fst) :
    map_emplace m k v = m ++ [(k, v)] := by
  have : (m.map Prod.fst).contains k = false := by
    simpa using h
  simp only [map_emplace, this]
  rfl

theorem nodup_elems_append (m : List (Nat × Nat)) (a b : Nat)
    (hN : (m.map Prod.fst ++ m.map Prod.snd).Nodup)
    (ha : a ∉ m.map Prod.fst ++ m.map Prod.snd) (hb : b ∉ m.map Prod.fst ++ m.map Prod.snd)
    (hab : a ≠ b) :
    ((m ++ [(a, b)]).map Prod.fst ++ (m ++ [(a, b)]).map Prod.snd).Nodup := by
  have hp : ((m ++ [(a, b)]).map Prod.fst ++ (m ++ [(a, b)]).map Prod.snd).Perm
      (a :: b :: (m.map Prod.fst ++ m.map Prod.snd)) := by
    simp only [List.map_append, List.map_cons, List.map_nil]
    have h1 : (m.map Prod.fst ++ [a] ++ (m.map Prod.snd ++ [b])).Perm
        ([a] ++ m.map Prod.fst ++ ([b] ++ m.map Prod.snd)) :=
      List.Perm.append List.perm_append_comm List.perm_append_comm
    refine h1.trans ?_
    simp only [List.singleton_append, List.cons_append]
    refine List.Perm.cons a ?_
    exact (List.perm_middle).trans (List.Perm.refl _)
  rw [hp.nodup_iff]
  refine List.nodup_cons.2 ⟨?_, List.nodup_cons.2 ⟨hb, hN⟩⟩
  intro h
  rcases List.mem_cons.1 h with h | h
  · exact hab h
  · exact ha h

theorem mem_elems_append (m : List (Nat × Nat)) (a b x : Nat) :
    x ∈ (m ++ [(a, b)]).map Prod.fst ++ (m ++ [(a, b)]).map Prod.snd ↔
      (x ∈ m.map Prod.fst ++ m.map Prod.snd ∨ x = a ∨ x = b) := by
  simp only [List.map_append, List.map_cons, List.map_nil, List.mem_append, List.mem_singleton]
  tauto

theorem emplace_coherent (mwpm final : List (Nat × Nat)) (hnd : (mwpm.map Prod.fst).Nodup)
    (a b : Nat) (hab : a < b) (h1 : (a, b) ∈ mwpm) (h2 : (b, a) ∈ mwpm)
    (hN : (final.map Prod.fst ++ final.map Prod.snd).Nodup) (hC : coherent_pairs mwpm final) :
    ((map_emplace final a b).map Prod.fst ++ (map_emplace final a b).map Prod.snd).Nodup ∧
    coherent_pairs mwpm (map_emplace final a b) ∧
    ∀ x, x ∈ (map_emplace final a b).map Prod.fst ++ (map_emplace final a b).map Prod.snd ↔
      (x ∈ final.map Prod.fst ++ final.map Prod.snd ∨ x = a ∨ x = b) := by
  by_cases hk : a ∈ final.map Prod.fst
  · rw [map_emplace_of_mem final a b hk]
    refine ⟨hN, hC, ?_⟩
    intro x
    obtain ⟨e, he, hea⟩ := List.mem_map.1 hk
    obtain ⟨_, c1, _⟩ := hC e he
    have hb : e.2 = b := by
      rw [hea] at c1
      exact eq_of_mem_of_nodup_keys mwpm hnd a e.2 b c1 h1
    have hbm : b ∈ final.map Prod.snd := List.mem_map.2 ⟨e, he, hb⟩
    constructor
    · exact Or.inl
    · rintro (h | h | h)
      · exact h
      · exact h ▸ List.mem_append_left _ hk
      · exact h ▸ List.mem_append_right _ hbm
  · rw [map_emplace_of_not_mem final a b hk]
    have ha : a ∉ final.map Prod.fst ++ final.map Prod.snd := by
      intro h
      rcases List.mem_append.1 h with h | h
      · exact hk h
      · obtain ⟨e, he, hea⟩ := List.mem_map.1 h
        obtain ⟨c0, _, c2⟩ := hC e he
        rw [hea] at c2 c0
        have := eq_of_mem_of_nodup_keys mwpm hnd a e.1 b c2 h1
        omega
    have hb : b ∉ final.map Prod.fst ++ final.map Prod.snd := by
      intro h
      rcases List.mem_append.1 h with h | h
      · obtain ⟨e, he, hea⟩ := List.mem_map.1 h
        obtain ⟨c0, c1, _⟩ := hC e he
        rw [hea] at c1 c0
        have := eq_of_mem_of_nodup_keys mwpm hnd b e.2 a c1 h2
        omega
      · obtain ⟨e, he, hea⟩ := List.mem_map.1 h
        obtain ⟨_, _, c2⟩ := hC e he
        rw [hea] at c2
        have := eq_of_mem_of_nodup_keys mwpm hnd b e.1 a c2 h2
        exact hk (List.mem_map.2 ⟨e, he, this⟩)
    refine ⟨nodup_elems_append final a b hN ha hb (by omega), ?_, mem_elems_append final a b⟩
    intro e he
    rcases List.mem_append.1 he with he | he
    · exact hC e he
    · rw [List.mem_singleton] at he
      subst he
      exact ⟨hab, h1, h2⟩

theorem split_loop_spec (mwpm : List (Nat × Nat)) (hnd : (mwpm.map Prod.fst).Nodup)
    (hval : ∀ e ∈ mwpm, e.2 ∈ mwpm.map Prod.fst) (hfp : ∀ e ∈ mwpm, e.1 ≠ e.2) :
    ∀ (todo final : List (Nat × Nat)) (wrong : List Nat), (∀ e ∈ todo, e ∈ mwpm) →
    (final.map Prod.fst ++ final.map Prod.snd).Nodup → coherent_pairs mwpm final →
    ∃ final1, split_loop mwpm todo final wrong =
        .ok (final1, wrong ++ (todo.filter (fun e => decide ((e.2, e.1) ∉ mwpm))).map Prod.fst) ∧
      (final1.map Prod.fst ++ final1.map Prod.snd).Nodup ∧ coherent_pairs mwpm final1 ∧
      ∀ x, x ∈ final1.map Prod.fst ++ final1.map Prod.snd ↔
        (x ∈ final.map Prod.fst ++ final.map Prod.snd ∨
          ∃ e ∈ todo, (e.2, e.1) ∈ mwpm ∧ (x = e.1 ∨ x = e.2)) := by
  intro todo
  induction todo with
  | nil =>
    intro final wrong _ hN hC
    exact ⟨final, by simp [split_loop], hN, hC, by simp⟩
  | cons e todo ih =>
    intro final wrong hsub hN hC
    have hem : e ∈ mwpm := hsub e (List.mem_cons_self _ _)
    have hsub1 : ∀ e1 ∈ todo, e1 ∈ mwpm := fun e1 h => hsub e1 (List.mem_cons_of_mem _ h)
    obtain ⟨back, hback⟩ : ∃ back, (e.2, back) ∈ mwpm := by
      obtain ⟨e1, he1, h⟩ := List.mem_map.1 (hval e hem)
      exact ⟨e1.2, by rw [← h]; exact he1⟩
    have hat := map_at_of_mem mwpm hnd e.2 back hback
    by_cases hb : back = e.1
    · have hco : (e.2, e.1) ∈ mwpm := hb ▸ hback
      have hne := hfp e hem
      have h1 : (min e.1 e.2, max e.1 e.2) ∈ mwpm ∧ (max e.1 e.2, min e.1 e.2) ∈ mwpm ∧
          min e.1 e.2 < max e.1 e.2 ∧
          (∀ x, (x = min e.1 e.2 ∨ x = max e.1 e.2) ↔ (x = e.1 ∨ x = e.2)) := by
        rcases Nat.lt_or_gt_of_ne hne with hlt | hlt
        · rw [Nat.min_eq_left (le_of_lt hlt), Nat.max_eq_right (le_of_lt hlt)]
          exact ⟨hem, hco, hlt, fun x => Iff.rfl⟩
        · rw [Nat.min_eq_right (le_of_lt hlt), Nat.max_eq_left (le_of_lt hlt)]
          exact ⟨hco, hem, hlt, fun x => or_comm⟩
      obtain ⟨m1, m2, m3, m4⟩ := h1
      obtain ⟨hN1, hC1, hmem1⟩ := emplace_coherent mwpm final hnd _ _ m3 m1 m2 hN hC
      obtain ⟨final1, hrun, hN2, hC2, hmem2⟩ :=
        ih (map_emplace final (min e.1 e.2) (max e.1 e.2)) wrong hsub1 hN1 hC1
      refine ⟨final1, ?_, hN2, hC2, ?_⟩
      · have hdec : decide ((e.2, e.1) ∉ mwpm) = false := by simpa using hco
        simp only [split_loop, hat, hb, if_true, hrun, List.filter_cons, hdec]
        simp
      · intro x
        rw [hmem2 x, hmem1 x, m4 x]
        constructor
        · rintro ((h | h) | ⟨e1, he1, h⟩)
          · exact Or.inl h
          · exact Or.inr ⟨e, List.mem_cons_self _ _, hco, h⟩
          · exact Or.inr ⟨e1, List.mem_cons_of_mem _ he1, h⟩
        · rintro (h | ⟨e1, he1, h⟩)
          · exact Or.inl (Or.inl h)
          · rcases List.mem_cons.1 he1 with he1 | he1
            · subst he1
              exact Or.inl (Or.inr h.2)
            · exact Or.inr ⟨e1, he1, h⟩
    · have hnco : (e.2, e.1) ∉ mwpm := by
        intro h
        exact hb (eq_of_mem_of_nodup_keys mwpm hnd e.2 back e.1 hback h)
      obtain ⟨final1, hrun, hN2, hC2, hmem2⟩ := ih final (wrong ++ [e.1]) hsub1 hN hC
      refine ⟨final1, ?_, hN2, hC2, ?_⟩
      · have hdec : decide ((e.2, e.1) ∉ mwpm) = true := by simpa using hnco
        simp only [split_loop, hat, hb, if_false, hrun, List.filter_cons, hdec]
        simp
      · intro x
        rw [hmem2 x]
        constructor
        · rintro (h | ⟨e1, he1, h⟩)
          · exact Or.inl h
          · exact Or.inr ⟨e1, List.mem_cons_of_mem _ he1, h⟩
        · rintro (h | ⟨e1, he1, h⟩)
          · exact Or.inl h
          · rcases List.mem_cons.1 he1 with he1 | he1
            · subst he1
              exact absurd h.1 hnco
            · exact Or.inr ⟨e1, he1, h⟩

/-! ### The greedy repair -/

theorem vec_at_eq_ok (v : List Nat) (i x : Nat) : vec_at v i = .ok x ↔ v[i]? = some x := by
  simp only [vec_at, List.get?_eq_getElem?]
  cases v[i]? <;> simp

theorem vec_at_of_lt (v : List Nat) (i : Nat) (h : i < v.length) :
    vec_at v i = .ok (v.getD i 0) ∧ v[i]? = some (v.getD i 0) := by
  have h1 : v[i]? = some (v.getD i 0) := by
    rw [List.getD_eq_getElem?_getD, List.getElem?_eq_getElem h]
    rfl
  exact ⟨(vec_at_eq_ok v i _).2 h1, h1⟩

theorem min_max_cases (a b : Nat) (hab : a ≠ b) :
    (min a b ≠ max a b) ∧ ∀ x, (x = min a b ∨ x = max a b) ↔ (x = a ∨ x = b) := by
  rcases Nat.lt_or_gt_of_ne hab with h | h
  · rw [Nat.min_eq_left (le_of_lt h), Nat.max_eq_right (le_of_lt h)]
    exact ⟨hab, fun x => Iff.rfl⟩
  · rw [Nat.min_eq_right (le_of_lt h), Nat.max_eq_left (le_of_lt h)]
    exact ⟨fun e => hab e.symm, fun x => or_comm⟩

theorem repair_loop_spec (wrong : List Nat) (hW : wrong.Nodup) :
    ∀ (g final : List (Nat × Nat)), (g.map Prod.fst ++ g.map Prod.snd).Nodup →
    (∀ i ∈ g.map Prod.fst ++ g.map Prod.snd, i < wrong.length) →
    (final.map Prod.fst ++ final.map Prod.snd).Nodup →
    (∀ x ∈ final.map Prod.fst ++ final.map Prod.snd,
      ∀ i ∈ g.map Prod.fst ++ g.map Prod.snd, wrong[i]? ≠ some x) →
    ∃ final1, repair_loop wrong g final = .ok final1 ∧
      (final1.map Prod.fst ++ final1.map Prod.snd).Nodup ∧
      ∀ x, x ∈ final1.map Prod.fst ++ final1.map Prod.snd ↔
        (x ∈ final.map Prod.fst ++ final.map Prod.snd ∨
          ∃ i ∈ g.map Prod.fst ++ g.map Prod.snd, wrong[i]? = some x) := by
  intro g
  induction g with
  | nil =>
    intro final _ _ hN _
    exact ⟨final, by simp [repair_loop], hN, by simp⟩
  | cons e g ih =>
    intro final hg hlt hN hdis
    have hi : e.1 < wrong.length := hlt e.1 (by simp)
    have hj : e.2 < wrong.length := hlt e.2 (by simp)
    obtain ⟨ha, ha1⟩ := vec_at_of_lt wrong e.1 hi
    obtain ⟨hb, hb1⟩ := vec_at_of_lt wrong e.2 hj
    have hgp : (e.1 :: e.2 :: (g.map Prod.fst ++ g.map Prod.snd)).Nodup := by
      have hp : (e.1 :: e.2 :: (g.map Prod.fst ++ g.map Prod.snd)).Perm
          ((e :: g).map Prod.fst ++ (e :: g).map Prod.snd) := by
        simp only [List.map_cons, List.cons_append]
        exact List.Perm.cons _ List.perm_middle.symm
      exact hp.nodup_iff.2 hg
    obtain ⟨hg1, hg2⟩ := List.nodup_cons.1 hgp
    obtain ⟨hg3, hg4⟩ := List.nodup_cons.1 hg2
    have hij : e.1 ≠ e.2 := fun h => hg1 (by rw [h]; exact List.mem_cons_self _ _)
    have hinj : ∀ (i j y : Nat), wrong[i]? = some y → wrong[j]? = some y → i = j := by
      intro i j y h1 h2
      have h3 : i < wrong.length := (List.getElem?_eq_some.1 h1).1
      exact (List.getElem?_inj h3 hW (h1.trans h2.symm))
    have hab : wrong.getD e.1 0 ≠ wrong.getD e.2 0 := by
      intro h
      rw [← h] at hb1
      exact hij (hinj _ _ _ ha1 hb1)
    obtain ⟨hmm, hx⟩ := min_max_cases _ _ hab
    have hnot : ∀ y, (y = wrong.getD e.1 0 ∨ y = wrong.getD e.2 0) →
        y ∉ final.map Prod.fst ++ final.map Prod.snd := by
      intro y hy hmem
      rcases hy with hy | hy
      · exact hdis y hmem e.1 (by simp) (hy ▸ ha1)
      · exact hdis y hmem e.2 (by simp) (hy ▸ hb1)
    have hmin := hnot _ ((hx _).1 (Or.inl rfl))
    have hmax := hnot _ ((hx _).1 (Or.inr rfl))
    have hkey : min (wrong.getD e.1 0) (wrong.getD e.2 0) ∉ final.map Prod.fst :=
      fun h => hmin (List.mem_append_left _ h)
    have hN1 := nodup_elems_append final _ _ hN hmin hmax hmm
    have hdis1 : ∀ x ∈ (final ++ [(min (wrong.getD e.1 0) (wrong.getD e.2 0),
        max (wrong.getD e.1 0) (wrong.getD e.2 0))]).map Prod.fst ++
        (final ++ [(min (wrong.getD e.1 0) (wrong.getD e.2 0),
        max (wrong.getD e.1 0) (wrong.getD e.2 0))]).map Prod.snd,
        ∀ i ∈ g.map Prod.fst ++ g.map Prod.snd, wrong[i]? ≠ some x := by
      intro x hxm i hi1 hget
      rcases (mem_elems_append final _ _ x).1 hxm with h | h
      · exact hdis x h i (by
          simp only [List.map_cons, List.cons_append, List.mem_cons, List.mem_append] at hi1 ⊢
          tauto) hget
      · rcases (hx x).1 h with h | h
        · rw [h] at hget
          have := hinj _ _ _ hget ha1
          exact hg1 (this ▸ List.mem_cons_of_mem _ hi1)
        · rw [h] at hget
          have := hinj _ _ _ hget hb1
          exact hg3 (this ▸ hi1)
    obtain ⟨final1, hrun, hN2, hmem2⟩ := ih _ hg4 (fun i h => hlt i (by
      simp only [List.map_cons, List.cons_append, List.mem_cons, List.mem_append] at h ⊢
      tauto)) hN1 hdis1
    refine ⟨final1, ?_, hN2, ?_⟩
    · simp only [repair_loop, ha, hb, map_emplace_of_not_mem final _ _ hkey, hrun]
    · intro x
      rw [hmem2 x, mem_elems_append, hx x]
      constructor
      · rintro ((h | h | h) | ⟨i, hi1, h⟩)
        · exact Or.inl h
        · exact Or.inr ⟨e.1, by simp, h ▸ ha1⟩
        · exact Or.inr ⟨e.2, by simp, h ▸ hb1⟩
        · exact Or.inr ⟨i, by
            simp only [List.map_cons, List.cons_append, List.mem_cons, List.mem_append] at hi1 ⊢
            tauto, h⟩
      · rintro (h | ⟨i, hi1, h⟩)
        · exact Or.inl (Or.inl h)
        · simp only [List.map_cons, List.cons_append, List.mem_cons, List.mem_append] at hi1
          rcases hi1 with rfl | hi1 | rfl | hi1
          · rw [ha1] at h
            exact Or.inl (Or.inr (Or.inl (Option.some.inj h).symm))
          · exact Or.inr ⟨i, List.mem_append_left _ hi1, h⟩
          · rw [hb1] at h
            exact Or.inl (Or.inr (Or.inr (Option.some.inj h).symm))
          · exact Or.inr ⟨i, List.mem_append_right _ hi1, h⟩

/-! ### The matching `mwpm_final` -/

theorem length_of_perfect_matching (m : List (Nat × Nat)) (k : Nat)
    (h : is_perfect_matching m k) : 2 * m.length = k := by
  have := h.length_eq
  simp only [List.length_append, List.length_map, List.length_range] at this
  omega

/-- The symmetric-coherence split followed by the greedy repair yields a perfect matching of
`0..k-1` with one entry per pair, when `mwpm` is a permutation of `0..k-1` without fixed point,
`k` is even, and the greedy helper returns a perfect matching on the wrong vertices. -/
theorem build_mwpm_final_spec (greedy : matrix → List (Nat × Nat)) (sub_matrix : matrix)
    (mwpm : List (Nat × Nat)) (k : Nat) (hk : k % 2 = 0)
    (hperm : is_fixed_point_free_permutation mwpm k)
    (hgreedy : ∀ wrong : List Nat, wrong.length % 2 = 0 →
      is_perfect_matching (greedy (sub_matrix.get_sub_matrix wrong)) wrong.length) :
    ∃ mwpm_final, build_mwpm_final greedy sub_matrix mwpm = .ok mwpm_final ∧
      mwpm_final.length = k / 2 ∧ is_perfect_matching mwpm_final k := by
  obtain ⟨hkeys, hvals, hfp⟩ := hperm
  have hnd : (mwpm.map Prod.fst).Nodup := hkeys.nodup_iff.2 (List.nodup_range k)
  have hkey_lt : ∀ x, x ∈ mwpm.map Prod.fst ↔ x < k := by
    intro x; rw [hkeys.mem_iff, List.mem_range]
  have hval_lt : ∀ x, x ∈ mwpm.map Prod.snd ↔ x < k := by
    intro x; rw [hvals.mem_iff, List.mem_range]
  have hval : ∀ e ∈ mwpm, e.2 ∈ mwpm.map Prod.fst := by
    intro e he
    rw [hkey_lt, ← hval_lt]
    exact List.mem_map_of_mem _ he
  obtain ⟨final1, hsplit, hN1, hC1, hmem1⟩ :=
    split_loop_spec mwpm hnd hval hfp mwpm [] [] (fun _ h => h) (by simp)
      (by intro e he; simp at he)
  simp only [List.nil_append] at hsplit
  generalize hW : (mwpm.filter (fun e => decide ((e.2, e.1) ∉ mwpm))).map Prod.fst = wrong
    at hsplit
  have hWnd : wrong.Nodup := by
    rw [← hW]
    exact List.Nodup.sublist (List.Sublist.map _ (List.filter_sublist _)) hnd
  have hWmem : ∀ x, x ∈ wrong ↔ ∃ e ∈ mwpm, (e.2, e.1) ∉ mwpm ∧ e.1 = x := by
    intro x
    rw [← hW]
    simp only [List.mem_map, List.mem_filter, decide_eq_true_eq]
    constructor
    · rintro ⟨e, ⟨h1, h2⟩, h3⟩; exact ⟨e, h1, h2, h3⟩
    · rintro ⟨e, h1, h2, h3⟩; exact ⟨e, ⟨h1, h2⟩, h3⟩
  have hEmem : ∀ x, x ∈ final1.map Prod.fst ++ final1.map Prod.snd ↔
      ∃ e ∈ mwpm, (e.2, e.1) ∈ mwpm ∧ (x = e.1 ∨ x = e.2) := by
    intro x
    rw [hmem1 x]
    simp
  have hdisj : ∀ x, x ∈ final1.map Prod.fst ++ final1.map Prod.snd → x ∉ wrong := by
    intro x hx hw
    obtain ⟨e, he, hco, hxe⟩ := (hEmem x).1 hx
    obtain ⟨e1, he1, hnco, hx1⟩ := (hWmem x).1 hw
    rcases hxe with h | h
    · have : e1.2 = e.2 := by
        apply eq_of_mem_of_nodup_keys mwpm hnd x e1.2 e.2
        · rw [← hx1]; exact he1
        · rw [h]; exact he
      apply hnco
      rw [this, hx1, h]
      exact hco
    · have : e1.2 = e.1 := by
        apply eq_of_mem_of_nodup_keys mwpm hnd x e1.2 e.1
        · rw [← hx1]; exact he1
        · rw [h]; exact hco
      apply hnco
      rw [this, hx1, h]
      exact he
  have hunion : ∀ x, (x ∈ final1.map Prod.fst ++ final1.map Prod.snd ∨ x ∈ wrong) ↔ x < k := by
    intro x
    constructor
    · rintro (h | h)
      · obtain ⟨e, he, _, hxe⟩ := (hEmem x).1 h
        rcases hxe with h | h
        · rw [h, ← hkey_lt]; exact List.mem_map_of_mem _ he
        · rw [h, ← hval_lt]; exact List.mem_map_of_mem _ he
      · obtain ⟨e, he, _, hxe⟩ := (hWmem x).1 h
        rw [← hxe, ← hkey_lt]; exact List.mem_map_of_mem _ he
    · intro h
      obtain ⟨e, he, hxe⟩ := List.mem_map.1 ((hkey_lt x).2 h)
      by_cases hco : (e.2, e.1) ∈ mwpm
      · exact Or.inl ((hEmem x).2 ⟨e, he, hco, Or.inl hxe.symm⟩)
      · exact Or.inr ((hWmem x).2 ⟨e, he, hco, hxe⟩)
  have hperm1 : ((final1.map Prod.fst ++ final1.map Prod.snd) ++ wrong).Perm (List.range k) := by
    apply (List.perm_ext_iff_of_nodup _ (List.nodup_range k)).2
    · intro x
      rw [List.mem_append, hunion, List.mem_range]
    · rw [List.nodup_append]
      exact ⟨hN1, hWnd, fun x hx hw => hdisj x hx hw⟩
  have hlen := hperm1.length_eq
  simp only [List.length_append, List.length_map, List.length_range] at hlen
  unfold build_mwpm_final
  rw [hsplit]
  simp only
  cases hwe : wrong with
  | nil =>
    have hp : is_perfect_matching final1 k := by
      rw [hwe, List.append_nil] at hperm1
      exact hperm1
    refine ⟨final1, by simp, ?_, hp⟩
    have := length_of_perfect_matching final1 k hp
    omega
  | cons w0 wrest =>
    rw [← hwe]
    have hne : wrong.isEmpty = false := by rw [hwe]; rfl
    simp only [hne]
    have hg := hgreedy wrong (by omega)
    have hgnd : ((greedy (sub_matrix.get_sub_matrix wrong)).map Prod.fst ++
        (greedy (sub_matrix.get_sub_matrix wrong)).map Prod.snd).Nodup :=
      hg.nodup_iff.2 (List.nodup_range _)
    have hglt : ∀ i, i ∈ (greedy (sub_matrix.get_sub_matrix wrong)).map Prod.fst ++
        (greedy (sub_matrix.get_sub_matrix wrong)).map Prod.snd ↔ i < wrong.length := by
      intro i; rw [hg.mem_iff, List.mem_range]
    obtain ⟨final2, hrun, hN2, hmem2⟩ := repair_loop_spec wrong hWnd
      (greedy (sub_matrix.get_sub_matrix wrong)) final1 hgnd (fun i hi => (hglt i).1 hi) hN1
      (by
        intro x hx i _ hget
        exact hdisj x hx (List.mem_iff_getElem?.2 ⟨i, hget⟩))
    have hp : is_perfect_matching final2 k := by
      apply (List.perm_ext_iff_of_nodup hN2 (List.nodup_range k)).2
      intro x
      rw [hmem2 x, List.mem_range, ← hunion x]
      constructor
      · rintro (h | ⟨i, _, h⟩)
        · exact Or.inl h
        · exact Or.inr (List.mem_iff_getElem?.2 ⟨i, h⟩)
      · rintro (h | h)
        · exact Or.inl h
        · obtain ⟨i, hi⟩ := List.mem_iff_getElem?.1 h
          exact Or.inr ⟨i, (hglt i).2 (List.getElem?_eq_some.1 hi).1, hi⟩
    refine ⟨final2, by simpa using hrun, ?_, hp⟩
    have := length_of_perfect_matching final2 k hp
    omega

/-! ### The greedy matching of the model -/

theorem mem_ordered_pairs (l : List Nat) (hnd : l.Nodup) (p : Nat × Nat)
    (h : p ∈ ordered_pairs l) : p.1 ∈ l ∧ p.2 ∈ l ∧ p.1 ≠ p.2 := by
  induction l with
  | nil => simp [ordered_pairs] at h
  | cons i rest ih =>
    obtain ⟨hi, hrest⟩ := List.nodup_cons.1 hnd
    simp only [ordered_pairs, List.mem_append, List.mem_map] at h
    rcases h with ⟨j, hj, rfl⟩ | h
    · refine ⟨List.mem_cons_self _ _, List.mem_cons_of_mem _ hj, ?_⟩
      intro e
      have e1 : i = j := e
      exact hi (e1 ▸ hj)
    · obtain ⟨h1, h2, h3⟩ := ih hrest h
      exact ⟨List.mem_cons_of_mem _ h1, List.mem_cons_of_mem _ h2, h3⟩

theorem min_cost_pair_mem (m : matrix) (l : List (Nat × Nat)) :
    ∀ best, min_cost_pair m best l = best ∨ min_cost_pair m best l ∈ l := by
  induction l with
  | nil => intro best; exact Or.inl rfl
  | cons p rest ih =>
    intro best
    simp only [min_cost_pair]
    split
    · rcases ih p with h | h
      · rw [h]; exact Or.inr (List.mem_cons_self _ _)
      · exact Or.inr (List.mem_cons_of_mem _ h)
    · rcases ih best with h | h
      · exact Or.inl h
      · exact Or.inr (List.mem_cons_of_mem _ h)

theorem ordered_pairs_eq_nil (l : List Nat) (h : ordered_pairs l = []) : l.length ≤ 1 := by
  cases l with
  | nil => simp
  | cons i rest =>
    cases rest with
    | nil => simp
    | cons j rest => simp [ordered_pairs] at h

theorem greedy_loop_spec (m : matrix) (k : Nat) : ∀ (fuel : Nat) (remaining : List Nat)
    (matching : List (Nat × Nat)), remaining.length ≤ 2 * fuel → remaining.length % 2 = 0 →
    remaining.Nodup →
    ((matching.map Prod.fst ++ matching.map Prod.snd) ++ remaining).Perm (List.range k) →
    is_perfect_matching (greedy_loop m fuel remaining matching) k := by
  intro fuel
  induction fuel with
  | zero =>
    intro remaining matching hlen _ _ hperm
    have : remaining = [] := List.length_eq_zero.1 (by omega)
    subst this
    simpa [greedy_loop, is_perfect_matching] using hperm
  | succ fuel ih =>
    intro remaining matching hlen heven hnd hperm
    cases hp : ordered_pairs remaining with
    | nil =>
      have h1 := ordered_pairs_eq_nil remaining hp
      have : remaining = [] := List.length_eq_zero.1 (by omega)
      subst this
      simpa [greedy_loop, is_perfect_matching] using hperm
    | cons p rest =>
      have hstep : greedy_loop m (fuel + 1) remaining matching =
          greedy_loop m fuel ((remaining.erase (min_cost_pair m p rest).1).erase
            (min_cost_pair m p rest).2) (matching ++ [min_cost_pair m p rest]) := by
        simp only [greedy_loop, hp]
      rw [hstep]
      have hmemc : min_cost_pair m p rest ∈ ordered_pairs remaining := by
        rw [hp]
        rcases min_cost_pair_mem m rest p with h | h
        · rw [h]; exact List.mem_cons_self _ _
        · exact List.mem_cons_of_mem _ h
      generalize min_cost_pair m p rest = c at hmemc ⊢
      obtain ⟨h1, h2, h3⟩ := mem_ordered_pairs remaining hnd c hmemc
      have h2e : c.2 ∈ remaining.erase c.1 := (List.mem_erase_of_ne (Ne.symm h3)).2 h2
      have hp1 : remaining.Perm (c.1 :: c.2 :: (remaining.erase c.1).erase c.2) :=
        (List.perm_cons_erase h1).trans (List.Perm.cons _ (List.perm_cons_erase h2e))
      have hlen1 := hp1.length_eq
      simp only [List.length_cons] at hlen1
      apply ih
      · omega
      · omega
      · exact List.Nodup.sublist ((List.erase_sublist _ _).trans (List.erase_sublist _ _)) hnd
      · refine List.Perm.trans ?_ hperm
        simp only [List.map_append, List.map_cons, List.map_nil]
        have e1 : (matching.map Prod.fst ++ [c.1] ++ (matching.map Prod.snd ++ [c.2]) ++
            (remaining.erase c.1).erase c.2).Perm
            ((matching.map Prod.fst ++ matching.map Prod.snd) ++
              (c.1 :: c.2 :: (remaining.erase c.1).erase c.2)) := by
          rw [List.perm_iff_count]
          intro x
          simp only [List.count_append, List.count_cons, List.count_nil]
          omega
        exact e1.trans (List.Perm.append_left _ hp1.symm)

/-- The greedy matching of the model is a perfect matching of the indices of a matrix of
even order, with one entry per pair. -/
theorem greedy_symmetric_approx_mwpm_perfect (m : matrix) (h : m.size % 2 = 0) :
    is_perfect_matching (greedy_symmetric_approx_mwpm m) m.size := by
  apply greedy_loop_spec m m.size m.size (List.range m.size) []
  · simp; omega
  · simpa using h
  · exact List.nodup_range _
  · simp

/-! ### Odd-degree vertices and matching edges -/

theorem adj_total_push (m : List (Nat × List Nat)) (k v : Nat) :
    adj_total (adj_push m k v) = adj_total m + 1 := by
  have := adj_total_set m k (adj_get m k ++ [v])
  simp only [List.length_append, List.length_singleton] at this
  simp only [adj_push]
  omega

theorem adj_total_adjacency_list_of_edges (es : List edge) :
    adj_total (adjacency_list_of_edges es) = 2 * es.length := by
  induction es using List.reverseRecOn with
  | nil => rfl
  | append_singleton es e ih =>
    rw [adjacency_list_of_edges_snoc, adj_total_push, adj_total_push, ih]
    simp only [List.length_append, List.length_singleton]
    omega

theorem length_odd_degree_vertices_mod (l : List (Nat × List Nat)) :
    (odd_degree_vertices l).length % 2 = adj_total l % 2 := by
  induction l with
  | nil => rfl
  | cons a l ih =>
    simp only [odd_degree_vertices, adj_total, List.map_cons, List.sum_cons] at ih ⊢
    by_cases h : a.2.length % 2 = 1
    · simp only [List.filterMap_cons, h, if_true, List.length_cons]
      omega
    · simp only [List.filterMap_cons, h, if_false]
      omega

/-- The number of vertices of odd degree of a multigraph is even, in whatever order the
adjacency list is visited. -/
theorem length_odd_degree_vertices_even (es : List edge) (visited : List (Nat × List Nat))
    (hvis : visited.Perm (adjacency_list_of_edges es)) :
    (odd_degree_vertices visited).length % 2 = 0 := by
  rw [length_odd_degree_vertices_mod]
  have : adj_total visited = adj_total (adjacency_list_of_edges es) := by
    simp only [adj_total]
    exact (hvis.map _).sum_eq
  rw [this, adj_total_adjacency_list_of_edges]
  omega

theorem adj_get_of_mem (m : List (Nat × List Nat)) (hnd : (m.map Prod.fst).Nodup)
    (a : Nat × List Nat) (h : a ∈ m) : adj_get m a.1 = a.2 := by
  induction m with
  | nil => simp at h
  | cons p m ih =>
    obtain ⟨k, l⟩ := p
    simp only [List.map_cons, List.nodup_cons] at hnd
    rcases List.mem_cons.1 h with h | h
    · subst h
      simp [adj_get]
    · have hk : k ≠ a.1 := by
        intro e
        exact hnd.1 (e ▸ List.mem_map_of_mem _ h)
      simp [adj_get, hk, ih hnd.2 h]

theorem odd_degree_vertices_spec (m visited : List (Nat × List Nat))
    (hnd : (m.map Prod.fst).Nodup) (hvis : visited.Perm m) :
    (odd_degree_vertices visited).Nodup ∧
    ∀ v, v ∈ odd_degree_vertices visited ↔ (adj_get m v).length % 2 = 1 := by
  have hndv : (visited.map Prod.fst).Nodup := (hvis.map _).nodup_iff.2 hnd
  constructor
  · have hsub : (odd_degree_vertices visited).Sublist (visited.map Prod.fst) := by
      clear hndv hvis
      induction visited with
      | nil => simp [odd_degree_vertices]
      | cons a l ih =>
        simp only [odd_degree_vertices, List.filterMap_cons, List.map_cons] at ih ⊢
        split
        · rename_i h
          split at h
          · simp at h
          · exact List.Sublist.cons _ ih
        · rename_i b h
          split at h
          · simp only [Option.some.injEq] at h
            rw [← h]
            exact List.Sublist.cons₂ _ ih
          · simp at h
    exact List.Nodup.sublist hsub hndv
  · intro v
    simp only [odd_degree_vertices, List.mem_filterMap]
    constructor
    · rintro ⟨a, ha, h⟩
      split at h
      · rename_i hodd
        simp only [Option.some.injEq] at h
        rw [← h, adj_get_of_mem m hnd a (hvis.subset ha)]
        exact hodd
      · simp at h
    · intro h
      by_cases hk : v ∈ m.map Prod.fst
      · obtain ⟨a, ha, hav⟩ := List.mem_map.1 hk
        refine ⟨a, hvis.symm.subset ha, ?_⟩
        have := adj_get_of_mem m hnd a ha
        rw [hav] at this
        rw [← this, h]
        simp [hav]
      · rw [adj_get_eq_nil_of_not_key m v hk] at h
        simp at h

theorem map_getD_range (l : List Nat) : (List.range l.length).map (fun i => l.getD i 0) = l := by
  apply List.ext_getElem
  · simp
  · intro i h1 h2
    simp only [List.getElem_map, List.getElem_range]
    rw [List.getD_eq_getElem?_getD, List.getElem?_eq_getElem h2]
    rfl

theorem add_matching_edges_spec (sym_matrix : matrix) (odd : List Nat) (hodd : odd.Nodup)
    (hlt : ∀ v ∈ odd, v < sym_matrix.size) :
    ∀ (todo : List (Nat × Nat)) (acc : List edge) (added : List Nat),
    (∀ i ∈ todo.map Prod.fst ++ todo.map Prod.snd, i < odd.length) →
    (todo.map Prod.fst ++ todo.map Prod.snd).Nodup →
    (∀ e ∈ todo, odd.getD e.1 0 ∉ added) →
    add_matching_edges sym_matrix odd todo acc added =
      .ok (acc ++ matching_edges sym_matrix odd todo) := by
  intro todo
  induction todo with
  | nil => intro acc added _ _ _; simp [add_matching_edges, matching_edges]
  | cons e todo ih =>
    intro acc added hidx hnd hadd
    have hi : e.1 < odd.length := hidx e.1 (by simp)
    have hj : e.2 < odd.length := hidx e.2 (by simp)
    obtain ⟨ha, ha1⟩ := vec_at_of_lt odd e.1 hi
    obtain ⟨hb, hb1⟩ := vec_at_of_lt odd e.2 hj
    have hma : odd.getD e.1 0 < sym_matrix.size := hlt _ (List.mem_iff_getElem?.2 ⟨e.1, ha1⟩)
    have hmb : odd.getD e.2 0 < sym_matrix.size := hlt _ (List.mem_iff_getElem?.2 ⟨e.2, hb1⟩)
    have hnot : added.contains (odd.getD e.1 0) = false := by
      have := hadd e (List.mem_cons_self _ _)
      simpa using this
    have hmat : matrix_at sym_matrix (odd.getD e.1 0) (odd.getD e.2 0) =
        .ok (sym_matrix.cost (odd.getD e.1 0) (odd.getD e.2 0)) := by
      simp only [matrix_at, hma, hmb, and_self, if_true]
    have hgp : (e.1 :: e.2 :: (todo.map Prod.fst ++ todo.map Prod.snd)).Nodup := by
      have hp : (e.1 :: e.2 :: (todo.map Prod.fst ++ todo.map Prod.snd)).Perm
          ((e :: todo).map Prod.fst ++ (e :: todo).map Prod.snd) := by
        simp only [List.map_cons, List.cons_append]
        exact List.Perm.cons _ List.perm_middle.symm
      exact hp.nodup_iff.2 hnd
    obtain ⟨_, hg2⟩ := List.nodup_cons.1 hgp
    obtain ⟨hg3, hg4⟩ := List.nodup_cons.1 hg2
    have hrec := ih (acc ++ [⟨odd.getD e.1 0, odd.getD e.2 0,
        sym_matrix.cost (odd.getD e.1 0) (odd.getD e.2 0)⟩]) (odd.getD e.2 0 :: added)
      (fun i h => hidx i (by
        simp only [List.map_cons, List.cons_append, List.mem_cons, List.mem_append] at h ⊢
        tauto)) hg4
      (by
        intro e1 he1 hmem
        rcases List.mem_cons.1 hmem with h | h
        · have hi1 : e1.1 < odd.length := hidx e1.1 (by
            simp only [List.map_cons, List.cons_append, List.mem_cons, List.mem_append,
              List.mem_map]
            exact Or.inr (Or.inl ⟨e1, he1, rfl⟩))
          obtain ⟨_, hc1⟩ := vec_at_of_lt odd e1.1 hi1
          rw [h] at hc1
          have := List.getElem?_inj hi1 hodd (hc1.trans hb1.symm)
          exact hg3 (this ▸ List.mem_append_left _ (List.mem_map_of_mem _ he1))
        · exact hadd e1 (List.mem_cons_of_mem _ he1) h)
    simp only [add_matching_edges, ha, hb, hnot, hmat, hrec, matching_edges, List.map_cons]
    simp

/-! ### The Eulerian graph -/

theorem length_adj_get_adjacency_list_of_edges (es : List edge) (v : Nat) :
    (adj_get (adjacency_list_of_edges es) v).length =
      (es.map (fun e => e.first_vertex)).count v + (es.map (fun e => e.second_vertex)).count v := by
  rw [adj_get_adjacency_list_of_edges]
  induction es with
  | nil => simp
  | cons e es ih =>
    simp only [List.flatMap_cons, List.length_append, ih, List.map_cons, List.count_cons,
      beq_iff_eq]
    by_cases h1 : e.first_vertex = v <;> by_cases h2 : e.second_vertex = v <;>
      simp [h1, h2] <;> omega

theorem matching_edges_ends (sym_matrix : matrix) (odd : List Nat) (entries : List (Nat × Nat))
    (h : is_perfect_matching entries odd.length) :
    ((matching_edges sym_matrix odd entries).map (fun e => e.first_vertex) ++
      (matching_edges sym_matrix odd entries).map (fun e => e.second_vertex)).Perm odd := by
  have e1 : (matching_edges sym_matrix odd entries).map (fun e => e.first_vertex) ++
      (matching_edges sym_matrix odd entries).map (fun e => e.second_vertex) =
      (entries.map Prod.fst ++ entries.map Prod.snd).map (fun i => odd.getD i 0) := by
    simp [matching_edges, List.map_map, Function.comp_def]
  rw [e1]
  have := List.Perm.map (fun i => odd.getD i 0) h
  rw [map_getD_range] at this
  exact this

/-- The multigraph of the spanning tree edges and the matching edges has even degree at every
vertex, when the matching pairs up the vertices of odd degree of the tree. -/
theorem eulerian_graph_even (sym_matrix : matrix) (mst : List edge) (odd : List Nat)
    (entries : List (Nat × Nat)) (hodd : odd.Nodup)
    (hmem : ∀ v, v ∈ odd ↔ (adj_get (adjacency_list_of_edges mst) v).length % 2 = 1)
    (h : is_perfect_matching entries odd.length) :
    adj_even (adjacency_list_of_edges (mst ++ matching_edges sym_matrix odd entries)) := by
  intro v
  rw [length_adj_get_adjacency_list_of_edges_append, List.length_append,
    length_adj_get_adjacency_list_of_edges (matching_edges sym_matrix odd entries), ← List.count_append,
    (matching_edges_ends sym_matrix odd entries h).count_eq]
  by_cases hv : v ∈ odd
  · rw [List.count_eq_one_of_mem hodd hv]
    have := (hmem v).1 hv
    omega
  · rw [List.count_eq_zero_of_not_mem hv]
    have := (hmem v).not.1 hv
    omega

theorem linked_symm (es : List edge) (a b : Nat) (h : linked es a b) : linked es b a := by
  obtain ⟨e, he, h⟩ := h
  exact ⟨e, he, h.symm⟩

theorem linked_append_left (es1 es2 : List edge) (a b : Nat) (h : linked es1 a b) :
    linked (es1 ++ es2) a b := by
  obtain ⟨e, he, h⟩ := h
  exact ⟨e, List.mem_append_left _ he, h⟩

theorem reach_symm (es : List edge) (a b : Nat) (h : Relation.ReflTransGen (linked es) a b) :
    Relation.ReflTransGen (linked es) b a := by
  induction h with
  | refl => exact Relation.ReflTransGen.refl
  | tail _ hbc ih => exact Relation.ReflTransGen.head (linked_symm es _ _ hbc) ih

theorem reach_append_left (es1 es2 : List edge) (a b : Nat)
    (h : Relation.ReflTransGen (linked es1) a b) :
    Relation.ReflTransGen (linked (es1 ++ es2)) a b := by
  induction h with
  | refl => exact Relation.ReflTransGen.refl
  | tail _ hbc ih => exact Relation.ReflTransGen.tail ih (linked_append_left es1 es2 _ _ hbc)

theorem spanning_tree_vertex_is_end (n : Nat) (mst : List edge) (hn : 2 ≤ n)
    (hmst : is_spanning_tree n mst) (v : Nat) (hv : v < n) :
    ∃ e ∈ mst, e.first_vertex = v ∨ e.second_vertex = v := by
  obtain ⟨_, _, hreach⟩ := hmst
  by_cases h0 : v = 0
  · subst h0
    have h1 := hreach 1 (by omega)
    rcases Relation.ReflTransGen.cases_head h1 with h | ⟨c, hc, _⟩
    · omega
    · obtain ⟨e, he, h | h⟩ := hc
      · exact ⟨e, he, Or.inl h.1⟩
      · exact ⟨e, he, Or.inr h.2⟩
  · have h1 := hreach v hv
    rcases Relation.ReflTransGen.cases_tail h1 with h | ⟨c, _, hc⟩
    · omega
    · obtain ⟨e, he, h | h⟩ := hc
      · exact ⟨e, he, Or.inr h.2⟩
      · exact ⟨e, he, Or.inl h.1⟩

theorem mem_tail_consecutive_pairs (p : List Nat) (x : Nat) (h : x ∈ p.tail) :
    ∃ y, (y, x) ∈ consecutive_pairs p := by
  induction p with
  | nil => simp at h
  | cons a p ih =>
    cases p with
    | nil => simp at h
    | cons b p =>
      simp only [List.tail_cons] at h ih
      rcases List.mem_cons.1 h with h | h
      · exact ⟨a, by simp [consecutive_pairs, h]⟩
      · obtain ⟨y, hy⟩ := ih h
        exact ⟨y, by simp only [consecutive_pairs]; exact List.mem_cons_of_mem _ hy⟩

theorem two_le_length_of_mem (l : List Nat) (a b : Nat) (ha : a ∈ l)
    (hb : b ∈ l) (hab : a ≠ b) : 2 ≤ l.length := by
  have hsub : [a, b].Subperm l := by
    apply List.subperm_of_subset
    · simp [hab]
    · intro x hx
      simp only [List.mem_cons, List.mem_singleton, List.not_mem_nil, or_false] at hx
      rcases hx with rfl | rfl
      · exact ha
      · exact hb
  simpa using hsub.length_le

/-! ### The edge list of the Eulerian graph -/

/-- The vertices of odd degree of a spanning tree, as `christofides` lists them: each once,
exactly the vertices with an odd number of neighbours, all below the order of the matrix, and
an even number of them. -/
theorem mst_odd_vertices_spec (E : Env) (sym_matrix : matrix)
    (hmst : is_spanning_tree sym_matrix.size (E.mst_edges sym_matrix)) :
    (mst_odd_vertices E sym_matrix).Nodup ∧
    (∀ v, v ∈ mst_odd_vertices E sym_matrix ↔
      (adj_get (adjacency_list_of_edges (E.mst_edges sym_matrix)) v).length % 2 = 1) ∧
    (∀ v ∈ mst_odd_vertices E sym_matrix, v < sym_matrix.size) ∧
    (mst_odd_vertices E sym_matrix).length % 2 = 0 := by
  obtain ⟨_, hends, _⟩ := hmst
  obtain ⟨hknd, hkeys⟩ := adjacency_list_of_edges_keys (E.mst_edges sym_matrix)
  obtain ⟨hoddnd, hoddmem⟩ := odd_degree_vertices_spec
    (adjacency_list_of_edges (E.mst_edges sym_matrix)) (E.iter_adj _) hknd (E.iter_adj_perm _)
  refine ⟨hoddnd, hoddmem, ?_, length_odd_degree_vertices_even (E.mst_edges sym_matrix)
    (E.iter_adj _) (E.iter_adj_perm _)⟩
  intro v hv
  have h1 := (hoddmem v).1 hv
  have h2 : v ∈ (adjacency_list_of_edges (E.mst_edges sym_matrix)).map Prod.fst := by
    by_contra hc
    rw [adj_get_eq_nil_of_not_key _ v hc] at h1
    simp at h1
  obtain ⟨e, he, h | h⟩ := (hkeys v).1 h2
  · exact h ▸ (hends e he).1
  · exact h ▸ (hends e he).2.1

/-- The loop over `mwpm_final` when it is a perfect matching of the positions of the odd
vertices: no entry is skipped, in whatever order the map is visited, so the edge list is the
tree edges followed by one edge per entry, `(n - 1) + |O| / 2` edges in all. -/
theorem eulerian_graph_edges_spec (E : Env) (sym_matrix : matrix)
    (hmst : is_spanning_tree sym_matrix.size (E.mst_edges sym_matrix))
    (mwpm_final : List (Nat × Nat))
    (hpm : is_perfect_matching mwpm_final (mst_odd_vertices E sym_matrix).length) :
    add_matching_edges sym_matrix (mst_odd_vertices E sym_matrix) (E.iter_map mwpm_final)
      (E.mst_edges sym_matrix) [] =
      .ok (E.mst_edges sym_matrix ++
        matching_edges sym_matrix (mst_odd_vertices E sym_matrix) (E.iter_map mwpm_final)) ∧
    (matching_edges sym_matrix (mst_odd_vertices E sym_matrix) (E.iter_map mwpm_final)).length =
      mwpm_final.length ∧
    (E.mst_edges sym_matrix ++
      matching_edges sym_matrix (mst_odd_vertices E sym_matrix) (E.iter_map mwpm_final)).length =
      (sym_matrix.size - 1) + (mst_odd_vertices E sym_matrix).length / 2 := by
  obtain ⟨hoddnd, _, hoddlt, _⟩ := mst_odd_vertices_spec E sym_matrix hmst
  have hpm1 : is_perfect_matching (E.iter_map mwpm_final)
      (mst_odd_vertices E sym_matrix).length := by
    have h1 := E.iter_map_perm mwpm_final
    exact ((h1.map Prod.fst).append (h1.map Prod.snd)).trans hpm
  have hedges := add_matching_edges_spec sym_matrix (mst_odd_vertices E sym_matrix) hoddnd hoddlt
    (E.iter_map mwpm_final) (E.mst_edges sym_matrix) []
    (fun i hi => List.mem_range.1 (hpm1.mem_iff.1 hi))
    (hpm1.nodup_iff.2 (List.nodup_range _)) (fun _ _ h => by simp at h)
  have hlen : (E.iter_map mwpm_final).length = mwpm_final.length :=
    (E.iter_map_perm mwpm_final).length_eq
  have h2 := length_of_perfect_matching mwpm_final _ hpm
  refine ⟨hedges, by simp [matching_edges, hlen], ?_⟩
  simp only [List.length_append, matching_edges, List.length_map, hlen]
  have := hmst.1
  omega

/-- The multigraph that `christofides` hands to Hierholzer's loops: `mwpm_final` is a perfect
matching of the odd vertices, no matching edge is skipped, every end of an edge is a vertex
of the matrix, every vertex has even degree, the multigraph is connected, and its vertices
are all the vertices of the matrix. -/
theorem eulerian_graph_spec (E : Env) (sym_matrix : matrix) (hn : 2 ≤ sym_matrix.size)
    (hmst : is_spanning_tree sym_matrix.size (E.mst_edges sym_matrix))
    (hmw : is_fixed_point_free_permutation (mwpm_of E sym_matrix)
      (mst_odd_vertices E sym_matrix).length)
    (hgreedy : ∀ wrong : List Nat, wrong.length % 2 = 0 →
      is_perfect_matching (E.greedy_symmetric_approx_mwpm
        ((sym_matrix.get_sub_matrix (mst_odd_vertices E sym_matrix)).get_sub_matrix wrong))
        wrong.length) :
    ∃ mwpm_final es,
      build_mwpm_final E.greedy_symmetric_approx_mwpm
        (sym_matrix.get_sub_matrix (mst_odd_vertices E sym_matrix)) (mwpm_of E sym_matrix) =
          .ok mwpm_final ∧
      is_perfect_matching mwpm_final (mst_odd_vertices E sym_matrix).length ∧
      es = E.mst_edges sym_matrix ++ matching_edges sym_matrix (mst_odd_vertices E sym_matrix)
        (E.iter_map mwpm_final) ∧
      add_matching_edges sym_matrix (mst_odd_vertices E sym_matrix) (E.iter_map mwpm_final)
        (E.mst_edges sym_matrix) [] = .ok es ∧
      (∀ e ∈ es, e.first_vertex < sym_matrix.size ∧ e.second_vertex < sym_matrix.size) ∧
      adj_even (adjacency_list_of_edges es) ∧
      connected es ∧
      (∀ v, v < sym_matrix.size → ∃ e ∈ es, e.first_vertex = v ∨ e.second_vertex = v) ∧
      (∀ v, v ∈ (adjacency_list_of_edges es).map Prod.fst ↔ v < sym_matrix.size) ∧
      (∀ u v, u < sym_matrix.size → v < sym_matrix.size →
        Relation.ReflTransGen (linked es) u v) := by
  have hmst0 := hmst
  obtain ⟨hlen, hends, hreach⟩ := hmst
  obtain ⟨hoddnd, hoddmem, hoddlt, hoddeven⟩ := mst_odd_vertices_spec E sym_matrix hmst0
  obtain ⟨mwpm_final, hbuild, _, hpm⟩ := build_mwpm_final_spec E.greedy_symmetric_approx_mwpm
    (sym_matrix.get_sub_matrix (mst_odd_vertices E sym_matrix)) (mwpm_of E sym_matrix)
    (mst_odd_vertices E sym_matrix).length hoddeven hmw hgreedy
  have hpm1 : is_perfect_matching (E.iter_map mwpm_final)
      (mst_odd_vertices E sym_matrix).length := by
    have h1 := E.iter_map_perm mwpm_final
    exact ((h1.map Prod.fst).append (h1.map Prod.snd)).trans hpm
  obtain ⟨hedges, _, _⟩ := eulerian_graph_edges_spec E sym_matrix hmst0 mwpm_final hpm
  have heven : adj_even (adjacency_list_of_edges (E.mst_edges sym_matrix ++
      matching_edges sym_matrix (mst_odd_vertices E sym_matrix) (E.iter_map mwpm_final))) :=
    eulerian_graph_even sym_matrix (E.mst_edges sym_matrix) _ _ hoddnd hoddmem hpm1
  have hendlt : ∀ e ∈ E.mst_edges sym_matrix ++
      matching_edges sym_matrix (mst_odd_vertices E sym_matrix) (E.iter_map mwpm_final),
      e.first_vertex < sym_matrix.size ∧ e.second_vertex < sym_matrix.size := by
    intro e he
    rcases List.mem_append.1 he with he | he
    · exact ⟨(hends e he).1, (hends e he).2.1⟩
    · simp only [matching_edges, List.mem_map] at he
      obtain ⟨p, hp, rfl⟩ := he
      have h1 : p.1 < (mst_odd_vertices E sym_matrix).length :=
        List.mem_range.1 (hpm1.mem_iff.1 (List.mem_append_left _ (List.mem_map_of_mem _ hp)))
      have h2 : p.2 < (mst_odd_vertices E sym_matrix).length :=
        List.mem_range.1 (hpm1.mem_iff.1 (List.mem_append_right _ (List.mem_map_of_mem _ hp)))
      exact ⟨hoddlt _ (List.mem_iff_getElem?.2 ⟨p.1, (vec_at_of_lt _ _ h1).2⟩),
        hoddlt _ (List.mem_iff_getElem?.2 ⟨p.2, (vec_at_of_lt _ _ h2).2⟩)⟩
  have hreach1 : ∀ v, v < sym_matrix.size → Relation.ReflTransGen
      (linked (E.mst_edges sym_matrix ++
        matching_edges sym_matrix (mst_odd_vertices E sym_matrix) (E.iter_map mwpm_final))) 0 v :=
    fun v hv => reach_append_left _ _ 0 v (hreach v hv)
  have hvertex : ∀ v, v < sym_matrix.size → ∃ e ∈ E.mst_edges sym_matrix ++
      matching_edges sym_matrix (mst_odd_vertices E sym_matrix) (E.iter_map mwpm_final),
      e.first_vertex = v ∨ e.second_vertex = v := by
    intro v hv
    obtain ⟨e, he, h⟩ := spanning_tree_vertex_is_end sym_matrix.size _ hn hmst0 v hv
    exact ⟨e, List.mem_append_left _ he, h⟩
  obtain ⟨_, hkeys1⟩ := adjacency_list_of_edges_keys (E.mst_edges sym_matrix ++
    matching_edges sym_matrix (mst_odd_vertices E sym_matrix) (E.iter_map mwpm_final))
  refine ⟨mwpm_final, _, hbuild, hpm, rfl, hedges, hendlt, heven, ?_, hvertex, ?_, ?_⟩
  · intro e1 he1 e2 he2
    exact (reach_symm _ 0 _ (hreach1 _ (hendlt e1 he1).1)).trans (hreach1 _ (hendlt e2 he2).1)
  · intro v
    rw [hkeys1 v]
    constructor
    · rintro ⟨e, he, h | h⟩
      · exact h ▸ (hendlt e he).1
      · exact h ▸ (hendlt e he).2
    · exact hvertex v
  · intro u v hu hv
    exact (reach_symm _ 0 _ (hreach1 u hu)).trans (hreach1 v hv)

/-! ### The function `christofides` -/

theorem mem_consecutive_pairs_of_mem (p : List Nat) (h2 : 2 ≤ p.length) (x : Nat) (hx : x ∈ p) :
    ∃ a b, (a, b) ∈ consecutive_pairs p ∧ (x = a ∨ x = b) := by
  cases p with
  | nil => simp at h2
  | cons a p =>
    cases p with
    | nil => simp at h2
    | cons b p =>
      rcases List.mem_cons.1 hx with h | h
      · exact ⟨a, b, by simp [consecutive_pairs], Or.inl h⟩
      · obtain ⟨y, hy⟩ := mem_tail_consecutive_pairs (a :: b :: p) x (by simpa using h)
        exact ⟨y, x, hy, Or.inr rfl⟩

/-- What `christofides` computes when the spanning tree, the matching helpers and the visiting
orders keep their contracts: the matching is perfect, no matching edge is skipped, Hierholzer's
loops return an Eulerian circuit of the tree edges and matching edges, and the tour is its
shortcut, a permutation of all the vertices. -/
theorem christofides_spec (E : Env) (sym_matrix : matrix) (hn : 2 ≤ sym_matrix.size)
    (hmst : is_spanning_tree sym_matrix.size (E.mst_edges sym_matrix))
    (hmw : is_fixed_point_free_permutation (mwpm_of E sym_matrix)
      (mst_odd_vertices E sym_matrix).length)
    (hgreedy : ∀ wrong : List Nat, wrong.length % 2 = 0 →
      is_perfect_matching (E.greedy_symmetric_approx_mwpm
        ((sym_matrix.get_sub_matrix (mst_odd_vertices E sym_matrix)).get_sub_matrix wrong))
        wrong.length) :
    ∃ mwpm_final eulerian_path,
      build_mwpm_final E.greedy_symmetric_approx_mwpm
        (sym_matrix.get_sub_matrix (mst_odd_vertices E sym_matrix)) (mwpm_of E sym_matrix) =
          .ok mwpm_final ∧
      is_perfect_matching mwpm_final (mst_odd_vertices E sym_matrix).length ∧
      (mst_odd_vertices E sym_matrix).Nodup ∧
      (∀ v ∈ mst_odd_vertices E sym_matrix, v < sym_matrix.size) ∧
      (∀ e ∈ E.mst_edges sym_matrix ++ matching_edges sym_matrix (mst_odd_vertices E sym_matrix)
        (E.iter_map mwpm_final), e.first_vertex < sym_matrix.size ∧
          e.second_vertex < sym_matrix.size) ∧
      2 ≤ eulerian_path.length ∧
      eulerian_path.head? = eulerian_path.getLast? ∧
      (∀ v ∈ eulerian_path, v < sym_matrix.size) ∧
      ((consecutive_pairs eulerian_path).map (fun p => s(p.1, p.2))).Perm
        ((E.mst_edges sym_matrix ++ matching_edges sym_matrix (mst_odd_vertices E sym_matrix)
          (E.iter_map mwpm_final)).map (fun e => s(e.first_vertex, e.second_vertex))) ∧
      christofides E sym_matrix = .ok (shortcut eulerian_path) ∧
      (shortcut eulerian_path).Perm (List.range sym_matrix.size) := by
  obtain ⟨hoddnd, _, hoddlt, _⟩ := mst_odd_vertices_spec E sym_matrix hmst
  obtain ⟨mwpm_final, es, hbuild, hpm, hes, hedges, hendlt, heven, hconn, hvertex, _⟩ :=
    eulerian_graph_spec E sym_matrix hn hmst hmw hgreedy
  have hne : es ≠ [] := by
    obtain ⟨e, he, _⟩ := hvertex 0 (by omega)
    exact List.ne_nil_of_mem he
  obtain ⟨path, hrun, hclosed, hplen, hperm⟩ :=
    hierholzer_circuit es (E.iter_adj (adjacency_list_of_edges es)) hne (E.iter_adj_perm _) hconn heven
  obtain ⟨hknd1, hkeys1⟩ := adjacency_list_of_edges_keys es
  have hsize : ¬ (adjacency_list_of_edges es).length < 2 := by
    have h0 := (hkeys1 0).2 (hvertex 0 (by omega))
    have h1 := (hkeys1 1).2 (hvertex 1 (by omega))
    have := two_le_length_of_mem _ 0 1 h0 h1 (by omega)
    simp only [List.length_map] at this
    omega
  have hp2 : 2 ≤ path.length := by
    have : 0 < es.length := List.length_pos.2 hne
    omega
  have hpair : ∀ a b, (a, b) ∈ consecutive_pairs path →
      ∃ e ∈ es, s(a, b) = s(e.first_vertex, e.second_vertex) := by
    intro a b hab
    have h1 : s(a, b) ∈ (consecutive_pairs path).map (fun p => s(p.1, p.2)) :=
      List.mem_map.2 ⟨(a, b), hab, rfl⟩
    obtain ⟨e, he, h2⟩ := List.mem_map.1 (hperm.mem_iff.1 h1)
    exact ⟨e, he, h2.symm⟩
  have hpathlt : ∀ v ∈ path, v < sym_matrix.size := by
    intro v hv
    obtain ⟨a, b, hab, hx⟩ := mem_consecutive_pairs_of_mem path hp2 v hv
    obtain ⟨e, he, h⟩ := hpair a b hab
    obtain ⟨h1, h2⟩ := hendlt e he
    rcases Sym2.eq_iff.1 h with ⟨ha, hb⟩ | ⟨ha, hb⟩ <;> rcases hx with hx | hx <;> omega
  have hpathall : ∀ v, v < sym_matrix.size → v ∈ path := by
    intro v hv
    obtain ⟨e, he, h⟩ := hvertex v hv
    have h1 : s(e.first_vertex, e.second_vertex) ∈
        (consecutive_pairs path).map (fun p => s(p.1, p.2)) :=
      hperm.mem_iff.2 (List.mem_map.2 ⟨e, he, rfl⟩)
    obtain ⟨p, hp, h2⟩ := List.mem_map.1 h1
    obtain ⟨m1, m2⟩ := mem_of_mem_consecutive_pairs path p.1 p.2 hp
    rcases Sym2.eq_iff.1 h2 with ⟨ha, hb⟩ | ⟨ha, hb⟩ <;> rcases h with h | h
    · rw [← h, ← ha]; exact m1
    · rw [← h, ← hb]; exact m2
    · rw [← h, ← hb]; exact m2
    · rw [← h, ← ha]; exact m1
  obtain ⟨hsnd, hsmem, _⟩ := shortcut_spec path
  refine ⟨mwpm_final, path, hbuild, hpm, hoddnd, hoddlt, by rw [← hes]; exact hendlt, hp2,
    hclosed, hpathlt, by rw [← hes]; exact hperm, ?_, ?_⟩
  · simp only [mst_odd_vertices, mwpm_of] at hbuild hedges
    simp only [christofides, hbuild, hedges, hsize, if_false, hrun]
  · apply (List.perm_ext_iff_of_nodup hsnd (List.nodup_range _)).2
    intro v
    rw [hsmem v, List.mem_range]
    exact ⟨hpathlt v, hpathall v⟩

/-! ### Small instances -/

theorem star_edges_spanning (m : matrix) (h : 1 ≤ m.size) :
    is_spanning_tree m.size (star_edges m) := by
  refine ⟨?_, ?_, ?_⟩
  · simp [star_edges]; omega
  · intro e he
    simp only [star_edges, List.mem_map, List.mem_range] at he
    obtain ⟨i, hi, rfl⟩ := he
    simp only
    omega
  · intro v hv
    cases v with
    | zero => exact Relation.ReflTransGen.refl
    | succ i =>
      apply Relation.ReflTransGen.single
      refine ⟨⟨0, i + 1, m.cost 0 (i + 1)⟩, ?_, Or.inl ⟨rfl, rfl⟩⟩
      simp only [star_edges, List.mem_map, List.mem_range]
      exact ⟨i, by omega, rfl⟩

theorem connected_of_reach (es : List edge) (s : Nat)
    (h : ∀ e ∈ es, Relation.ReflTransGen (linked es) s e.first_vertex) : connected es := by
  intro e1 he1 e2 he2
  exact (reach_symm es s _ (h e1 he1)).trans (h e2 he2)

theorem triangle_edges_connected : connected triangle_edges := by
  apply connected_of_reach triangle_edges 0
  have h01 : linked triangle_edges 0 1 := ⟨⟨0, 1, 1⟩, by simp [triangle_edges], Or.inl ⟨rfl, rfl⟩⟩
  have h02 : linked triangle_edges 0 2 := ⟨⟨2, 0, 1⟩, by simp [triangle_edges], Or.inr ⟨rfl, rfl⟩⟩
  intro e he
  simp only [triangle_edges, List.mem_cons, List.mem_singleton, List.not_mem_nil, or_false] at he
  rcases he with rfl | rfl | rfl
  · exact Relation.ReflTransGen.refl
  · exact Relation.ReflTransGen.single h01
  · exact Relation.ReflTransGen.single h02

theorem triangle_edges_even : adj_even (adjacency_list_of_edges triangle_edges) := by
  intro u
  rw [length_adj_get_adjacency_list_of_edges]
  simp only [triangle_edges, List.map_cons, List.map_nil, List.count_cons, List.count_nil,
    beq_iff_eq]
  by_cases h0 : 0 = u <;> by_cases h1 : 1 = u <;> by_cases h2 : 2 = u <;>
    simp [h0, h1, h2] <;> omega

/-! ### Trees and assignments of least cost -/

theorem length_le_sum_map {α : Type} (l : List α) (f : α → Nat) (h : ∀ x ∈ l, 1 ≤ f x) :
    l.length ≤ (l.map f).sum := by
  induction l with
  | nil => simp
  | cons a l ih =>
    have h1 := h a (List.mem_cons_self _ _)
    have h2 := ih (fun x hx => h x (List.mem_cons_of_mem _ hx))
    simp only [List.length_cons, List.map_cons, List.sum_cons]
    omega

/-- A spanning tree whose edges all cost as little as any step between two different
vertices is a minimum spanning tree. -/
theorem minimum_spanning_tree_of_unit (m : matrix) (c : Nat) (edges : List edge)
    (hst : is_spanning_tree m.size edges)
    (hcost : ∀ e ∈ edges, m.cost e.first_vertex e.second_vertex = c)
    (hlow : ∀ i, i < m.size → ∀ j, j < m.size → i ≠ j → c ≤ m.cost i j) :
    is_minimum_spanning_tree m edges := by
  refine ⟨hst, ?_⟩
  intro other hother
  have h1 : edges_cost m edges = edges.length * c := by
    simp only [edges_cost]
    rw [List.map_congr_left hcost]
    simp
  have h2 : other.length * c ≤ edges_cost m other := by
    simp only [edges_cost]
    have : ∀ l : List edge, (∀ e ∈ l, c ≤ m.cost e.first_vertex e.second_vertex) →
        l.length * c ≤ (l.map (fun e => m.cost e.first_vertex e.second_vertex)).sum := by
      intro l hl
      induction l with
      | nil => simp
      | cons a l ih =>
        have h1 := hl a (List.mem_cons_self _ _)
        have h2 := ih (fun x hx => hl x (List.mem_cons_of_mem _ hx))
        simp only [List.length_cons, List.map_cons, List.sum_cons, Nat.add_mul, Nat.one_mul]
        omega
    apply this
    intro e he
    obtain ⟨a, b, c1⟩ := hother.2.1 e he
    exact hlow _ a _ b c1
  have h3 : edges.length = other.length := by
    have := hst.1
    have := hother.1
    omega
  rw [h1, h3]
  exact h2

/-- A permutation without fixed point whose entries all cost as little as any entry off the
diagonal is an assignment of least cost. -/
theorem minimum_cost_assignment_of_unit (m : matrix) (c : Nat) (mwpm : List (Nat × Nat))
    (hp : is_fixed_point_free_permutation mwpm m.size)
    (hcost : ∀ e ∈ mwpm, m.cost e.1 e.2 = c)
    (hlow : ∀ i, i < m.size → ∀ j, j < m.size → i ≠ j → c ≤ m.cost i j) :
    is_minimum_cost_assignment m mwpm := by
  refine ⟨hp, ?_⟩
  intro other hother
  have h1 : pairs_cost m mwpm = mwpm.length * c := by
    simp only [pairs_cost]
    rw [List.map_congr_left hcost]
    simp
  have h2 : other.length * c ≤ pairs_cost m other := by
    simp only [pairs_cost]
    have : ∀ l : List (Nat × Nat), (∀ e ∈ l, c ≤ m.cost e.1 e.2) →
        l.length * c ≤ (l.map (fun e => m.cost e.1 e.2)).sum := by
      intro l hl
      induction l with
      | nil => simp
      | cons a l ih =>
        have h1 := hl a (List.mem_cons_self _ _)
        have h2 := ih (fun x hx => hl x (List.mem_cons_of_mem _ hx))
        simp only [List.length_cons, List.map_cons, List.sum_cons, Nat.add_mul, Nat.one_mul]
        omega
    apply this
    intro e he
    have ha : e.1 < m.size :=
      List.mem_range.1 (hother.1.mem_iff.1 (List.mem_map_of_mem _ he))
    have hb : e.2 < m.size :=
      List.mem_range.1 (hother.2.1.mem_iff.1 (List.mem_map_of_mem _ he))
    exact hlow _ ha _ hb (hother.2.2 e he)
  have h3 : mwpm.length = other.length := by
    have a1 := hp.1.length_eq
    have a2 := hother.1.length_eq
    simp only [List.length_map, List.length_range] at a1 a2
    omega
  rw [h1, h3]
  exact h2

theorem cx_mst_spanning : is_spanning_tree cx_matrix.size (cx_env.mst_edges cx_matrix) := by
  have l01 : linked (cx_env.mst_edges cx_matrix) 0 1 :=
    ⟨⟨0, 1, 1⟩, by simp [cx_env], Or.inl ⟨rfl, rfl⟩⟩
  have l02 : linked (cx_env.mst_edges cx_matrix) 0 2 :=
    ⟨⟨0, 2, 1⟩, by simp [cx_env], Or.inl ⟨rfl, rfl⟩⟩
  have l23 : linked (cx_env.mst_edges cx_matrix) 2 3 :=
    ⟨⟨2, 3, 1⟩, by simp [cx_env], Or.inl ⟨rfl, rfl⟩⟩
  have l14 : linked (cx_env.mst_edges cx_matrix) 1 4 :=
    ⟨⟨1, 4, 1⟩, by simp [cx_env], Or.inl ⟨rfl, rfl⟩⟩
  have l15 : linked (cx_env.mst_edges cx_matrix) 1 5 :=
    ⟨⟨1, 5, 1⟩, by simp [cx_env], Or.inl ⟨rfl, rfl⟩⟩
  have l26 : linked (cx_env.mst_edges cx_matrix) 2 6 :=
    ⟨⟨2, 6, 1⟩, by simp [cx_env], Or.inl ⟨rfl, rfl⟩⟩
  refine ⟨by decide, by decide, ?_⟩
  intro v hv
  have hv7 : v < 7 := hv
  interval_cases v
  · exact Relation.ReflTransGen.refl
  · exact Relation.ReflTransGen.single l01
  · exact Relation.ReflTransGen.single l02
  · exact (Relation.ReflTransGen.single l02).tail l23
  · exact (Relation.ReflTransGen.single l01).tail l14
  · exact (Relation.ReflTransGen.single l01).tail l15
  · exact (Relation.ReflTransGen.single l02).tail l26

/-! ### Walk costs and shortcuts -/

theorem walk_cost_cons_cons (m : matrix) (a b : Nat) (l : List Nat) :
    walk_cost m (a :: b :: l) = m.cost a b + walk_cost m (b :: l) := by
  simp [walk_cost, pairs_cost, consecutive_pairs]

theorem walk_cost_append_singleton (m : matrix) (l : List Nat) (z b : Nat) :
    walk_cost m (l ++ [z] ++ [b]) = walk_cost m (l ++ [z]) + m.cost z b := by
  have h := consecutive_pairs_append_cons l z [b]
  have e : l ++ [z] ++ [b] = l ++ z :: [b] := by simp
  rw [e]
  simp only [walk_cost, pairs_cost, h, List.map_append, List.sum_append]
  simp [consecutive_pairs]

theorem walk_cost_sublist (m : matrix) (htri : m.triangle) (l1 l : List Nat)
    (hsub : l1.Sublist l) : (∀ v ∈ l, v < m.size) → ∀ a b, a < m.size → b < m.size →
    walk_cost m (a :: l1 ++ [b]) ≤ walk_cost m (a :: l ++ [b]) := by
  induction hsub with
  | slnil => intro _ a b _ _; exact le_refl _
  | @cons l1 l2 x _ ih =>
    intro hl a b ha hb
    have h1 := ih (fun v hv => hl v (List.mem_cons_of_mem _ hv)) a b ha hb
    have hx : x < m.size := hl x (List.mem_cons_self _ _)
    have h2 : walk_cost m (a :: l2 ++ [b]) ≤ walk_cost m (a :: x :: l2 ++ [b]) := by
      cases l2 with
      | nil =>
        simp only [List.cons_append, List.nil_append, walk_cost_cons_cons]
        have := htri a ha x hx b hb
        simp only [walk_cost, pairs_cost, consecutive_pairs, List.map_nil, List.sum_nil]
        omega
      | cons y t =>
        have hy : y < m.size := hl y (List.mem_cons_of_mem _ (List.mem_cons_self _ _))
        simp only [List.cons_append, walk_cost_cons_cons]
        have := htri a ha x hx y hy
        omega
    exact le_trans h1 h2
  | @cons₂ l1 l2 x _ ih =>
    intro hl a b ha hb
    have hx : x < m.size := hl x (List.mem_cons_self _ _)
    have h1 := ih (fun v hv => hl v (List.mem_cons_of_mem _ hv)) x b hx hb
    simp only [List.cons_append, walk_cost_cons_cons] at h1 ⊢
    omega

theorem shortcut_loop_sublist (rest : List Nat) : ∀ (vis tour : List Nat),
    ∃ s, shortcut_loop rest vis tour = tour ++ s ∧
      s.Sublist (rest.filter (fun v => !vis.contains v)) := by
  induction rest with
  | nil => intro vis tour; exact ⟨[], by simp [shortcut_loop], by simp⟩
  | cons x rest ih =>
    intro vis tour
    by_cases hx : vis.contains x = true
    · obtain ⟨s, h1, h2⟩ := ih vis tour
      refine ⟨s, by simp only [shortcut_loop, hx, if_true, h1], ?_⟩
      rw [List.filter_cons_of_neg (by simp only [hx, Bool.not_true]; exact Bool.false_ne_true)]
      exact h2
    · have hx1 : vis.contains x = false := by simpa using hx
      obtain ⟨s, h1, h2⟩ := ih (x :: vis) (tour ++ [x])
      refine ⟨x :: s, ?_, ?_⟩
      · simp only [shortcut_loop, hx1, h1]
        simp
      · rw [List.filter_cons_of_pos (by simp only [hx1, Bool.not_false])]
        apply List.Sublist.cons₂
        refine h2.trans ?_
        apply List.monotone_filter_right
        intro v hv
        simp only [Bool.not_eq_true', List.contains_eq_any_beq, List.any_eq_false, List.any_cons,
          Bool.or_eq_false_iff] at hv ⊢
        exact hv.2

/-- Shortcutting a closed walk does not make it longer when the costs satisfy the triangle
inequality. -/
theorem tour_cost_shortcut_le (m : matrix) (htri : m.triangle) (path : List Nat)
    (hlt : ∀ v ∈ path, v < m.size) (h2 : 2 ≤ path.length)
    (hclosed : path.head? = path.getLast?) :
    tour_cost m (shortcut path) ≤ walk_cost m path := by
  cases path with
  | nil => simp at h2
  | cons x r =>
    have hr : r ≠ [] := by
      intro h; subst h; simp at h2
    obtain ⟨mid, z, hmid⟩ : ∃ mid z, r = mid ++ [z] :=
      ⟨r.dropLast, r.getLast hr, (List.dropLast_append_getLast hr).symm⟩
    subst hmid
    have hz : z = x := by
      have : (x :: (mid ++ [z])).getLast? = some z :=
        getLast?_append_cons (x :: mid) z []
      simpa [this] using hclosed.symm
    subst hz
    obtain ⟨s, hs1, hs2⟩ := shortcut_loop_sublist (mid ++ [z]) [z] [z]
    have hsc : shortcut (z :: (mid ++ [z])) = z :: s := by
      simp only [shortcut, shortcut_loop]
      simpa using hs1
    have hs3 : s.Sublist mid := by
      refine hs2.trans ?_
      have : (mid ++ [z]).filter (fun v => !(List.contains [z] v)) =
          mid.filter (fun v => !(List.contains [z] v)) := by
        simp [List.filter_append]
      rw [this]
      exact List.filter_sublist _
    have hzlt : z < m.size := hlt z (List.mem_cons_self _ _)
    have := walk_cost_sublist m htri s mid hs3
      (fun v hv => hlt v (List.mem_cons_of_mem _ (List.mem_append_left _ hv))) z z hzlt hzlt
    rw [hsc]
    simpa [tour_cost, walk_cost] using this

/-! ### The cost of an Eulerian circuit -/

theorem pairs_cost_eq_of_sym2_perm (m : matrix) (hsym : m.symmetric) (l1 l2 : List (Nat × Nat))
    (h1 : ∀ p ∈ l1, p.1 < m.size ∧ p.2 < m.size) (h2 : ∀ p ∈ l2, p.1 < m.size ∧ p.2 < m.size)
    (hperm : (l1.map (fun p => s(p.1, p.2))).Perm (l2.map (fun p => s(p.1, p.2)))) :
    pairs_cost m l1 = pairs_cost m l2 := by
  let g : Sym2 Nat → Nat := Sym2.lift ⟨fun a b => m.cost (min a b) (max a b), by
    intro a b
    simp only [Nat.min_comm a b, Nat.max_comm a b]⟩
  have hg : ∀ a b, a < m.size → b < m.size → g s(a, b) = m.cost a b := by
    intro a b ha hb
    show m.cost (min a b) (max a b) = m.cost a b
    rcases Nat.le_total a b with h | h
    · rw [Nat.min_eq_left h, Nat.max_eq_right h]
    · rw [Nat.min_eq_right h, Nat.max_eq_left h]
      exact hsym b hb a ha
  have key : ∀ l : List (Nat × Nat), (∀ p ∈ l, p.1 < m.size ∧ p.2 < m.size) →
      pairs_cost m l = ((l.map (fun p => s(p.1, p.2))).map g).sum := by
    intro l hl
    simp only [pairs_cost, List.map_map]
    congr 1
    apply List.map_congr_left
    intro p hp
    exact (hg p.1 p.2 (hl p hp).1 (hl p hp).2).symm
  rw [key l1 h1, key l2 h2]
  exact (hperm.map g).sum_eq

theorem edges_cost_eq_pairs_cost (m : matrix) (es : List edge) :
    edges_cost m es = pairs_cost m (edge_pairs es) := by
  simp [edges_cost, pairs_cost, edge_pairs, List.map_map, Function.comp_def]

theorem edges_cost_append (m : matrix) (es1 es2 : List edge) :
    edges_cost m (es1 ++ es2) = edges_cost m es1 + edges_cost m es2 := by
  simp [edges_cost]

theorem edges_cost_matching_perm (m : matrix) (odd : List Nat) (l1 l2 : List (Nat × Nat))
    (h : l1.Perm l2) :
    edges_cost m (matching_edges m odd l1) = edges_cost m (matching_edges m odd l2) := by
  simp only [edges_cost, matching_edges, List.map_map]
  exact (h.map _).sum_eq

/-- The cost of a closed walk that traverses every edge of a multigraph exactly once is the
sum of the costs of the edges, for a symmetric matrix. -/
theorem walk_cost_eq_edges_cost (m : matrix) (hsym : m.symmetric) (path : List Nat)
    (es : List edge) (hlt : ∀ v ∈ path, v < m.size)
    (hes : ∀ e ∈ es, e.first_vertex < m.size ∧ e.second_vertex < m.size)
    (hperm : ((consecutive_pairs path).map (fun p => s(p.1, p.2))).Perm
      (es.map (fun e => s(e.first_vertex, e.second_vertex)))) :
    walk_cost m path = edges_cost m es := by
  rw [edges_cost_eq_pairs_cost]
  apply pairs_cost_eq_of_sym2_perm m hsym
  · intro p hp
    obtain ⟨a, b⟩ := mem_of_mem_consecutive_pairs path p.1 p.2 hp
    exact ⟨hlt _ a, hlt _ b⟩
  · intro p hp
    simp only [edge_pairs, List.mem_map] at hp
    obtain ⟨e, he, rfl⟩ := hp
    exact hes e he
  · simpa [edge_pairs, List.map_map, Function.comp_def] using hperm

/-! ### The spanning tree against a closed tour -/

theorem path_edges_cons_cons (m : matrix) (a b : Nat) (l : List Nat) :
    path_edges m (a :: b :: l) = ⟨a, b, m.cost a b⟩ :: path_edges m (b :: l) := by
  simp [path_edges, consecutive_pairs]

theorem linked_cons (e : edge) (es : List edge) (a b : Nat) (h : linked es a b) :
    linked (e :: es) a b := by
  obtain ⟨e1, he1, h⟩ := h
  exact ⟨e1, List.mem_cons_of_mem _ he1, h⟩

theorem reach_cons (e : edge) (es : List edge) (a b : Nat)
    (h : Relation.ReflTransGen (linked es) a b) :
    Relation.ReflTransGen (linked (e :: es)) a b := by
  induction h with
  | refl => exact Relation.ReflTransGen.refl
  | tail _ hbc ih => exact Relation.ReflTransGen.tail ih (linked_cons e es _ _ hbc)

theorem path_edges_reach (m : matrix) (l : List Nat) : ∀ a, ∀ v ∈ a :: l,
    Relation.ReflTransGen (linked (path_edges m (a :: l))) a v := by
  induction l with
  | nil =>
    intro a v hv
    simp only [List.mem_singleton] at hv
    subst hv
    exact Relation.ReflTransGen.refl
  | cons b l ih =>
    intro a v hv
    rcases List.mem_cons.1 hv with h | h
    · subst h
      exact Relation.ReflTransGen.refl
    · rw [path_edges_cons_cons]
      have h1 : linked (⟨a, b, m.cost a b⟩ :: path_edges m (b :: l)) a b :=
        ⟨⟨a, b, m.cost a b⟩, List.mem_cons_self _ _, Or.inl ⟨rfl, rfl⟩⟩
      exact Relation.ReflTransGen.head h1 (reach_cons _ _ _ _ (ih b v h))

theorem consecutive_pairs_ne (l : List Nat) (hnd : l.Nodup) (p : Nat × Nat)
    (hp : p ∈ consecutive_pairs l) : p.1 ≠ p.2 := by
  induction l with
  | nil => simp [consecutive_pairs] at hp
  | cons a l ih =>
    cases l with
    | nil => simp [consecutive_pairs] at hp
    | cons b l =>
      obtain ⟨ha, hnd1⟩ := List.nodup_cons.1 hnd
      simp only [consecutive_pairs, List.mem_cons] at hp
      rcases hp with rfl | hp
      · intro e
        exact ha (by simp only at e; rw [e]; exact List.mem_cons_self _ _)
      · exact ih hnd1 hp

/-- The steps of a list that holds every vertex once are a spanning tree. -/
theorem path_edges_spanning (m : matrix) (h : List Nat) (hperm : h.Perm (List.range m.size))
    (hn : 1 ≤ m.size) : is_spanning_tree m.size (path_edges m h) := by
  have hnd : h.Nodup := hperm.nodup_iff.2 (List.nodup_range _)
  have hlen : h.length = m.size := by simpa using hperm.length_eq
  refine ⟨?_, ?_, ?_⟩
  · simp only [path_edges, List.length_map, length_consecutive_pairs]
    omega
  · intro e he
    simp only [path_edges, List.mem_map] at he
    obtain ⟨p, hp, rfl⟩ := he
    obtain ⟨h1, h2⟩ := mem_of_mem_consecutive_pairs h p.1 p.2 hp
    exact ⟨List.mem_range.1 (hperm.mem_iff.1 h1), List.mem_range.1 (hperm.mem_iff.1 h2),
      consecutive_pairs_ne h hnd p hp⟩
  · intro v hv
    cases h with
    | nil => simp at hlen; omega
    | cons a l =>
      have h0 : 0 ∈ a :: l := hperm.mem_iff.2 (List.mem_range.2 (by omega))
      have hvm : v ∈ a :: l := hperm.mem_iff.2 (List.mem_range.2 hv)
      exact (reach_symm _ a 0 (path_edges_reach m l a 0 h0)).trans (path_edges_reach m l a v hvm)

theorem edges_cost_path_edges (m : matrix) (h : List Nat) :
    edges_cost m (path_edges m h) = walk_cost m h := by
  simp [edges_cost, path_edges, walk_cost, pairs_cost, List.map_map, Function.comp_def]

theorem tour_cost_eq_walk_cost (m : matrix) (h : List Nat) :
    tour_cost m h = walk_cost m (h ++ h.take 1) := rfl

theorem tour_cost_cons (m : matrix) (a : Nat) (l d : List Nat) (z : Nat)
    (h : a :: l = d ++ [z]) :
    tour_cost m (a :: l) = walk_cost m (a :: l) + m.cost z a := by
  have h5 := walk_cost_append_singleton m d z a
  rw [← h] at h5
  rw [tour_cost_eq_walk_cost]
  exact h5

theorem exists_snoc (a : Nat) (l : List Nat) : ∃ d z, a :: l = d ++ [z] ∧ z ∈ a :: l :=
  ⟨(a :: l).dropLast, (a :: l).getLast (List.cons_ne_nil a l),
    (List.dropLast_append_getLast (List.cons_ne_nil a l)).symm, List.getLast_mem _⟩

theorem walk_cost_le_tour_cost (m : matrix) (h : List Nat) :
    walk_cost m h ≤ tour_cost m h := by
  cases h with
  | nil => exact le_refl _
  | cons a l =>
    obtain ⟨d, z, hdz, _⟩ := exists_snoc a l
    rw [tour_cost_cons m a l d z hdz]
    exact Nat.le_add_right _ _

/-- A minimum spanning tree costs at most as much as any closed tour through all vertices. -/
theorem mst_cost_le_tour_cost (m : matrix) (mst : List edge)
    (hmst : is_minimum_spanning_tree m mst) (hn : 1 ≤ m.size) (h : List Nat)
    (hperm : h.Perm (List.range m.size)) : edges_cost m mst ≤ tour_cost m h := by
  have h1 := hmst.2 (path_edges m h) (path_edges_spanning m h hperm hn)
  rw [edges_cost_path_edges] at h1
  exact le_trans h1 (walk_cost_le_tour_cost m h)

/-! ### The matching against a closed tour -/

theorem alt_pairs_perm : ∀ l : List Nat, l.length % 2 = 0 →
    ((alt_pairs l).map Prod.fst ++ (alt_pairs l).map Prod.snd).Perm l
  | [], _ => by simp [alt_pairs]
  | [a], h => by simp at h
  | a :: b :: rest, h => by
    have hrest : rest.length % 2 = 0 := by
      simp only [List.length_cons] at h
      omega
    have ih := alt_pairs_perm rest hrest
    simp only [alt_pairs, List.map_cons, List.cons_append]
    refine List.Perm.cons a ?_
    exact List.perm_middle.trans (List.Perm.cons b ih)

theorem walk_cost_alt_pairs (m : matrix) (z : Nat) : ∀ l : List Nat, l.length % 2 = 0 →
    walk_cost m (l ++ [z]) =
      pairs_cost m (alt_pairs l) + pairs_cost m (alt_pairs (l.tail ++ [z]))
  | [], _ => by simp [alt_pairs, walk_cost, pairs_cost, consecutive_pairs]
  | [a], h => by simp at h
  | a :: b :: rest, h => by
    have hrest : rest.length % 2 = 0 := by
      simp only [List.length_cons] at h
      omega
    have ih := walk_cost_alt_pairs m z rest hrest
    cases rest with
    | nil =>
      simp [alt_pairs, walk_cost, pairs_cost, consecutive_pairs]
    | cons y t =>
      simp only [List.cons_append, walk_cost_cons_cons, List.tail_cons] at ih ⊢
      simp only [alt_pairs, pairs_cost, List.map_cons, List.sum_cons] at ih ⊢
      omega

theorem filter_mem_perm (h odd : List Nat) (n : Nat) (hperm : h.Perm (List.range n))
    (hodd : odd.Nodup) (hlt : ∀ v ∈ odd, v < n) :
    (h.filter (fun v => decide (v ∈ odd))).Perm odd := by
  apply (List.perm_ext_iff_of_nodup _ hodd).2
  · intro v
    simp only [List.mem_filter, decide_eq_true_eq]
    constructor
    · exact fun hv => hv.2
    · intro hv
      exact ⟨hperm.mem_iff.2 (List.mem_range.2 (hlt v hv)), hv⟩
  · exact List.Nodup.sublist (List.filter_sublist _) (hperm.nodup_iff.2 (List.nodup_range _))

/-- Leaving vertices out of a closed tour does not make it longer, for a symmetric matrix
whose entries satisfy the triangle inequality. -/
theorem tour_cost_filter_le (m : matrix) (hsym : m.symmetric) (htri : m.triangle)
    (p : Nat → Bool) (h : List Nat) (hlt : ∀ v ∈ h, v < m.size) :
    tour_cost m (h.filter p) ≤ tour_cost m h := by
  cases h with
  | nil => exact le_refl _
  | cons x r =>
    have hx : x < m.size := hlt x (List.mem_cons_self _ _)
    have hr : ∀ v ∈ r, v < m.size := fun v hv => hlt v (List.mem_cons_of_mem _ hv)
    have hbig : ∀ l1 : List Nat, l1.Sublist r →
        walk_cost m (x :: l1 ++ [x]) ≤ tour_cost m (x :: r) := by
      intro l1 hl1
      have := walk_cost_sublist m htri l1 r hl1 hr x x hx hx
      rw [tour_cost_eq_walk_cost]
      simpa using this
    by_cases hpx : p x = true
    · rw [List.filter_cons_of_pos hpx]
      have := hbig (r.filter p) (List.filter_sublist _)
      rw [tour_cost_eq_walk_cost]
      simpa using this
    · rw [List.filter_cons_of_neg hpx]
      cases hf : r.filter p with
      | nil => exact Nat.zero_le _
      | cons y t =>
        have hsubl : (y :: t).Sublist r := hf ▸ List.filter_sublist _
        have h1 := hbig (y :: t) hsubl
        have hy : y < m.size := hr y (hsubl.subset (List.mem_cons_self _ _))
        obtain ⟨d, z, hdz, hzm⟩ := exists_snoc y t
        have hz : z < m.size := hr z (hsubl.subset hzm)
        rw [tour_cost_cons m y t d z hdz]
        have e1 : x :: (y :: t) ++ [x] = (x :: d) ++ [z] ++ [x] := by
          rw [hdz]; simp
        have e2 : (x :: d) ++ [z] = x :: y :: t := by
          rw [hdz]; simp
        rw [e1, walk_cost_append_singleton, e2, walk_cost_cons_cons] at h1
        have t1 := htri z hz x hx y hy
        have t2 := hsym x hx y hy
        omega

/-- A perfect matching of least cost on an even number of vertices costs at most half as much
as any closed tour through all vertices. -/
theorem matching_cost_le_tour_cost (m : matrix) (hsym : m.symmetric) (htri : m.triangle)
    (odd : List Nat) (hodd : odd.Nodup) (hlt : ∀ v ∈ odd, v < m.size)
    (heven : odd.length % 2 = 0) (c : Nat)
    (hmin : ∀ pairs : List (Nat × Nat), (pairs.map Prod.fst ++ pairs.map Prod.snd).Perm odd →
      c ≤ pairs_cost m pairs)
    (h : List Nat) (hperm : h.Perm (List.range m.size)) : 2 * c ≤ tour_cost m h := by
  have hfp := filter_mem_perm h odd m.size hperm hodd hlt
  have hle := tour_cost_filter_le m hsym htri (fun v => decide (v ∈ odd)) h
    (fun v hv => List.mem_range.1 (hperm.mem_iff.1 hv))
  generalize h.filter (fun v => decide (v ∈ odd)) = f at hfp hle
  have hflen : f.length % 2 = 0 := by rw [hfp.length_eq]; exact heven
  have h1 := hmin (alt_pairs f) ((alt_pairs_perm f hflen).trans hfp)
  cases f with
  | nil =>
    simp only [alt_pairs, pairs_cost, List.map_nil, List.sum_nil] at h1
    omega
  | cons y t =>
    have hrot : (t ++ [y]).Perm (y :: t) := List.perm_append_singleton y t
    have hrlen : (t ++ [y]).length % 2 = 0 := by rw [hrot.length_eq]; exact hflen
    have h2 := hmin (alt_pairs (t ++ [y])) ((alt_pairs_perm _ hrlen).trans (hrot.trans hfp))
    have h3 := walk_cost_alt_pairs m y (y :: t) hflen
    rw [tour_cost_eq_walk_cost] at hle
    simp only [List.take_succ_cons, List.take_zero, List.tail_cons] at hle h3
    omega

/-! ### The approximation ratio -/

/-- The tour of `christofides` costs at most as much as the spanning tree and the matching
that the code builds, for a symmetric matrix whose entries satisfy the triangle inequality;
with a minimum spanning tree and a matching of least cost this is at most 1.5 times the cost
of any closed tour through all vertices. -/
theorem christofides_ratio_spec (E : Env) (sym_matrix : matrix) (hn : 2 ≤ sym_matrix.size)
    (hsym : sym_matrix.symmetric) (htri : sym_matrix.triangle)
    (hmst : is_minimum_spanning_tree sym_matrix (E.mst_edges sym_matrix))
    (hmw : is_fixed_point_free_permutation (mwpm_of E sym_matrix)
      (mst_odd_vertices E sym_matrix).length)
    (hgreedy : ∀ m : matrix, m.size % 2 = 0 →
      is_perfect_matching (E.greedy_symmetric_approx_mwpm m) m.size)
    (hmin : ∀ mwpm_final,
      build_mwpm_final E.greedy_symmetric_approx_mwpm
        (sym_matrix.get_sub_matrix (mst_odd_vertices E sym_matrix)) (mwpm_of E sym_matrix) =
          .ok mwpm_final →
      is_minimum_weight_perfect_matching sym_matrix (mst_odd_vertices E sym_matrix) mwpm_final) :
    ∃ tour, christofides E sym_matrix = .ok tour ∧
      ∀ h : List Nat, h.Perm (List.range sym_matrix.size) →
        2 * tour_cost sym_matrix tour ≤ 3 * tour_cost sym_matrix h := by
  obtain ⟨final, path, hbuild, _, hoddnd, hoddlt, hendlt, hp2, hclosed, hpathlt, hperm, hrun, _⟩ :=
    christofides_spec E sym_matrix hn hmst.1 hmw (fun wrong hw => hgreedy _ hw)
  refine ⟨shortcut path, hrun, ?_⟩
  intro h hh
  have h1 := tour_cost_shortcut_le sym_matrix htri path hpathlt hp2 hclosed
  have h2 := walk_cost_eq_edges_cost sym_matrix hsym path _ hpathlt hendlt hperm
  rw [edges_cost_append, edges_cost_matching_perm sym_matrix _ _ _ (E.iter_map_perm final)]
    at h2
  have h3 := mst_cost_le_tour_cost sym_matrix _ hmst (by omega) h hh
  have heven := length_odd_degree_vertices_even (E.mst_edges sym_matrix) (E.iter_adj _)
    (E.iter_adj_perm _)
  have h4 := matching_cost_le_tour_cost sym_matrix hsym htri (mst_odd_vertices E sym_matrix)
    hoddnd hoddlt heven _ (hmin final hbuild).2 h hh
  omega

/-- A perfect matching whose edges all cost as little as any step between two different
vertices is a perfect matching of least cost. -/
theorem minimum_weight_perfect_matching_of_unit (m : matrix) (c : Nat) (odd : List Nat)
    (final : List (Nat × Nat)) (hpm : is_perfect_matching final odd.length)
    (hodd : odd.Nodup) (hlt : ∀ v ∈ odd, v < m.size)
    (hcost : ∀ e ∈ matching_edges m odd final, m.cost e.first_vertex e.second_vertex = c)
    (hlow : ∀ i, i < m.size → ∀ j, j < m.size → i ≠ j → c ≤ m.cost i j) :
    is_minimum_weight_perfect_matching m odd final := by
  refine ⟨hpm, ?_⟩
  intro pairs hpairs
  have h1 : edges_cost m (matching_edges m odd final) = final.length * c := by
    simp only [edges_cost]
    rw [List.map_congr_left hcost]
    simp [matching_edges, Function.comp_def]
  have h2 : pairs.length * c ≤ pairs_cost m pairs := by
    simp only [pairs_cost]
    have : ∀ l : List (Nat × Nat), (∀ e ∈ l, c ≤ m.cost e.1 e.2) →
        l.length * c ≤ (l.map (fun e => m.cost e.1 e.2)).sum := by
      intro l hl
      induction l with
      | nil => simp
      | cons a l ih =>
        have h1 := hl a (List.mem_cons_self _ _)
        have h2 := ih (fun x hx => hl x (List.mem_cons_of_mem _ hx))
        simp only [List.length_cons, List.map_cons, List.sum_cons, Nat.add_mul, Nat.one_mul]
        omega
    apply this
    intro e he
    have hnd : (pairs.map Prod.fst ++ pairs.map Prod.snd).Nodup := hpairs.nodup_iff.2 hodd
    have ha : e.1 ∈ pairs.map Prod.fst ++ pairs.map Prod.snd :=
      List.mem_append_left _ (List.mem_map_of_mem _ he)
    have hb : e.2 ∈ pairs.map Prod.fst ++ pairs.map Prod.snd :=
      List.mem_append_right _ (List.mem_map_of_mem _ he)
    refine hlow _ (hlt _ (hpairs.mem_iff.1 ha)) _ (hlt _ (hpairs.mem_iff.1 hb)) ?_
    intro heq
    have hd := (List.nodup_append.1 hnd).2.2
    exact hd (List.mem_map_of_mem _ he) (heq ▸ List.mem_map_of_mem _ he)
  have h3 : 2 * final.length = 2 * pairs.length := by
    have a1 := length_of_perfect_matching final odd.length hpm
    have a2 := hpairs.length_eq
    simp only [List.length_append, List.length_map] at a2
    omega
  have h4 : final.length = pairs.length := by omega
  rw [h1, h4]
  exact h2

/-! ### The split on maps with fixed points -/

/-- Two pairs that a map sends in both directions and that have the same smaller member have
the same larger member. -/
theorem coherent_pair_unique (mwpm : List (Nat × Nat)) (hnd : (mwpm.map Prod.fst).Nodup)
    (a b c d : Nat) (h1 : (a, b) ∈ mwpm) (h2 : (b, a) ∈ mwpm) (h3 : (c, d) ∈ mwpm)
    (h4 : (d, c) ∈ mwpm) (h : min a b = min c d) : max a b = max c d := by
  have f := eq_of_mem_of_nodup_keys mwpm hnd
  rcases le_total a b with hab | hab <;> rcases le_total c d with hcd | hcd
  · rw [Nat.min_eq_left hab, Nat.min_eq_left hcd] at h
    rw [Nat.max_eq_right hab, Nat.max_eq_right hcd]
    subst h
    exact f a b d h1 h3
  · rw [Nat.min_eq_left hab, Nat.min_eq_right hcd] at h
    rw [Nat.max_eq_right hab, Nat.max_eq_left hcd]
    subst h
    exact f a b c h1 h4
  · rw [Nat.min_eq_right hab, Nat.min_eq_left hcd] at h
    rw [Nat.max_eq_left hab, Nat.max_eq_right hcd]
    subst h
    exact f b a d h2 h3
  · rw [Nat.min_eq_right hab, Nat.min_eq_right hcd] at h
    rw [Nat.max_eq_left hab, Nat.max_eq_left hcd]
    subst h
    exact f b a c h2 h4

theorem map_emplace_keys_nodup (m : List (Nat × Nat)) (k v : Nat)
    (h : (m.map Prod.fst).Nodup) : ((map_emplace m k v).map Prod.fst).Nodup := by
  by_cases hk : k ∈ m.map Prod.fst
  · rw [map_emplace_of_mem m k v hk]
    exact h
  · rw [map_emplace_of_not_mem m k v hk]
    simp only [List.map_append, List.map_cons, List.map_nil]
    exact List.Nodup.append h (List.nodup_singleton k) (by
      intro x hx hx1
      rw [List.mem_singleton] at hx1
      exact hk (hx1 ▸ hx))

theorem map_emplace_extends (m : List (Nat × Nat)) (k v : Nat) :
    map_emplace m k v = m ∨ map_emplace m k v = m ++ [(k, v)] := by
  by_cases hk : k ∈ m.map Prod.fst
  · exact Or.inl (map_emplace_of_mem m k v hk)
  · exact Or.inr (map_emplace_of_not_mem m k v hk)

/-- The split loop on any map whose values are keys, fixed points allowed: it never fails,
`wrong_vertices` receives the keys that are not mapped back, in visiting order, and
`mwpm_final` receives exactly the pairs mapped in both directions, smaller member first, each
under a key of its own. -/
theorem split_loop_general (mwpm : List (Nat × Nat)) (hnd : (mwpm.map Prod.fst).Nodup)
    (hval : ∀ e ∈ mwpm, e.2 ∈ mwpm.map Prod.fst) :
    ∀ (todo final : List (Nat × Nat)) (wrong : List Nat), (∀ e ∈ todo, e ∈ mwpm) →
    (final.map Prod.fst).Nodup →
    (∀ p ∈ final, ∃ e ∈ mwpm, (e.2, e.1) ∈ mwpm ∧ p = (min e.1 e.2, max e.1 e.2)) →
    ∃ final1, split_loop mwpm todo final wrong =
        .ok (final1, wrong ++ (todo.filter (fun e => decide ((e.2, e.1) ∉ mwpm))).map Prod.fst) ∧
      (final1.map Prod.fst).Nodup ∧
      ∀ p, p ∈ final1 ↔
        (p ∈ final ∨ ∃ e ∈ todo, (e.2, e.1) ∈ mwpm ∧ p = (min e.1 e.2, max e.1 e.2)) := by
  intro todo
  induction todo with
  | nil =>
    intro final wrong _ hN _
    exact ⟨final, by simp [split_loop], hN, by simp⟩
  | cons e todo ih =>
    intro final wrong hsub hN hC
    have hem : e ∈ mwpm := hsub e (List.mem_cons_self _ _)
    have hsub1 : ∀ e1 ∈ todo, e1 ∈ mwpm := fun e1 h => hsub e1 (List.mem_cons_of_mem _ h)
    obtain ⟨back, hback⟩ : ∃ back, (e.2, back) ∈ mwpm := by
      obtain ⟨e1, he1, h⟩ := List.mem_map.1 (hval e hem)
      exact ⟨e1.2, by rw [← h]; exact he1⟩
    have hat := map_at_of_mem mwpm hnd e.2 back hback
    by_cases hb : back = e.1
    · have hco : (e.2, e.1) ∈ mwpm := hb ▸ hback
      have hmemE : ∀ p, p ∈ map_emplace final (min e.1 e.2) (max e.1 e.2) ↔
          (p ∈ final ∨ p = (min e.1 e.2, max e.1 e.2)) := by
        intro p
        by_cases hk : min e.1 e.2 ∈ final.map Prod.fst
        · rw [map_emplace_of_mem final _ _ hk]
          constructor
          · exact Or.inl
          · rintro (h | h)
            · exact h
            · obtain ⟨q, hq, hq1⟩ := List.mem_map.1 hk
              obtain ⟨e1, he1, hco1, hqe⟩ := hC q hq
              have h5 : min e1.1 e1.2 = min e.1 e.2 := by
                rw [← hq1, hqe]
              have h6 := coherent_pair_unique mwpm hnd e1.1 e1.2 e.1 e.2 he1 hco1 hem hco h5
              rw [h, ← h5, ← h6, ← hqe]
              exact hq
        · rw [map_emplace_of_not_mem final _ _ hk]
          simp
      have hC1 : ∀ p ∈ map_emplace final (min e.1 e.2) (max e.1 e.2),
          ∃ e1 ∈ mwpm, (e1.2, e1.1) ∈ mwpm ∧ p = (min e1.1 e1.2, max e1.1 e1.2) := by
        intro p hp
        rcases (hmemE p).1 hp with h | h
        · exact hC p h
        · exact ⟨e, hem, hco, h⟩
      obtain ⟨final1, hrun, hN2, hmem2⟩ :=
        ih (map_emplace final (min e.1 e.2) (max e.1 e.2)) wrong hsub1
          (map_emplace_keys_nodup final _ _ hN) hC1
      refine ⟨final1, ?_, hN2, ?_⟩
      · have hdec : decide ((e.2, e.1) ∉ mwpm) = false := by simpa using hco
        simp only [split_loop, hat, hb, if_true, hrun, List.filter_cons, hdec]
        simp
      · intro p
        rw [hmem2 p, hmemE p]
        constructor
        · rintro ((h | h) | ⟨e1, he1, h⟩)
          · exact Or.inl h
          · exact Or.inr ⟨e, List.mem_cons_self _ _, hco, h⟩
          · exact Or.inr ⟨e1, List.mem_cons_of_mem _ he1, h⟩
        · rintro (h | ⟨e1, he1, h⟩)
          · exact Or.inl (Or.inl h)
          · rcases List.mem_cons.1 he1 with he1 | he1
            · subst he1
              exact Or.inl (Or.inr h.2)
            · exact Or.inr ⟨e1, he1, h⟩
    · have hnco : (e.2, e.1) ∉ mwpm := by
        intro h
        exact hb (eq_of_mem_of_nodup_keys mwpm hnd e.2 back e.1 hback h)
      obtain ⟨final1, hrun, hN2, hmem2⟩ := ih final (wrong ++ [e.1]) hsub1 hN hC
      refine ⟨final1, ?_, hN2, ?_⟩
      · have hdec : decide ((e.2, e.1) ∉ mwpm) = true := by simpa using hnco
        simp only [split_loop, hat, hb, if_false, hrun, List.filter_cons, hdec]
        simp
      · intro p
        rw [hmem2 p]
        constructor
        · rintro (h | ⟨e1, he1, h⟩)
          · exact Or.inl h
          · exact Or.inr ⟨e1, List.mem_cons_of_mem _ he1, h⟩
        · rintro (h | ⟨e1, he1, h⟩)
          · exact Or.inl h
          · rcases List.mem_cons.1 he1 with he1 | he1
            · subst he1
              exact absurd h.1 hnco
            · exact Or.inr ⟨e1, he1, h⟩

/-- The greedy repair only appends to `mwpm_final`, and what it appends are pairs of members
of `wrong_vertices`. -/
theorem repair_loop_adds (wrong : List Nat) :
    ∀ (g final final2 : List (Nat × Nat)), repair_loop wrong g final = .ok final2 →
    ∃ added, final2 = final ++ added ∧ ∀ p ∈ added, p.1 ∈ wrong ∧ p.2 ∈ wrong := by
  intro g
  induction g with
  | nil =>
    intro final final2 h
    simp only [repair_loop, Except.ok.injEq] at h
    exact ⟨[], by simp [h], by simp⟩
  | cons e g ih =>
    intro final final2 h
    simp only [repair_loop] at h
    cases ha : vec_at wrong e.1 with
    | error err => rw [ha] at h; simp at h
    | ok a =>
      cases hb : vec_at wrong e.2 with
      | error err => rw [ha, hb] at h; simp at h
      | ok b =>
        rw [ha, hb] at h
        simp only at h
        have ha1 : a ∈ wrong := List.mem_iff_getElem?.2 ⟨e.1, (vec_at_eq_ok wrong e.1 a).1 ha⟩
        have hb1 : b ∈ wrong := List.mem_iff_getElem?.2 ⟨e.2, (vec_at_eq_ok wrong e.2 b).1 hb⟩
        have hmin : min a b ∈ wrong := by
          rcases le_total a b with hab | hab
          · rw [Nat.min_eq_left hab]; exact ha1
          · rw [Nat.min_eq_right hab]; exact hb1
        have hmax : max a b ∈ wrong := by
          rcases le_total a b with hab | hab
          · rw [Nat.max_eq_right hab]; exact hb1
          · rw [Nat.max_eq_left hab]; exact ha1
        obtain ⟨added, hadd, hmem⟩ := ih _ final2 h
        rcases map_emplace_extends final (min a b) (max a b) with h1 | h1
        · rw [h1] at hadd
          exact ⟨added, hadd, hmem⟩
        · rw [h1, List.append_assoc] at hadd
          refine ⟨[(min a b, max a b)] ++ added, hadd, ?_⟩
          intro p hp
          rcases List.mem_append.1 hp with hp | hp
          · rw [List.mem_singleton] at hp
            subst hp
            exact ⟨hmin, hmax⟩
          · exact hmem p hp

theorem repair_loop_keys_nodup (wrong : List Nat) :
    ∀ (g final final2 : List (Nat × Nat)), repair_loop wrong g final = .ok final2 →
    (final.map Prod.fst).Nodup → (final2.map Prod.fst).Nodup := by
  intro g
  induction g with
  | nil =>
    intro final final2 h hN
    simp only [repair_loop, Except.ok.injEq] at h
    exact h ▸ hN
  | cons e g ih =>
    intro final final2 h hN
    simp only [repair_loop] at h
    cases ha : vec_at wrong e.1 with
    | error err => rw [ha] at h; simp at h
    | ok a =>
      cases hb : vec_at wrong e.2 with
      | error err => rw [ha, hb] at h; simp at h
      | ok b =>
        rw [ha, hb] at h
        exact ih _ final2 h (map_emplace_keys_nodup final _ _ hN)

/-! ### The split and the repair on any map -/

/-- The split step and the greedy repair on any map whose values are keys: the split never
fails; `mwpm_final` holds the pair `(min v w, max v w)` for every `v` with `mwpm[v] = w` and
`mwpm[w] = v` and nothing else, each under its own key; `wrong_vertices` holds the `v` with
`mwpm[mwpm[v]] ≠ v`, each once; whenever the repair returns, it has only appended pairs of
members of `wrong_vertices`, and the keys are still distinct. -/
theorem split_and_repair_spec (greedy : matrix → List (Nat × Nat)) (sub_matrix : matrix)
    (mwpm : List (Nat × Nat)) (hnd : (mwpm.map Prod.fst).Nodup)
    (hval : ∀ e ∈ mwpm, e.2 ∈ mwpm.map Prod.fst) :
    ∃ mwpm_final wrong_vertices,
      split_loop mwpm mwpm [] [] = .ok (mwpm_final, wrong_vertices) ∧
      wrong_vertices = (mwpm.filter (fun e => decide ((e.2, e.1) ∉ mwpm))).map Prod.fst ∧
      (∀ p, p ∈ mwpm_final ↔
        ∃ v w, map_at mwpm v = .ok w ∧ map_at mwpm w = .ok v ∧ p = (min v w, max v w)) ∧
      (mwpm_final.map Prod.fst).Nodup ∧
      (∀ v, v ∈ wrong_vertices ↔
        ∃ w u, map_at mwpm v = .ok w ∧ map_at mwpm w = .ok u ∧ u ≠ v) ∧
      wrong_vertices.Nodup ∧
      ∀ final2, build_mwpm_final greedy sub_matrix mwpm = .ok final2 →
        (final2.map Prod.fst).Nodup ∧
        ∃ added, final2 = mwpm_final ++ added ∧
          ∀ p ∈ added, p.1 ∈ wrong_vertices ∧ p.2 ∈ wrong_vertices := by
  obtain ⟨final, hsplit, hN, hmem⟩ :=
    split_loop_general mwpm hnd hval mwpm [] [] (fun _ h => h) (by simp)
      (by intro e he; simp at he)
  simp only [List.nil_append] at hsplit
  refine ⟨final, _, hsplit, rfl, ?_, hN, ?_, ?_, ?_⟩
  · intro p
    rw [hmem p]
    simp only [List.not_mem_nil, false_or]
    constructor
    · rintro ⟨e, he, hco, hp⟩
      exact ⟨e.1, e.2, map_at_of_mem mwpm hnd _ _ he, map_at_of_mem mwpm hnd _ _ hco, hp⟩
    · rintro ⟨v, w, h1, h2, hp⟩
      exact ⟨(v, w), map_at_mem mwpm v w h1, map_at_mem mwpm w v h2, hp⟩
  · intro v
    simp only [List.mem_map, List.mem_filter, decide_eq_true_eq]
    constructor
    · rintro ⟨e, ⟨he, hnco⟩, hv⟩
      obtain ⟨e1, he1, h⟩ := List.mem_map.1 (hval e he)
      refine ⟨e.2, e1.2, ?_, ?_, ?_⟩
      · rw [← hv]
        exact map_at_of_mem mwpm hnd _ _ he
      · rw [← h]
        exact map_at_of_mem mwpm hnd _ _ he1
      · intro hu
        apply hnco
        have : e1 = (e.2, e.1) := Prod.ext h (by rw [hu, hv])
        rw [← this]
        exact he1
    · rintro ⟨w, u, h1, h2, hu⟩
      refine ⟨(v, w), ⟨map_at_mem mwpm v w h1, ?_⟩, rfl⟩
      intro hco
      exact hu (eq_of_mem_of_nodup_keys mwpm hnd w u v (map_at_mem mwpm w u h2) hco)
  · exact List.Nodup.sublist (List.Sublist.map _ (List.filter_sublist _)) hnd
  · intro final2 hbuild
    simp only [build_mwpm_final, hsplit] at hbuild
    split at hbuild
    · simp only [Except.ok.injEq] at hbuild
      subst hbuild
      exact ⟨hN, [], by simp, by simp⟩
    · exact ⟨repair_loop_keys_nodup _ _ _ _ hbuild hN, repair_loop_adds _ _ _ _ hbuild⟩

theorem length_filter_three {α : Type} (l : List α) (p q r : α → Bool)
    (h : ∀ x ∈ l, (p x = true ∧ q x = false ∧ r x = false) ∨
      (p x = false ∧ q x = true ∧ r x = false) ∨ (p x = false ∧ q x = false ∧ r x = true)) :
    l.length = (l.filter p).length + (l.filter q).length + (l.filter r).length := by
  induction l with
  | nil => rfl
  | cons a l ih =>
    have ih1 := ih (fun x hx => h x (List.mem_cons_of_mem _ hx))
    rcases h a (List.mem_cons_self _ _) with ⟨h1, h2, h3⟩ | ⟨h1, h2, h3⟩ | ⟨h1, h2, h3⟩ <;>
      simp only [List.filter_cons, h1, h2, h3, if_true, List.length_cons] <;>
      simp only [Bool.false_eq_true, if_false] <;> omega

/-- A duplicate-free list of pairs of different members that holds every pair in both
directions has an even number of entries. -/
theorem length_swap_closed_even (D : List (Nat × Nat)) (hN : D.Nodup)
    (hne : ∀ e ∈ D, e.1 ≠ e.2) (hsw : ∀ e ∈ D, (e.2, e.1) ∈ D) : D.length % 2 = 0 := by
  have hL : (D.filter (fun e => decide (e.1 < e.2))).Nodup := hN.filter _
  have hN2 : (D.filter (fun e => decide (e.1 < e.2)) ++
      (D.filter (fun e => decide (e.1 < e.2))).map Prod.swap).Nodup := by
    refine List.Nodup.append hL (hL.map Prod.swap_injective) ?_
    intro e h1 h2
    simp only [List.mem_filter, decide_eq_true_eq] at h1
    obtain ⟨e1, he1, h3⟩ := List.mem_map.1 h2
    simp only [List.mem_filter, decide_eq_true_eq] at he1
    rw [← h3] at h1
    simp only [Prod.fst_swap, Prod.snd_swap] at h1
    omega
  have hp : D.Perm (D.filter (fun e => decide (e.1 < e.2)) ++
      (D.filter (fun e => decide (e.1 < e.2))).map Prod.swap) := by
    apply (List.perm_ext_iff_of_nodup hN hN2).2
    intro e
    simp only [List.mem_append, List.mem_filter, decide_eq_true_eq, List.mem_map]
    constructor
    · intro he
      rcases Nat.lt_or_gt_of_ne (hne e he) with h | h
      · exact Or.inl ⟨he, h⟩
      · exact Or.inr ⟨(e.2, e.1), ⟨hsw e he, h⟩, rfl⟩
    · rintro (⟨he, _⟩ | ⟨e1, ⟨he1, _⟩, h⟩)
      · exact he
      · rw [← h]
        exact hsw e1 he1
  have := hp.length_eq
  simp only [List.length_append, List.length_map] at this
  omega

/-- The length of `wrong_vertices` plus the number of fixed points of `mwpm` has the parity
of the number of entries of `mwpm`. -/
theorem wrong_vertices_parity (mwpm : List (Nat × Nat)) (hnd : (mwpm.map Prod.fst).Nodup) :
    (((mwpm.filter (fun e => decide ((e.2, e.1) ∉ mwpm))).map Prod.fst).length +
      (mwpm.filter (fun e => decide (e.1 = e.2))).length) % 2 = mwpm.length % 2 := by
  have hN : mwpm.Nodup := List.Nodup.of_map _ hnd
  have h3 := length_filter_three mwpm (fun e => decide (e.1 = e.2))
    (fun e => decide (e.1 ≠ e.2 ∧ (e.2, e.1) ∈ mwpm)) (fun e => decide ((e.2, e.1) ∉ mwpm))
    (by
      intro e he
      by_cases h1 : e.1 = e.2
      · have h2 : (e.2, e.1) ∈ mwpm := by
          have : (e.2, e.1) = e := Prod.ext h1.symm h1
          rw [this]
          exact he
        have h4 : decide (e.1 = e.2) = true := by simpa using h1
        have h5 : decide (e.1 ≠ e.2 ∧ (e.2, e.1) ∈ mwpm) = false := by
          simpa using fun h => absurd h1 h
        have h6 : decide ((e.2, e.1) ∉ mwpm) = false := by simpa using h2
        exact Or.inl ⟨h4, h5, h6⟩
      · by_cases h2 : (e.2, e.1) ∈ mwpm
        · simp [h1, h2]
        · simp [h1, h2])
  have hD := length_swap_closed_even
    (mwpm.filter (fun e => decide (e.1 ≠ e.2 ∧ (e.2, e.1) ∈ mwpm))) (hN.filter _)
    (by
      intro e he
      simp only [List.mem_filter, decide_eq_true_eq] at he
      exact he.2.1)
    (by
      intro e he
      simp only [List.mem_filter, decide_eq_true_eq] at he ⊢
      exact ⟨he.2.2, fun h => he.2.1 h.symm, he.1⟩)
  rw [List.length_map]
  omega

/-! ### The loop over `mwpm_final` on any map -/

theorem mem_adj_get_adjacency_list_of_edges (es : List edge) (v u : Nat) :
    u ∈ adj_get (adjacency_list_of_edges es) v ↔
      ∃ e ∈ es, (e.first_vertex = v ∧ e.second_vertex = u) ∨
        (e.second_vertex = v ∧ e.first_vertex = u) := by
  rw [adj_get_adjacency_list_of_edges]
  simp only [List.mem_flatMap, List.mem_append]
  constructor
  · rintro ⟨e, he, h | h⟩
    · split at h
      · rename_i h1
        exact ⟨e, he, Or.inl ⟨h1, (List.mem_singleton.1 h).symm⟩⟩
      · simp at h
    · split at h
      · rename_i h1
        exact ⟨e, he, Or.inr ⟨h1, (List.mem_singleton.1 h).symm⟩⟩
      · simp at h
  · rintro ⟨e, he, ⟨h1, h2⟩ | ⟨h1, h2⟩⟩
    · exact ⟨e, he, Or.inl (by simp [h1, h2])⟩
    · exact ⟨e, he, Or.inr (by simp [h1, h2])⟩

theorem getD_inj_of_nodup (l : List Nat) (hl : l.Nodup) (i j : Nat) (hi : i < l.length)
    (hj : j < l.length) (h : l.getD i 0 = l.getD j 0) : i = j := by
  obtain ⟨_, h1⟩ := vec_at_of_lt l i hi
  obtain ⟨_, h2⟩ := vec_at_of_lt l j hj
  rw [h] at h1
  exact List.getElem?_inj hi hl (h1.trans h2.symm)

/-- Whenever the loop over `mwpm_final` returns: every entry had both indices inside
`mst_odd_vertices`; the edges already listed are kept and only edges of entries are appended;
and an entry whose first vertex is neither in `already_added` nor the second vertex of another
entry gets its edge. -/
theorem add_matching_edges_run (sym_matrix : matrix) (odd : List Nat) :
    ∀ (todo : List (Nat × Nat)) (acc : List edge) (added : List Nat) (es : List edge),
    add_matching_edges sym_matrix odd todo acc added = .ok es →
    (∀ e ∈ todo, e.1 < odd.length ∧ e.2 < odd.length) ∧
    ∃ s, es = acc ++ s ∧
      (∀ x ∈ s, ∃ e ∈ todo, x = ⟨odd.getD e.1 0, odd.getD e.2 0,
        sym_matrix.cost (odd.getD e.1 0) (odd.getD e.2 0)⟩) ∧
      ∀ e ∈ todo, odd.getD e.1 0 ∉ added →
        (∀ e1 ∈ todo, odd.getD e1.2 0 = odd.getD e.1 0 → e1 = e) →
        (⟨odd.getD e.1 0, odd.getD e.2 0,
          sym_matrix.cost (odd.getD e.1 0) (odd.getD e.2 0)⟩ : edge) ∈ s := by
  intro todo
  induction todo with
  | nil =>
    intro acc added es h
    simp only [add_matching_edges, Except.ok.injEq] at h
    exact ⟨by simp, [], by simp [h], by simp, by simp⟩
  | cons x todo ih =>
    intro acc added es h
    simp only [add_matching_edges] at h
    cases ha : vec_at odd x.1 with
    | error err => rw [ha] at h; simp at h
    | ok a =>
      cases hb : vec_at odd x.2 with
      | error err => rw [ha, hb] at h; simp at h
      | ok b =>
        rw [ha, hb] at h
        simp only at h
        have ha1 := (vec_at_eq_ok odd x.1 a).1 ha
        have hb1 := (vec_at_eq_ok odd x.2 b).1 hb
        have hi : x.1 < odd.length := (List.getElem?_eq_some.1 ha1).1
        have hj : x.2 < odd.length := (List.getElem?_eq_some.1 hb1).1
        have hax : a = odd.getD x.1 0 := by
          have := (vec_at_of_lt odd x.1 hi).2
          rw [ha1] at this
          exact Option.some.inj this
        have hbx : b = odd.getD x.2 0 := by
          have := (vec_at_of_lt odd x.2 hj).2
          rw [hb1] at this
          exact Option.some.inj this
        by_cases hc : added.contains a = true
        · rw [if_pos hc] at h
          obtain ⟨hidx, s, hs, hfrom, hget⟩ := ih acc added es h
          refine ⟨?_, s, hs, ?_, ?_⟩
          · intro e he
            rcases List.mem_cons.1 he with he | he
            · exact he ▸ ⟨hi, hj⟩
            · exact hidx e he
          · intro y hy
            obtain ⟨e, he, hye⟩ := hfrom y hy
            exact ⟨e, List.mem_cons_of_mem _ he, hye⟩
          · intro e he hnot huniq
            rcases List.mem_cons.1 he with he | he
            · subst he
              rw [← hax] at hnot
              exact absurd (by simpa using hc) hnot
            · exact hget e he hnot (fun e1 he1 => huniq e1 (List.mem_cons_of_mem _ he1))
        · rw [if_neg hc] at h
          cases hm : matrix_at sym_matrix a b with
          | error err => rw [hm] at h; simp at h
          | ok w =>
            rw [hm] at h
            simp only at h
            have hw : w = sym_matrix.cost a b := by
              simp only [matrix_at] at hm
              split at hm
              · exact (Except.ok.inj hm).symm
              · simp at hm
            obtain ⟨hidx, s, hs, hfrom, hget⟩ := ih _ _ es h
            refine ⟨?_, [⟨a, b, w⟩] ++ s, by rw [hs]; simp, ?_, ?_⟩
            · intro e he
              rcases List.mem_cons.1 he with he | he
              · exact he ▸ ⟨hi, hj⟩
              · exact hidx e he
            · intro y hy
              rcases List.mem_append.1 hy with hy | hy
              · rw [List.mem_singleton] at hy
                exact ⟨x, List.mem_cons_self _ _, by rw [hy, hw, hax, hbx]⟩
              · obtain ⟨e, he, hye⟩ := hfrom y hy
                exact ⟨e, List.mem_cons_of_mem _ he, hye⟩
            · intro e he hnot huniq
              by_cases hxe : x = e
              · subst hxe
                apply List.mem_append_left
                rw [List.mem_singleton, hw, hax, hbx]
              · rcases List.mem_cons.1 he with he | he
                · exact absurd he.symm hxe
                · apply List.mem_append_right
                  refine hget e he ?_ (fun e1 he1 => huniq e1 (List.mem_cons_of_mem _ he1))
                  intro hmem
                  rcases List.mem_cons.1 hmem with h1 | h1
                  · apply hxe
                    apply huniq x (List.mem_cons_self _ _)
                    rw [← hbx, h1]
                  · exact hnot h1

theorem repair_loop_returns (wrong : List Nat) :
    ∀ (g final : List (Nat × Nat)), (∀ e ∈ g, e.1 < wrong.length ∧ e.2 < wrong.length) →
    ∃ final2, repair_loop wrong g final = .ok final2 := by
  intro g
  induction g with
  | nil => intro final _; exact ⟨final, rfl⟩
  | cons e g ih =>
    intro final h
    obtain ⟨h1, h2⟩ := h e (List.mem_cons_self _ _)
    obtain ⟨final2, hrun⟩ := ih (map_emplace final
      (min (wrong.getD e.1 0) (wrong.getD e.2 0)) (max (wrong.getD e.1 0) (wrong.getD e.2 0)))
      (fun e1 he1 => h e1 (List.mem_cons_of_mem _ he1))
    exact ⟨final2, by
      simp only [repair_loop, (vec_at_of_lt wrong e.1 h1).1, (vec_at_of_lt wrong e.2 h2).1, hrun]⟩

theorem add_matching_edges_returns (sym_matrix : matrix) (odd : List Nat)
    (hlt : ∀ x ∈ odd, x < sym_matrix.size) :
    ∀ (todo : List (Nat × Nat)) (acc : List edge) (added : List Nat),
    (∀ e ∈ todo, e.1 < odd.length ∧ e.2 < odd.length) →
    ∃ es, add_matching_edges sym_matrix odd todo acc added = .ok es := by
  intro todo
  induction todo with
  | nil => intro acc added _; exact ⟨acc, rfl⟩
  | cons e todo ih =>
    intro acc added h
    obtain ⟨h1, h2⟩ := h e (List.mem_cons_self _ _)
    obtain ⟨ha, ha1⟩ := vec_at_of_lt odd e.1 h1
    obtain ⟨hb, hb1⟩ := vec_at_of_lt odd e.2 h2
    have hma : odd.getD e.1 0 < sym_matrix.size := hlt _ (List.mem_iff_getElem?.2 ⟨e.1, ha1⟩)
    have hmb : odd.getD e.2 0 < sym_matrix.size := hlt _ (List.mem_iff_getElem?.2 ⟨e.2, hb1⟩)
    have hmat : matrix_at sym_matrix (odd.getD e.1 0) (odd.getD e.2 0) =
        .ok (sym_matrix.cost (odd.getD e.1 0) (odd.getD e.2 0)) := by
      simp only [matrix_at, hma, hmb, and_self, if_true]
    have hrest : ∀ e1 ∈ todo, e1.1 < odd.length ∧ e1.2 < odd.length :=
      fun e1 he1 => h e1 (List.mem_cons_of_mem _ he1)
    by_cases hc : added.contains (odd.getD e.1 0) = true
    · obtain ⟨es, hrun⟩ := ih acc added hrest
      exact ⟨es, by simp only [add_matching_edges, ha, hb, hc, if_true, hrun]⟩
    · obtain ⟨es, hrun⟩ := ih (acc ++ [⟨odd.getD e.1 0, odd.getD e.2 0,
        sym_matrix.cost (odd.getD e.1 0) (odd.getD e.2 0)⟩]) (odd.getD e.2 0 :: added) hrest
      exact ⟨es, by simp only [add_matching_edges, ha, hb, hc, hmat, hrun]; rfl⟩

/-! ### A fixed point of the assignment -/

/-- A fixed point of the assignment: when `mwpm` maps the positions of the odd vertices to
positions and `mwpm[v] = v`, the split step stores the pair `(v, v)` in `mwpm_final` and
leaves `v` out of `wrong_vertices`; whenever the repair and the loop over `mwpm_final` return,
the pair is still there, the edge list holds a loop at the vertex `mst_odd_vertices[v]`, and
that vertex has an odd number of neighbours other than itself in the adjacency list of the
Eulerian graph; and both do return when the greedy helper answers with indices of the matrix
it was given. -/
theorem fixed_point_spec (E : Env) (sym_matrix : matrix)
    (hmst : is_spanning_tree sym_matrix.size (E.mst_edges sym_matrix))
    (hkeys : ((mwpm_of E sym_matrix).map Prod.fst).Perm
      (List.range (mst_odd_vertices E sym_matrix).length))
    (hvals : ∀ e ∈ mwpm_of E sym_matrix, e.2 < (mst_odd_vertices E sym_matrix).length)
    (v : Nat) (hv : map_at (mwpm_of E sym_matrix) v = .ok v) :
    ∃ mwpm_final wrong_vertices,
      split_loop (mwpm_of E sym_matrix) (mwpm_of E sym_matrix) [] [] =
        .ok (mwpm_final, wrong_vertices) ∧
      (v, v) ∈ mwpm_final ∧ v ∉ wrong_vertices ∧
      (∀ final2 es,
        build_mwpm_final E.greedy_symmetric_approx_mwpm
          (sym_matrix.get_sub_matrix (mst_odd_vertices E sym_matrix)) (mwpm_of E sym_matrix) =
            .ok final2 →
        add_matching_edges sym_matrix (mst_odd_vertices E sym_matrix) (E.iter_map final2)
          (E.mst_edges sym_matrix) [] = .ok es →
        (v, v) ∈ final2 ∧
        (⟨(mst_odd_vertices E sym_matrix).getD v 0, (mst_odd_vertices E sym_matrix).getD v 0,
          sym_matrix.cost ((mst_odd_vertices E sym_matrix).getD v 0)
            ((mst_odd_vertices E sym_matrix).getD v 0)⟩ : edge) ∈ es ∧
        ((adj_get (adjacency_list_of_edges es) ((mst_odd_vertices E sym_matrix).getD v 0)).filter
          (fun u => decide (u ≠ (mst_odd_vertices E sym_matrix).getD v 0))).length % 2 = 1) ∧
      ((∀ (wrong : List Nat) (e : Nat × Nat),
          e ∈ E.greedy_symmetric_approx_mwpm
            ((sym_matrix.get_sub_matrix (mst_odd_vertices E sym_matrix)).get_sub_matrix wrong) →
          e.1 < wrong.length ∧ e.2 < wrong.length) →
        ∃ final2 es,
          build_mwpm_final E.greedy_symmetric_approx_mwpm
            (sym_matrix.get_sub_matrix (mst_odd_vertices E sym_matrix)) (mwpm_of E sym_matrix) =
              .ok final2 ∧
          add_matching_edges sym_matrix (mst_odd_vertices E sym_matrix) (E.iter_map final2)
            (E.mst_edges sym_matrix) [] = .ok es) := by
  obtain ⟨hoddnd, hoddmem, hoddlt, _⟩ := mst_odd_vertices_spec E sym_matrix hmst
  obtain ⟨_, hends, _⟩ := hmst
  have hnd : ((mwpm_of E sym_matrix).map Prod.fst).Nodup :=
    hkeys.nodup_iff.2 (List.nodup_range _)
  have hkey_lt : ∀ a b, (a, b) ∈ mwpm_of E sym_matrix →
      a < (mst_odd_vertices E sym_matrix).length := by
    intro a b hab
    exact List.mem_range.1 (hkeys.mem_iff.1 (List.mem_map.2 ⟨(a, b), hab, rfl⟩))
  have hval : ∀ e ∈ mwpm_of E sym_matrix, e.2 ∈ (mwpm_of E sym_matrix).map Prod.fst := by
    intro e he
    rw [hkeys.mem_iff, List.mem_range]
    exact hvals e he
  obtain ⟨final, wrong, hsplit, _, hfmem, _, hwmem, _, hbuild⟩ :=
    split_and_repair_spec E.greedy_symmetric_approx_mwpm
      (sym_matrix.get_sub_matrix (mst_odd_vertices E sym_matrix)) (mwpm_of E sym_matrix) hnd hval
  have hvf : (v, v) ∈ final := (hfmem (v, v)).2 ⟨v, v, hv, hv, by simp⟩
  have hvw : v ∉ wrong := by
    intro h
    obtain ⟨w, u, h1, h2, h3⟩ := (hwmem v).1 h
    rw [hv] at h1
    have hw : v = w := Except.ok.inj h1
    subst hw
    rw [hv] at h2
    exact h3 (Except.ok.inj h2).symm
  refine ⟨final, wrong, hsplit, hvf, hvw, ?_, ?_⟩
  swap
  · intro hg
    obtain ⟨final2, hb⟩ : ∃ final2, build_mwpm_final E.greedy_symmetric_approx_mwpm
        (sym_matrix.get_sub_matrix (mst_odd_vertices E sym_matrix)) (mwpm_of E sym_matrix) =
          .ok final2 := by
      simp only [build_mwpm_final, hsplit]
      split
      · exact ⟨final, rfl⟩
      · exact repair_loop_returns wrong _ final (fun e he => hg wrong e he)
    obtain ⟨_, added, hf2, hadded⟩ := hbuild final2 hb
    have hwlt : ∀ x ∈ wrong, x < (mst_odd_vertices E sym_matrix).length := by
      intro x hx
      obtain ⟨w, _, h1, _, _⟩ := (hwmem x).1 hx
      exact hkey_lt x w (map_at_mem _ x w h1)
    have hrange : ∀ e ∈ E.iter_map final2, e.1 < (mst_odd_vertices E sym_matrix).length ∧
        e.2 < (mst_odd_vertices E sym_matrix).length := by
      intro e he
      have he2 : e ∈ final2 := (E.iter_map_perm final2).mem_iff.1 he
      rw [hf2] at he2
      rcases List.mem_append.1 he2 with he2 | he2
      · obtain ⟨a, b, h3, h4, h5⟩ := (hfmem e).1 he2
        have ha := hkey_lt a b (map_at_mem _ a b h3)
        have hb1 := hkey_lt b a (map_at_mem _ b a h4)
        rw [h5]
        simp only
        omega
      · exact ⟨hwlt _ (hadded e he2).1, hwlt _ (hadded e he2).2⟩
    obtain ⟨es, ha⟩ := add_matching_edges_returns sym_matrix (mst_odd_vertices E sym_matrix)
      hoddlt (E.iter_map final2) (E.mst_edges sym_matrix) [] hrange
    exact ⟨final2, es, hb, ha⟩
  intro final2 es hb ha
  obtain ⟨hN2, added, hf2, hadded⟩ := hbuild final2 hb
  have hvf2 : (v, v) ∈ final2 := by
    rw [hf2]
    exact List.mem_append_left _ hvf
  have hno2 : ∀ e1 ∈ final2, e1.2 = v → e1 = (v, v) := by
    intro e1 he1 h2
    rw [hf2] at he1
    rcases List.mem_append.1 he1 with he1 | he1
    · obtain ⟨a, b, h3, h4, h5⟩ := (hfmem e1).1 he1
      have h6 : max a b = v := by rw [← h2, h5]
      have hab : a = v ∧ b = v := by
        rcases le_total a b with hab | hab
        · rw [Nat.max_eq_right hab] at h6
          rw [h6, hv] at h4
          exact ⟨(Except.ok.inj h4).symm, h6⟩
        · rw [Nat.max_eq_left hab] at h6
          rw [h6, hv] at h3
          exact ⟨h6, (Except.ok.inj h3).symm⟩
      rw [h5, hab.1, hab.2]
      simp
    · exact absurd (h2 ▸ (hadded e1 he1).2) hvw
  have hno1 : ∀ e1 ∈ final2, e1.1 = v → e1 = (v, v) := by
    intro e1 he1 h1
    have h3 : (v, e1.2) ∈ final2 := by
      rw [← h1]
      exact he1
    exact Prod.ext h1 (eq_of_mem_of_nodup_keys final2 hN2 v e1.2 v h3 hvf2)
  have hvis : ∀ e, e ∈ E.iter_map final2 ↔ e ∈ final2 := fun e => (E.iter_map_perm final2).mem_iff
  obtain ⟨hidx, s, hs, hfrom, hget⟩ := add_matching_edges_run sym_matrix
    (mst_odd_vertices E sym_matrix) (E.iter_map final2) (E.mst_edges sym_matrix) [] es ha
  have hvlt : v < (mst_odd_vertices E sym_matrix).length := (hidx (v, v) ((hvis _).2 hvf2)).1
  have hentry : ∀ e1 ∈ E.iter_map final2,
      ((mst_odd_vertices E sym_matrix).getD e1.1 0 = (mst_odd_vertices E sym_matrix).getD v 0 ∨
       (mst_odd_vertices E sym_matrix).getD e1.2 0 = (mst_odd_vertices E sym_matrix).getD v 0) →
      e1 = (v, v) := by
    intro e1 he1 h
    obtain ⟨h1, h2⟩ := hidx e1 he1
    rcases h with h | h
    · exact hno1 e1 ((hvis _).1 he1) (getD_inj_of_nodup _ hoddnd _ _ h1 hvlt h)
    · exact hno2 e1 ((hvis _).1 he1) (getD_inj_of_nodup _ hoddnd _ _ h2 hvlt h)
  have hedge := hget (v, v) ((hvis _).2 hvf2) (by simp)
    (fun e1 he1 h => hentry e1 he1 (Or.inr h))
  refine ⟨hvf2, by rw [hs]; exact List.mem_append_right _ hedge, ?_⟩
  rw [hs, length_adj_get_adjacency_list_of_edges_append, List.filter_append, List.length_append]
  have h1 : (adj_get (adjacency_list_of_edges (E.mst_edges sym_matrix))
      ((mst_odd_vertices E sym_matrix).getD v 0)).filter
      (fun u => decide (u ≠ (mst_odd_vertices E sym_matrix).getD v 0)) =
      adj_get (adjacency_list_of_edges (E.mst_edges sym_matrix))
        ((mst_odd_vertices E sym_matrix).getD v 0) := by
    apply List.filter_eq_self.2
    intro u hu
    obtain ⟨e, he, h⟩ := (mem_adj_get_adjacency_list_of_edges _ _ _).1 hu
    have hne := (hends e he).2.2
    simp only [decide_eq_true_eq]
    rcases h with ⟨h3, h4⟩ | ⟨h3, h4⟩
    · rw [← h3, ← h4]
      exact fun h => hne h.symm
    · rw [← h3, ← h4]
      exact hne
  have h2 : (adj_get (adjacency_list_of_edges s)
      ((mst_odd_vertices E sym_matrix).getD v 0)).filter
      (fun u => decide (u ≠ (mst_odd_vertices E sym_matrix).getD v 0)) = [] := by
    apply List.filter_eq_nil_iff.2
    intro u hu
    obtain ⟨x, hx, h⟩ := (mem_adj_get_adjacency_list_of_edges _ _ _).1 hu
    obtain ⟨e1, he1, hxe⟩ := hfrom x hx
    simp only [decide_eq_true_eq, not_not]
    subst hxe
    simp only at h
    rcases h with ⟨h3, h4⟩ | ⟨h3, h4⟩
    · have := hentry e1 he1 (Or.inl h3)
      subst this
      exact h4.symm
    · have := hentry e1 he1 (Or.inr h3)
      subst this
      exact h4.symm
  rw [h1, h2]
  have hmem : (mst_odd_vertices E sym_matrix).getD v 0 ∈ mst_odd_vertices E sym_matrix :=
    List.mem_iff_getElem?.2 ⟨v, (vec_at_of_lt _ _ hvlt).2⟩
  have := (hoddmem _).1 hmem
  simpa using this

/-! ### The states of the loops of Hierholzer -/

theorem length_adj_get_le_total (adj : List (Nat × List Nat)) (u : Nat) :
    (adj_get adj u).length ≤ adj_total adj := by
  induction adj with
  | nil => simp [adj_get]
  | cons a adj ih =>
    obtain ⟨k, l⟩ := a
    simp only [adj_get, adj_total, List.map_cons, List.sum_cons] at ih ⊢
    split
    · omega
    · omega

/-- The `erase` of the inner loop finds an occurrence: after the front of the list of
`current_vertex` is popped, the list of `next_vertex` still holds `current_vertex`. -/
theorem walk_step_erase_mem (adj : List (Nat × List Nat)) (cur next : Nat) (rest : List Nat)
    (h : adj_get adj cur = next :: rest) (hs : adj_symmetric adj) (hl : adj_loops_even adj) :
    cur ∈ adj_get (adj_set adj cur rest) next := by
  rw [adj_get_set]
  by_cases hnc : next = cur
  · subst hnc
    have hev := hl next
    rw [h, List.count_cons_self] at hev
    simp only [if_true]
    exact List.count_pos_iff.1 (by omega)
  · have hsym := hs next cur
    rw [h, List.count_cons_self] at hsym
    simp only [hnc, if_false]
    exact List.count_pos_iff.1 (by omega)

/-- One round of the inner loop removes one edge: two entries of the adjacency list. -/
theorem walk_step_total_eq (adj : List (Nat × List Nat)) (cur next : Nat) (rest : List Nat)
    (h : adj_get adj cur = next :: rest) (hs : adj_symmetric adj) (hl : adj_loops_even adj) :
    ∃ adj1, walk_step adj cur = .ok (adj1, next) ∧ adj_total adj1 + 2 = adj_total adj := by
  refine ⟨adj_set (adj_set adj cur rest) next ((adj_get (adj_set adj cur rest) next).erase cur),
    by simp only [walk_step, h], ?_⟩
  have hmem := walk_step_erase_mem adj cur next rest h hs hl
  have e1 := adj_total_set adj cur rest
  have e2 := adj_total_set (adj_set adj cur rest) next
    ((adj_get (adj_set adj cur rest) next).erase cur)
  have e3 := List.length_erase_of_mem hmem
  have e4 := List.length_pos_of_mem hmem
  rw [h] at e1
  simp only [List.length_cons] at e1
  omega

theorem walk_step_eq_ok (adj : List (Nat × List Nat)) (cur : Nat)
    (adj1 : List (Nat × List Nat)) (next : Nat) (h : walk_step adj cur = .ok (adj1, next)) :
    ∃ rest, adj_get adj cur = next :: rest := by
  simp only [walk_step] at h
  split at h
  · simp at h
  · rename_i n r hg
    simp only [Except.ok.injEq, Prod.mk.injEq] at h
    exact ⟨r, by rw [hg, h.2]⟩

/-- Every state of the inner loop keeps the adjacency lists symmetric, with loops listed
twice, with odd degree exactly at the two ends of the walk, and with an edge left at
`current_vertex`. -/
theorem walk_reaches_invariant (adj0 : List (Nat × List Nat)) (init : Nat)
    (hs : adj_symmetric adj0) (hl : adj_loops_even adj0) (he : adj_even adj0)
    (hpos : 0 < (adj_get adj0 init).length) (adj : List (Nat × List Nat)) (cur : Nat)
    (hr : walk_reaches adj0 init adj cur) :
    adj_symmetric adj ∧ adj_loops_even adj ∧
    (∀ u, ((adj_get adj u).length + (if u = init then 1 else 0) +
      (if u = cur then 1 else 0)) % 2 = 0) ∧
    0 < (adj_get adj cur).length := by
  induction hr with
  | start =>
    refine ⟨hs, hl, ?_, hpos⟩
    intro u
    have := he u
    split_ifs <;> omega
  | step adj cur adj1 next _ hstep hne ih =>
    obtain ⟨hs1, hl1, hpar1, _⟩ := ih
    obtain ⟨rest, hget⟩ := walk_step_eq_ok adj cur adj1 next hstep
    obtain ⟨adj2, hstep2, hcnt, hdeg, _⟩ := walk_step_counts adj cur next rest hget hs1 hl1
    rw [hstep] at hstep2
    simp only [Except.ok.injEq, Prod.mk.injEq, and_true] at hstep2
    subst hstep2
    obtain ⟨hs2, hl2⟩ := adj_invariants_of_counts adj adj1 _ hs1 hl1 hcnt
    have hpar2 : ∀ u, ((adj_get adj1 u).length + (if u = init then 1 else 0) +
        (if u = next then 1 else 0)) % 2 = 0 := by
      intro u
      have h1 := hdeg u
      have h2 := hpar1 u
      omega
    refine ⟨hs2, hl2, hpar2, ?_⟩
    have := hpar2 next
    simp only [hne, if_false, if_true] at this
    omega

/-- Every state of the outer loop keeps the adjacency lists symmetric, with loops listed
twice and with even degree at every vertex. -/
theorem tour_reaches_invariant (adj0 : List (Nat × List Nat)) (path0 : List Nat)
    (hs : adj_symmetric adj0) (hl : adj_loops_even adj0) (he : adj_even adj0)
    (adj : List (Nat × List Nat)) (path : List Nat) (hr : tour_reaches adj0 path0 adj path) :
    adj_symmetric adj ∧ adj_loops_even adj ∧ adj_even adj := by
  induction hr with
  | start => exact ⟨hs, hl, he⟩
  | round adj path i adj1 new_tour _ hfind hrun ih =>
    obtain ⟨hs1, hl1, he1⟩ := ih
    obtain ⟨_, _, _, _, _, hpos⟩ := find_new_tour_start_some adj path i hfind
    obtain ⟨adj2, t, hrun2, hs2, hl2, he2, _, _⟩ :=
      new_tour_loop_spec (adj_total adj + 1) adj (path.getD i 0) (path.getD i 0) [] hs1 hl1
        (by
          intro u
          have := he1 u
          split_ifs <;> omega)
        hpos (by omega)
    rw [hrun] at hrun2
    simp only [Except.ok.injEq, Prod.mk.injEq] at hrun2
    rw [hrun2.1]
    exact ⟨hs2, hl2, he2⟩

/-- The inner loop needs no more rounds than half the number of entries of the adjacency
list: with any two budgets of that size it returns the same result. -/
theorem new_tour_loop_budget : ∀ (f1 f2 : Nat) (adj : List (Nat × List Nat))
    (init cur : Nat) (acc : List Nat),
    adj_symmetric adj → adj_loops_even adj →
    (∀ u, ((adj_get adj u).length + (if u = init then 1 else 0) +
      (if u = cur then 1 else 0)) % 2 = 0) →
    0 < (adj_get adj cur).length → adj_total adj ≤ 2 * f1 → adj_total adj ≤ 2 * f2 →
    new_tour_loop f1 adj init cur acc = new_tour_loop f2 adj init cur acc := by
  intro f1
  induction f1 with
  | zero =>
    intro f2 adj init cur acc _ _ _ hpos h1 _
    have := length_adj_get_le_total adj cur
    omega
  | succ f1 ih =>
    intro f2 adj init cur acc hs hl hpar hpos h1 h2
    cases f2 with
    | zero =>
      have := length_adj_get_le_total adj cur
      omega
    | succ f2 =>
      obtain ⟨next, rest, hget⟩ : ∃ next rest, adj_get adj cur = next :: rest := by
        cases hg : adj_get adj cur with
        | nil => rw [hg] at hpos; simp at hpos
        | cons a b => exact ⟨a, b, rfl⟩
      obtain ⟨adj1, hstep, hcnt, hdeg, _⟩ := walk_step_counts adj cur next rest hget hs hl
      obtain ⟨adj2, hstep2, htot⟩ := walk_step_total_eq adj cur next rest hget hs hl
      rw [hstep] at hstep2
      simp only [Except.ok.injEq, Prod.mk.injEq, and_true] at hstep2
      subst hstep2
      obtain ⟨hs1, hl1⟩ := adj_invariants_of_counts adj adj1 _ hs hl hcnt
      by_cases hni : next = init
      · simp [new_tour_loop, hstep, hni]
      · have hpar1 : ∀ u, ((adj_get adj1 u).length + (if u = init then 1 else 0) +
            (if u = next then 1 else 0)) % 2 = 0 := by
          intro u
          have h3 := hdeg u
          have h4 := hpar u
          omega
        have hpos1 : 0 < (adj_get adj1 next).length := by
          have := hpar1 next
          simp only [hni, if_false, if_true] at this
          omega
        have := ih f2 adj1 init next (acc ++ [cur]) hs1 hl1 hpar1 hpos1 (by omega) (by omega)
        simp [new_tour_loop, hstep, hni, this]

/-! ### The number of rounds of the loops -/

/-- Whenever the inner loop returns, the tour it returns extends what was given with the
vertices it went through, and it has removed two entries of the adjacency list for every
one of them. -/
theorem new_tour_loop_accounting : ∀ (fuel : Nat) (adj : List (Nat × List Nat))
    (init cur : Nat) (acc : List Nat) (adj1 : List (Nat × List Nat)) (tour : List Nat),
    adj_symmetric adj → adj_loops_even adj →
    new_tour_loop fuel adj init cur acc = .ok (adj1, tour) →
    ∃ t, tour = acc ++ cur :: t ∧ adj_total adj1 + 2 * (t.length + 1) = adj_total adj := by
  intro fuel
  induction fuel with
  | zero =>
    intro adj init cur acc adj1 tour _ _ h
    simp [new_tour_loop] at h
  | succ fuel ih =>
    intro adj init cur acc adj1 tour hs hl h
    simp only [new_tour_loop] at h
    cases hw : walk_step adj cur with
    | error err => rw [hw] at h; simp at h
    | ok r =>
      obtain ⟨adj2, next⟩ := r
      rw [hw] at h
      simp only at h
      obtain ⟨rest, hget⟩ := walk_step_eq_ok adj cur adj2 next hw
      obtain ⟨adj3, hstep3, htot⟩ := walk_step_total_eq adj cur next rest hget hs hl
      obtain ⟨adj4, hstep4, hcnt, _, _⟩ := walk_step_counts adj cur next rest hget hs hl
      rw [hw] at hstep3 hstep4
      simp only [Except.ok.injEq, Prod.mk.injEq, and_true] at hstep3 hstep4
      subst hstep3
      subst hstep4
      obtain ⟨hs1, hl1⟩ := adj_invariants_of_counts adj adj2 _ hs hl hcnt
      by_cases hni : next = init
      · simp only [hni, ne_eq, not_true_eq_false, if_false, Except.ok.injEq,
          Prod.mk.injEq] at h
        refine ⟨[], ?_, ?_⟩
        · rw [← h.2]
        · rw [← h.1]
          simpa using htot
      · simp only [ne_eq, hni, not_false_eq_true, if_true] at h
        obtain ⟨t, ht, htot1⟩ := ih adj2 init next (acc ++ [cur]) adj1 tour hs1 hl1 h
        refine ⟨next :: t, by rw [ht]; simp, ?_⟩
        simp only [List.length_cons]
        omega

/-- The outer loop returns within a budget of one round more than half the number of
entries of the adjacency list: every round but the last removes at least one edge. -/
theorem hierholzer_loop_rounds : ∀ (fuel : Nat) (adj : List (Nat × List Nat))
    (path : List Nat), adj_symmetric adj → adj_loops_even adj → adj_even adj →
    adj_total adj < 2 * fuel → ∃ path1, hierholzer_loop fuel adj path = .ok path1 := by
  intro fuel
  induction fuel with
  | zero => intro adj path _ _ _ h; omega
  | succ fuel ih =>
    intro adj path hs hl he hfuel
    cases hf : find_new_tour_start adj path with
    | none => exact ⟨path, by simp [hierholzer_loop, hf]⟩
    | some i =>
      obtain ⟨_, _, _, _, _, hpos⟩ := find_new_tour_start_some adj path i hf
      obtain ⟨adj1, t, hrun, hs1, hl1, he1, _, _⟩ :=
        new_tour_loop_spec (adj_total adj + 1) adj (path.getD i 0) (path.getD i 0) [] hs hl
          (by
            intro u
            have := he u
            split_ifs <;> omega)
          hpos (by omega)
      obtain ⟨t1, _, htot⟩ := new_tour_loop_accounting _ _ _ _ _ _ _ hs hl hrun
      obtain ⟨path1, h1⟩ := ih adj1 (path.take i ++ ([] ++ path.getD i 0 :: t) ++ path.drop i)
        hs1 hl1 he1 (by omega)
      exact ⟨path1, by simp only [hierholzer_loop, hf, hrun]; exact h1⟩

/-- The outer loop returns within a budget of half the number of entries of the adjacency
list, the number of edges left, as long as the path holds a single vertex `s` and an edge
that is not a loop at `s` is left: either a round removes two edges or more, or that edge is
still there when the loop ends. -/
theorem hierholzer_loop_rounds_of_other_edge : ∀ (fuel : Nat) (adj : List (Nat × List Nat))
    (path : List Nat) (s : Nat), adj_symmetric adj → adj_loops_even adj → adj_even adj →
    adj_total adj ≤ 2 * fuel → (∀ x ∈ path, x = s) →
    (∃ u v, v ∈ adj_get adj u ∧ (u ≠ s ∨ v ≠ s)) →
    ∃ path1, hierholzer_loop fuel adj path = .ok path1 := by
  intro fuel
  induction fuel with
  | zero =>
    intro adj path s _ _ _ hfuel _ hother
    obtain ⟨u, v, hv, _⟩ := hother
    have h1 := length_adj_get_le_total adj u
    have h2 := List.length_pos_of_mem hv
    omega
  | succ fuel ih =>
    intro adj path s hs hl he hfuel hpath hother
    cases hf : find_new_tour_start adj path with
    | none => exact ⟨path, by simp [hierholzer_loop, hf]⟩
    | some i =>
      obtain ⟨pre, post, hp, _, _, hpos⟩ := find_new_tour_start_some adj path i hf
      have hsi : path.getD i 0 = s := by
        have hmem : path.getD i 0 ∈ pre ++ path.getD i 0 :: post := by simp
        rw [← hp] at hmem
        exact hpath _ hmem
      obtain ⟨adj1, t, hrun, hs1, hl1, he1, hcnt, _⟩ :=
        new_tour_loop_spec (adj_total adj + 1) adj (path.getD i 0) (path.getD i 0) [] hs hl
          (by
            intro u
            have := he u
            split_ifs <;> omega)
          hpos (by omega)
      obtain ⟨t1, ht1, htot⟩ := new_tour_loop_accounting _ _ _ _ _ _ _ hs hl hrun
      have htt : t1 = t := by
        simp only [List.nil_append, List.cons.injEq, true_and] at ht1
        exact ht1.symm
      subst htt
      cases t1 with
      | nil =>
        obtain ⟨u, v, hv, hne⟩ := hother
        have harc : arc_count (consecutive_pairs (s :: [] ++ [s])) u v = 0 := by
          simp only [List.cons_append, List.nil_append, consecutive_pairs, arc_count,
            List.count_cons, List.count_nil, beq_iff_eq, Prod.mk.injEq]
          rcases hne with h | h
          · have h1 : ¬ s = u := fun e => h e.symm
            simp [h1]
          · have h1 : ¬ s = v := fun e => h e.symm
            simp [h1]
        have h1 := hcnt u v
        rw [hsi, harc] at h1
        have h2 : 0 < (adj_get adj u).count v := List.count_pos_iff.2 hv
        have hv1 : v ∈ adj_get adj1 u := List.count_pos_iff.1 (by omega)
        simp only [List.length_nil] at htot
        obtain ⟨path1, h3⟩ := ih adj1 (path.take i ++ ([] ++ path.getD i 0 :: []) ++ path.drop i)
          s hs1 hl1 he1 (by omega)
          (by
            intro x hx
            simp only [List.nil_append, List.mem_append, List.mem_singleton] at hx
            rcases hx with (hx | hx) | hx
            · exact hpath x (List.mem_of_mem_take hx)
            · exact hx.trans hsi
            · exact hpath x (List.mem_of_mem_drop hx))
          ⟨u, v, hv1, hne⟩
        exact ⟨path1, by simp only [hierholzer_loop, hf, hrun]; exact h3⟩
      | cons a t1 =>
        simp only [List.length_cons] at htot
        obtain ⟨path1, h3⟩ := hierholzer_loop_rounds fuel adj1
          (path.take i ++ ([] ++ path.getD i 0 :: a :: t1) ++ path.drop i) hs1 hl1 he1 (by omega)
        exact ⟨path1, by simp only [hierholzer_loop, hf, hrun]; exact h3⟩

theorem exists_mem_ne_of_two_le (l : List Nat) (hl : l.Nodup) (h : 2 ≤ l.length) (s : Nat) :
    ∃ k ∈ l, k ≠ s := by
  cases l with
  | nil => simp at h
  | cons a l =>
    cases l with
    | nil => simp at h
    | cons b l =>
      by_cases ha : a = s
      · refine ⟨b, by simp, ?_⟩
        intro hb
        have hab : a ≠ b := by
          intro e
          have := (List.nodup_cons.1 hl).1
          exact this (by simp [e])
        exact hab (ha.trans hb.symm)
      · exact ⟨a, by simp, ha⟩

/-! ### Termination and safety of the loops -/

/-- Hierholzer's loops never read an empty list and never miss the entry to erase.  On the
adjacency list of a multigraph with even degree everywhere, at every state of an inner loop
the adjacency lists are symmetric, the list of `current_vertex` has a front `next_vertex`,
the list of `next_vertex` holds `current_vertex` once that front is popped, and the round
leaves the adjacency lists symmetric. -/
theorem hierholzer_step_safe (es : List edge) (start : Nat)
    (heven : adj_even (adjacency_list_of_edges es))
    (adj : List (Nat × List Nat)) (path : List Nat)
    (hr : tour_reaches (adjacency_list_of_edges es) [start] adj path)
    (i : Nat) (hi : find_new_tour_start adj path = some i)
    (adj1 : List (Nat × List Nat)) (cur : Nat)
    (hw : walk_reaches adj (path.getD i 0) adj1 cur) :
    adj_symmetric adj1 ∧
    ∃ next rest adj2, adj_get adj1 cur = next :: rest ∧
      cur ∈ adj_get (adj_set adj1 cur rest) next ∧
      walk_step adj1 cur = .ok (adj2, next) ∧ adj_symmetric adj2 := by
  obtain ⟨hs0, hl0⟩ := adjacency_list_of_edges_invariants es
  obtain ⟨hs, hl, he⟩ := tour_reaches_invariant _ _ hs0 hl0 heven adj path hr
  obtain ⟨_, _, _, _, _, hpos⟩ := find_new_tour_start_some adj path i hi
  obtain ⟨hs1, hl1, _, hpos1⟩ := walk_reaches_invariant adj _ hs hl he hpos adj1 cur hw
  obtain ⟨next, rest, hget⟩ : ∃ next rest, adj_get adj1 cur = next :: rest := by
    cases hg : adj_get adj1 cur with
    | nil => rw [hg] at hpos1; simp at hpos1
    | cons a b => exact ⟨a, b, rfl⟩
  obtain ⟨adj2, hstep, hcnt, _, _⟩ := walk_step_counts adj1 cur next rest hget hs1 hl1
  exact ⟨hs1, next, rest, adj2, hget, walk_step_erase_mem adj1 cur next rest hget hs1 hl1, hstep,
    (adj_invariants_of_counts adj1 adj2 _ hs1 hl1 hcnt).1⟩

/-- Hierholzer's loops terminate on the adjacency list of a multigraph with even degree
everywhere and at least two vertices, as the assertion before the loops requires.  The outer
loop returns within as many rounds as there are edges.  Every inner loop returns with any
budget of at least the number of edges left, after removing one edge per vertex of the new
tour, the edges of a closed walk from the initial vertex back to it.  Every round of an inner
loop removes exactly one edge: one entry in each of the two lists. -/
theorem hierholzer_loops_terminate (es : List edge) (start : Nat)
    (heven : adj_even (adjacency_list_of_edges es))
    (hsize : 2 ≤ (adjacency_list_of_edges es).length) :
    (∃ path, hierholzer_loop es.length (adjacency_list_of_edges es) [start] = .ok path) ∧
    (∀ adj path i, tour_reaches (adjacency_list_of_edges es) [start] adj path →
      find_new_tour_start adj path = some i →
      (∃ adj1 t,
        (∀ fuel, adj_total adj ≤ 2 * fuel →
          new_tour_loop fuel adj (path.getD i 0) (path.getD i 0) [] =
            .ok (adj1, path.getD i 0 :: t)) ∧
        adj_total adj1 + 2 * (t.length + 1) = adj_total adj ∧
        ∀ u w, (adj_get adj1 u).count w +
          arc_count (consecutive_pairs (path.getD i 0 :: t ++ [path.getD i 0])) u w =
            (adj_get adj u).count w) ∧
      ∀ adj2 cur, walk_reaches adj (path.getD i 0) adj2 cur →
        ∃ adj3 next, walk_step adj2 cur = .ok (adj3, next) ∧
          adj_total adj3 + 2 = adj_total adj2 ∧
          ∀ u w, (adj_get adj3 u).count w + arc_count [(cur, next)] u w =
            (adj_get adj2 u).count w) := by
  obtain ⟨hs0, hl0⟩ := adjacency_list_of_edges_invariants es
  have htot0 := adj_total_adjacency_list_of_edges es
  refine ⟨?_, ?_⟩
  · obtain ⟨hknd, hkeys⟩ := adjacency_list_of_edges_keys es
    obtain ⟨k, hk, hks⟩ := exists_mem_ne_of_two_le _ hknd (by simpa using hsize) start
    obtain ⟨e, he, hend⟩ := (hkeys k).1 hk
    have hmem : e.second_vertex ∈ adj_get (adjacency_list_of_edges es) e.first_vertex :=
      (mem_adj_get_adjacency_list_of_edges es _ _).2 ⟨e, he, Or.inl ⟨rfl, rfl⟩⟩
    refine hierholzer_loop_rounds_of_other_edge _ _ _ start hs0 hl0 heven (by omega)
      (by simp) ⟨e.first_vertex, e.second_vertex, hmem, ?_⟩
    rcases hend with h | h
    · exact Or.inl (h ▸ hks)
    · exact Or.inr (h ▸ hks)
  · intro adj path i hr hi
    obtain ⟨hs, hl, he⟩ := tour_reaches_invariant _ _ hs0 hl0 heven adj path hr
    obtain ⟨_, _, _, _, _, hpos⟩ := find_new_tour_start_some adj path i hi
    have hpar : ∀ u, ((adj_get adj u).length + (if u = path.getD i 0 then 1 else 0) +
        (if u = path.getD i 0 then 1 else 0)) % 2 = 0 := by
      intro u
      have := he u
      split_ifs <;> omega
    constructor
    · obtain ⟨adj1, t, hrun, _, _, _, hcnt, _⟩ :=
        new_tour_loop_spec (adj_total adj + 1) adj (path.getD i 0) (path.getD i 0) [] hs hl
          hpar hpos (by omega)
      obtain ⟨t1, ht1, htot⟩ := new_tour_loop_accounting _ _ _ _ _ _ _ hs hl hrun
      have htt : t1 = t := by
        simp only [List.nil_append, List.cons.injEq, true_and] at ht1
        exact ht1.symm
      subst htt
      refine ⟨adj1, t1, ?_, htot, hcnt⟩
      intro fuel hfuel
      rw [new_tour_loop_budget fuel (adj_total adj + 1) adj _ _ [] hs hl hpar hpos hfuel
        (by omega), hrun]
      rfl
    · intro adj2 cur hw
      obtain ⟨hs1, hl1, _, hpos1⟩ := walk_reaches_invariant adj _ hs hl he hpos adj2 cur hw
      obtain ⟨next, rest, hget⟩ : ∃ next rest, adj_get adj2 cur = next :: rest := by
        cases hg : adj_get adj2 cur with
        | nil => rw [hg] at hpos1; simp at hpos1
        | cons a b => exact ⟨a, b, rfl⟩
      obtain ⟨adj3, hstep, hcnt, _, _⟩ := walk_step_counts adj2 cur next rest hget hs1 hl1
      obtain ⟨adj4, hstep4, htot⟩ := walk_step_total_eq adj2 cur next rest hget hs1 hl1
      rw [hstep] at hstep4
      simp only [Except.ok.injEq, Prod.mk.injEq, and_true] at hstep4
      subst hstep4
      exact ⟨adj3, next, hstep, htot, hcnt⟩

/-! ### The parity of `wrong_vertices` -/

/-- The parity of `wrong_vertices`: for a permutation of `0..k-1` with `k` even and an even
number of fixed points, the split step leaves an even number of vertices in `wrong_vertices`,
so the matrix handed to the greedy helper has even order. -/
theorem wrong_vertices_even_spec (sub_matrix : matrix) (mwpm : List (Nat × Nat)) (k : Nat)
    (hk : k % 2 = 0) (hkeys : (mwpm.map Prod.fst).Perm (List.range k))
    (hvals : (mwpm.map Prod.snd).Perm (List.range k))
    (hfix : (mwpm.filter (fun e => decide (e.1 = e.2))).length % 2 = 0) :
    ∃ mwpm_final wrong_vertices,
      split_loop mwpm mwpm [] [] = .ok (mwpm_final, wrong_vertices) ∧
      wrong_vertices.length % 2 = 0 ∧
      (sub_matrix.get_sub_matrix wrong_vertices).size % 2 = 0 := by
  have hnd : (mwpm.map Prod.fst).Nodup := hkeys.nodup_iff.2 (List.nodup_range k)
  have hval : ∀ e ∈ mwpm, e.2 ∈ mwpm.map Prod.fst := by
    intro e he
    rw [hkeys.mem_iff, ← hvals.mem_iff]
    exact List.mem_map_of_mem _ he
  obtain ⟨final, wrong, hsplit, hW, _⟩ :=
    split_and_repair_spec (fun _ => []) sub_matrix mwpm hnd hval
  have hpar := wrong_vertices_parity mwpm hnd
  have hlen : mwpm.length = k := by
    have := hkeys.length_eq
    simpa using this
  rw [← hW] at hpar
  have hw : wrong.length % 2 = 0 := by omega
  exact ⟨final, wrong, hsplit, hw, hw⟩

/-! ### Claims about `christofides` -/

/-- C1: for every cost matrix of order n >= 2 (symmetric or not), when the tree returned for it
is a spanning tree of the complete graph, the MWPM mapping is a permutation without fixed point
of the odd-degree vertices and the greedy helper returns perfect matchings, christofides
returns a list that contains every vertex index 0..n-1 exactly once: it has length n, no
duplicate, and exactly the elements below n. -/
theorem christofides_visits_every_vertex_once (E : Env) (sym_matrix : matrix)
    (hn : 2 ≤ sym_matrix.size)
    (hmst : is_spanning_tree sym_matrix.size (E.mst_edges sym_matrix))
    (hmw : is_fixed_point_free_permutation (mwpm_of E sym_matrix)
      (mst_odd_vertices E sym_matrix).length)
    (hgreedy : ∀ m : matrix, m.size % 2 = 0 →
      is_perfect_matching (E.greedy_symmetric_approx_mwpm m) m.size) :
    ∃ tour, christofides E sym_matrix = .ok tour ∧ tour.length = sym_matrix.size ∧
      tour.Nodup ∧ ∀ v, v ∈ tour ↔ v < sym_matrix.size := by
  obtain ⟨_, path, _, _, _, _, _, _, _, _, _, hrun, hperm⟩ :=
    christofides_spec E sym_matrix hn hmst hmw (fun wrong hw => hgreedy _ hw)
  refine ⟨shortcut path, hrun, ?_, hperm.nodup_iff.2 (List.nodup_range _), ?_⟩
  · simpa using hperm.length_eq
  · intro v
    rw [hperm.mem_iff, List.mem_range]

theorem christofides_visits_every_vertex_once_witness :
    ∃ tour, christofides star_env (unit_matrix 4) = .ok tour ∧ tour.length = 4 ∧
      tour.Nodup ∧ ∀ v, v ∈ tour ↔ v < 4 :=
  christofides_visits_every_vertex_once star_env (unit_matrix 4) (by decide)
    (star_edges_spanning (unit_matrix 4) (by decide)) (by decide)
    greedy_symmetric_approx_mwpm_perfect

/-- C2 (as stated, refuted): a symmetric matrix of order 7 with the triangle inequality, a
minimum spanning tree of it, an assignment of least cost on the six odd-degree vertices (a
cycle through all six, so that no pair is symmetric-coherent) and the greedy repair: the tour
that christofides returns costs 11, a closed tour of cost 7 exists, and 2 * 11 > 3 * 7. -/
theorem christofides_ratio_counterexample :
    2 ≤ cx_matrix.size ∧ cx_matrix.symmetric ∧ cx_matrix.triangle ∧
    is_minimum_spanning_tree cx_matrix (cx_env.mst_edges cx_matrix) ∧
    is_minimum_cost_assignment (cx_matrix.get_sub_matrix (mst_odd_vertices cx_env cx_matrix))
      (mwpm_of cx_env cx_matrix) ∧
    (∀ m : matrix, m.size % 2 = 0 →
      is_perfect_matching (cx_env.greedy_symmetric_approx_mwpm m) m.size) ∧
    christofides cx_env cx_matrix = .ok [0, 1, 4, 5, 6, 2, 3] ∧
    tour_cost cx_matrix [0, 1, 4, 5, 6, 2, 3] = 11 ∧
    [0, 1, 5, 3, 4, 6, 2].Perm (List.range cx_matrix.size) ∧
    tour_cost cx_matrix [0, 1, 5, 3, 4, 6, 2] = 7 ∧
    ¬ (2 * tour_cost cx_matrix [0, 1, 4, 5, 6, 2, 3] ≤
        3 * tour_cost cx_matrix [0, 1, 5, 3, 4, 6, 2]) := by
  refine ⟨by decide, by decide, by decide, ?_, ?_, greedy_symmetric_approx_mwpm_perfect,
    by decide, by decide, by decide, by decide, by decide⟩
  · exact minimum_spanning_tree_of_unit cx_matrix 1 _ cx_mst_spanning (by decide) (by decide)
  · exact minimum_cost_assignment_of_unit _ 1 _ (by decide) (by decide) (by decide)

/-- C2 (amended): for every symmetric cost matrix of order n >= 2 whose entries satisfy the
triangle inequality, with a minimum spanning tree, the closed-tour cost of the list returned by
christofides is at most 1.5 times the cost of every Hamiltonian cycle (hence of an optimal
one), 2 * cost(tour) <= 3 * cost(cycle), provided the matching that the code builds (the
symmetric-coherent pairs of the assignment plus the greedy repair) is a perfect matching of
least cost on the odd-degree vertices. -/
theorem christofides_ratio_of_minimum_matching (E : Env) (sym_matrix : matrix)
    (hn : 2 ≤ sym_matrix.size)
    (hsym : sym_matrix.symmetric) (htri : sym_matrix.triangle)
    (hmst : is_minimum_spanning_tree sym_matrix (E.mst_edges sym_matrix))
    (hmw : is_fixed_point_free_permutation (mwpm_of E sym_matrix)
      (mst_odd_vertices E sym_matrix).length)
    (hgreedy : ∀ m : matrix, m.size % 2 = 0 →
      is_perfect_matching (E.greedy_symmetric_approx_mwpm m) m.size)
    (hmin : ∀ mwpm_final,
      build_mwpm_final E.greedy_symmetric_approx_mwpm
        (sym_matrix.get_sub_matrix (mst_odd_vertices E sym_matrix)) (mwpm_of E sym_matrix) =
          .ok mwpm_final →
      is_minimum_weight_perfect_matching sym_matrix (mst_odd_vertices E sym_matrix) mwpm_final) :
    ∃ tour, christofides E sym_matrix = .ok tour ∧
      ∀ h : List Nat, h.Perm (List.range sym_matrix.size) →
        2 * tour_cost sym_matrix tour ≤ 3 * tour_cost sym_matrix h :=
  christofides_ratio_spec E sym_matrix hn hsym htri hmst hmw hgreedy hmin

theorem christofides_ratio_of_minimum_matching_witness :
    ∃ tour, christofides star_env (unit_matrix 4) = .ok tour ∧
      ∀ h : List Nat, h.Perm (List.range (unit_matrix 4).size) →
        2 * tour_cost (unit_matrix 4) tour ≤ 3 * tour_cost (unit_matrix 4) h :=
  christofides_ratio_of_minimum_matching star_env (unit_matrix 4) (by decide) (by decide)
    (by decide)
    (minimum_spanning_tree_of_unit (unit_matrix 4) 1 _
      (star_edges_spanning (unit_matrix 4) (by decide)) (by decide) (by decide))
    (by decide) greedy_symmetric_approx_mwpm_perfect
    (fun mwpm_final hfinal => by
      have hb : build_mwpm_final star_env.greedy_symmetric_approx_mwpm
          ((unit_matrix 4).get_sub_matrix (mst_odd_vertices star_env (unit_matrix 4)))
          (mwpm_of star_env (unit_matrix 4)) = .ok [(0, 1), (2, 3)] := by decide
      rw [hb] at hfinal
      injection hfinal with hfinal
      subst hfinal
      exact minimum_weight_perfect_matching_of_unit (unit_matrix 4) 1 _ _ (by decide)
        (by decide) (by decide) (by decide) (by decide))

/-- C6 (as stated, refuted): on a matrix of order 1, with the empty spanning tree and the empty
assignment, christofides fails its assertion instead of returning the one-vertex tour. -/
theorem christofides_order_one_counterexample :
    (unit_matrix 1).size = 1 ∧ star_env.mst_edges (unit_matrix 1) = [] ∧
    mwpm_of star_env (unit_matrix 1) = [] ∧
    christofides star_env (unit_matrix 1) = .error failure.assertion_failed ∧
    christofides star_env (unit_matrix 1) ≠ .ok [0] := by
  decide

/-- C6 (amended): for a cost matrix of order 1, whose spanning tree has no edge,
christofides does not return a tour: the Eulerian graph has no vertex and the assertion
`eulerian_graph.size() >= 2` fails. -/
theorem christofides_order_one_fails (E : Env) (sym_matrix : matrix)
    (h1 : sym_matrix.size = 1)
    (hmst : is_spanning_tree sym_matrix.size (E.mst_edges sym_matrix))
    (hmw : is_fixed_point_free_permutation (mwpm_of E sym_matrix)
      (mst_odd_vertices E sym_matrix).length) :
    christofides E sym_matrix = .error failure.assertion_failed := by
  have hnil : E.mst_edges sym_matrix = [] := by
    apply List.length_eq_zero.1
    have := hmst.1
    omega
  have hadj : E.iter_adj [] = [] := (E.iter_adj_perm []).eq_nil
  have hodd : mst_odd_vertices E sym_matrix = [] := by
    simp [mst_odd_vertices, hnil, adjacency_list_of_edges, hadj, odd_degree_vertices]
  have hmwnil : mwpm_of E sym_matrix = [] := by
    have := hmw.1.length_eq
    rw [hodd] at this
    simpa using this
  have hmap : E.iter_map [] = [] := (E.iter_map_perm []).eq_nil
  have hodd1 : odd_degree_vertices (E.iter_adj (adjacency_list_of_edges [])) = [] := by
    simpa only [mst_odd_vertices, hnil] using hodd
  have hmw1 : E.minimum_weight_perfect_matching (sym_matrix.get_sub_matrix []) = [] := by
    simpa only [mwpm_of, mst_odd_vertices, hnil, hodd1] using hmwnil
  simp only [christofides, hnil, hodd1, hmw1, build_mwpm_final, split_loop, List.isEmpty_nil,
    if_true, hmap, add_matching_edges]
  rfl

theorem christofides_order_one_fails_witness :
    christofides star_env (unit_matrix 1) = .error failure.assertion_failed :=
  christofides_order_one_fails star_env (unit_matrix 1) rfl
    (star_edges_spanning (unit_matrix 1) (by decide)) (by decide)

/-- C10: for a 4x4 matrix whose off-diagonal entries are all 1 (with any spanning tree, any
assignment without fixed point on the odd-degree vertices and any greedy helper returning
perfect matchings), christofides returns a list of length 4 in which each of the vertices
0, 1, 2, 3 occurs once and whose closed-tour cost is 4. -/
theorem christofides_unit_square (E : Env) (sym_matrix : matrix)
    (h4 : sym_matrix.size = 4)
    (hone : ∀ i j, i < 4 → j < 4 → i ≠ j → sym_matrix.cost i j = 1)
    (hmst : is_spanning_tree sym_matrix.size (E.mst_edges sym_matrix))
    (hmw : is_fixed_point_free_permutation (mwpm_of E sym_matrix)
      (mst_odd_vertices E sym_matrix).length)
    (hgreedy : ∀ m : matrix, m.size % 2 = 0 →
      is_perfect_matching (E.greedy_symmetric_approx_mwpm m) m.size) :
    ∃ tour, christofides E sym_matrix = .ok tour ∧ tour.length = 4 ∧
      tour.count 0 = 1 ∧ tour.count 1 = 1 ∧ tour.count 2 = 1 ∧ tour.count 3 = 1 ∧
      tour_cost sym_matrix tour = 4 := by
  obtain ⟨_, path, _, _, _, _, _, _, _, _, _, hrun, hperm⟩ :=
    christofides_spec E sym_matrix (by omega) hmst hmw (fun wrong hw => hgreedy _ hw)
  rw [h4] at hperm
  have hnd : (shortcut path).Nodup := hperm.nodup_iff.2 (List.nodup_range _)
  have hlen : (shortcut path).length = 4 := by simpa using hperm.length_eq
  have hcount : ∀ v, v < 4 → (shortcut path).count v = 1 := by
    intro v hv
    exact List.count_eq_one_of_mem hnd (hperm.mem_iff.2 (List.mem_range.2 hv))
  refine ⟨shortcut path, hrun, hlen, hcount 0 (by omega), hcount 1 (by omega),
    hcount 2 (by omega), hcount 3 (by omega), ?_⟩
  have hlt : ∀ v ∈ shortcut path, v < 4 := fun v hv => List.mem_range.1 (hperm.mem_iff.1 hv)
  generalize shortcut path = tour at hnd hlen hlt
  match tour, hlen with
  | [a, b, c, d], _ =>
    simp only [List.nodup_cons, List.mem_cons, List.mem_singleton, List.not_mem_nil,
      not_or, or_false] at hnd
    simp only [List.mem_cons, List.mem_singleton, List.not_mem_nil, or_false,
      forall_eq_or_imp, forall_eq] at hlt
    obtain ⟨ha, hb, hc, hd⟩ := hlt
    have e1 := hone a b ha hb (by omega)
    have e2 := hone b c hb hc (by omega)
    have e3 := hone c d hc hd (by omega)
    have e4 := hone d a hd ha (by omega)
    simp [tour_cost, consecutive_pairs, e1, e2, e3, e4]

theorem christofides_unit_square_witness :
    ∃ tour, christofides star_env (unit_matrix 4) = .ok tour ∧ tour.length = 4 ∧
      tour.count 0 = 1 ∧ tour.count 1 = 1 ∧ tour.count 2 = 1 ∧ tour.count 3 = 1 ∧
      tour_cost (unit_matrix 4) tour = 4 :=
  christofides_unit_square star_env (unit_matrix 4) rfl
    (fun i j _ _ hne => by simp [unit_matrix, hne])
    (star_edges_spanning (unit_matrix 4) (by decide)) (by decide)
    greedy_symmetric_approx_mwpm_perfect

/-- C3: for even `k` and a permutation `mwpm` of `0..k-1` without fixed point, given that the
greedy helper returns a perfect matching of the indices of its input with one entry per pair,
`mwpm_final` after the split and the greedy repair has `k/2` entries and every index of
`0..k-1` occurs in exactly one entry, as key or as value. -/
theorem mwpm_final_perfect_matching (greedy : matrix → List (Nat × Nat)) (sub_matrix : matrix)
    (mwpm : List (Nat × Nat)) (k : Nat) (hk : k % 2 = 0)
    (hperm : is_fixed_point_free_permutation mwpm k)
    (hgreedy : ∀ m : matrix, m.size % 2 = 0 → is_perfect_matching (greedy m) m.size) :
    ∃ mwpm_final, build_mwpm_final greedy sub_matrix mwpm = .ok mwpm_final ∧
      mwpm_final.length = k / 2 ∧
      (mwpm_final.map Prod.fst ++ mwpm_final.map Prod.snd).Nodup ∧
      ∀ i, i < k ↔ i ∈ mwpm_final.map Prod.fst ++ mwpm_final.map Prod.snd := by
  obtain ⟨final, h1, h2, h3⟩ := build_mwpm_final_spec greedy sub_matrix mwpm k hk hperm
    (fun wrong hw => hgreedy (sub_matrix.get_sub_matrix wrong) hw)
  refine ⟨final, h1, h2, h3.nodup_iff.2 (List.nodup_range k), ?_⟩
  intro i
  rw [h3.mem_iff, List.mem_range]


theorem mwpm_final_perfect_matching_witness :
    ∃ mwpm_final, build_mwpm_final greedy_symmetric_approx_mwpm (unit_matrix 4)
        [(0, 1), (1, 2), (2, 3), (3, 0)] = .ok mwpm_final ∧
      mwpm_final.length = 4 / 2 ∧
      (mwpm_final.map Prod.fst ++ mwpm_final.map Prod.snd).Nodup ∧
      ∀ i, i < 4 ↔ i ∈ mwpm_final.map Prod.fst ++ mwpm_final.map Prod.snd :=
  mwpm_final_perfect_matching greedy_symmetric_approx_mwpm (unit_matrix 4)
    [(0, 1), (1, 2), (2, 3), (3, 0)] 4 (by decide) (by decide)
    greedy_symmetric_approx_mwpm_perfect

/-- C4: on the adjacency list of a connected multigraph (with at least one edge, so that the
start vertex exists) in which every vertex has even degree, the Hierholzer loop ends with
eulerian_path being a closed walk that traverses every edge exactly once: first and last
element are equal, it has one element more than there are edges, and its unordered
consecutive pairs are, as a multiset, the edges of the multigraph. -/
theorem hierholzer_eulerian_circuit (es : List edge) (visited : List (Nat × List Nat))
    (hne : es ≠ []) (hvis : visited.Perm (adjacency_list_of_edges es))
    (hconn : connected es) (heven : adj_even (adjacency_list_of_edges es)) :
    ∃ eulerian_path, hierholzer (adjacency_list_of_edges es) visited = .ok eulerian_path ∧
      eulerian_path.head? = eulerian_path.getLast? ∧
      eulerian_path.length = es.length + 1 ∧
      ((consecutive_pairs eulerian_path).map (fun p => s(p.1, p.2))).Perm
        (es.map (fun e => s(e.first_vertex, e.second_vertex))) :=
  hierholzer_circuit es visited hne hvis hconn heven

theorem hierholzer_eulerian_circuit_witness :
    ∃ eulerian_path, hierholzer (adjacency_list_of_edges triangle_edges)
        (adjacency_list_of_edges triangle_edges) = .ok eulerian_path ∧
      eulerian_path.head? = eulerian_path.getLast? ∧
      eulerian_path.length = triangle_edges.length + 1 ∧
      ((consecutive_pairs eulerian_path).map (fun p => s(p.1, p.2))).Perm
        (triangle_edges.map (fun e => s(e.first_vertex, e.second_vertex))) :=
  hierholzer_eulerian_circuit triangle_edges (adjacency_list_of_edges triangle_edges)
    (by decide) (List.Perm.refl _) triangle_edges_connected triangle_edges_even

/-- C5: the tour built by the shortcutting loop has no duplicate, has the elements of
eulerian_path, and lists them in the order of their first appearance in eulerian_path. -/
theorem shortcut_first_appearance (eulerian_path : List Nat) :
    (shortcut eulerian_path).Nodup ∧
    (∀ v, v ∈ shortcut eulerian_path ↔ v ∈ eulerian_path) ∧
    (∀ u v, u ∈ shortcut eulerian_path → v ∈ shortcut eulerian_path →
      ((shortcut eulerian_path).indexOf u < (shortcut eulerian_path).indexOf v ↔
        eulerian_path.indexOf u < eulerian_path.indexOf v)) :=
  shortcut_spec eulerian_path

/-! ### Claims about the matching and the Eulerian graph -/

/-- C11: for every spanning tree edge list and every mwpm_final that is a perfect matching of
the positions of the odd-degree vertices, in whatever order the map is visited, the loop over
mwpm_final returns the tree edges followed by exactly one edge per entry, in visiting order,
between the vertices that mst_odd_vertices holds at the two positions and with the cost that
sym_matrix has for them: no entry is skipped by the already_added test, and the list has
(n - 1) + |O| / 2 edges. -/
theorem eulerian_graph_edges_one_per_matching_entry (E : Env) (sym_matrix : matrix)
    (hmst : is_spanning_tree sym_matrix.size (E.mst_edges sym_matrix))
    (mwpm_final : List (Nat × Nat))
    (hpm : is_perfect_matching mwpm_final (mst_odd_vertices E sym_matrix).length) :
    add_matching_edges sym_matrix (mst_odd_vertices E sym_matrix) (E.iter_map mwpm_final)
      (E.mst_edges sym_matrix) [] =
      .ok (E.mst_edges sym_matrix ++
        matching_edges sym_matrix (mst_odd_vertices E sym_matrix) (E.iter_map mwpm_final)) ∧
    (matching_edges sym_matrix (mst_odd_vertices E sym_matrix) (E.iter_map mwpm_final)).length =
      mwpm_final.length ∧
    (E.mst_edges sym_matrix ++
      matching_edges sym_matrix (mst_odd_vertices E sym_matrix) (E.iter_map mwpm_final)).length =
      (sym_matrix.size - 1) + (mst_odd_vertices E sym_matrix).length / 2 :=
  eulerian_graph_edges_spec E sym_matrix hmst mwpm_final hpm

theorem eulerian_graph_edges_one_per_matching_entry_witness :
    add_matching_edges (unit_matrix 4) (mst_odd_vertices star_env (unit_matrix 4))
      (star_env.iter_map [(0, 1), (2, 3)]) (star_env.mst_edges (unit_matrix 4)) [] =
      .ok (star_env.mst_edges (unit_matrix 4) ++
        matching_edges (unit_matrix 4) (mst_odd_vertices star_env (unit_matrix 4))
          (star_env.iter_map [(0, 1), (2, 3)])) ∧
    (matching_edges (unit_matrix 4) (mst_odd_vertices star_env (unit_matrix 4))
      (star_env.iter_map [(0, 1), (2, 3)])).length = [(0, 1), (2, 3)].length ∧
    (star_env.mst_edges (unit_matrix 4) ++
      matching_edges (unit_matrix 4) (mst_odd_vertices star_env (unit_matrix 4))
        (star_env.iter_map [(0, 1), (2, 3)])).length =
      ((unit_matrix 4).size - 1) + (mst_odd_vertices star_env (unit_matrix 4)).length / 2 :=
  eulerian_graph_edges_one_per_matching_entry star_env (unit_matrix 4)
    (star_edges_spanning (unit_matrix 4) (by decide)) [(0, 1), (2, 3)] (by decide)

/-- C12: for every map mwpm whose values are keys of it (fixed points allowed), the split
step returns with exactly the symmetric-coherent edges: mwpm_final holds the pair
(min(v, mwpm[v]), max(v, mwpm[v])) for every v with mwpm[mwpm[v]] = v and nothing else, each
under its own key, and wrong_vertices holds exactly the v with mwpm[mwpm[v]] != v, each once;
whenever the greedy repair returns, mwpm_final is the one of the split followed by pairs
whose two members are both in wrong_vertices. -/
theorem split_keeps_symmetric_coherent_edges (greedy : matrix → List (Nat × Nat))
    (sub_matrix : matrix) (mwpm : List (Nat × Nat)) (hnd : (mwpm.map Prod.fst).Nodup)
    (hval : ∀ e ∈ mwpm, e.2 ∈ mwpm.map Prod.fst) :
    ∃ mwpm_final wrong_vertices,
      split_loop mwpm mwpm [] [] = .ok (mwpm_final, wrong_vertices) ∧
      (∀ p, p ∈ mwpm_final ↔
        ∃ v w, map_at mwpm v = .ok w ∧ map_at mwpm w = .ok v ∧ p = (min v w, max v w)) ∧
      (mwpm_final.map Prod.fst).Nodup ∧
      (∀ v, v ∈ wrong_vertices ↔
        ∃ w u, map_at mwpm v = .ok w ∧ map_at mwpm w = .ok u ∧ u ≠ v) ∧
      wrong_vertices.Nodup ∧
      ∀ final2, build_mwpm_final greedy sub_matrix mwpm = .ok final2 →
        ∃ added, final2 = mwpm_final ++ added ∧
          ∀ p ∈ added, p.1 ∈ wrong_vertices ∧ p.2 ∈ wrong_vertices := by
  obtain ⟨final, wrong, h1, _, h2, h3, h4, h5, h6⟩ :=
    split_and_repair_spec greedy sub_matrix mwpm hnd hval
  exact ⟨final, wrong, h1, h2, h3, h4, h5, fun final2 hb => (h6 final2 hb).2⟩

theorem split_keeps_symmetric_coherent_edges_witness :
    ∃ mwpm_final wrong_vertices,
      split_loop mixed_assignment mixed_assignment [] [] = .ok (mwpm_final, wrong_vertices) ∧
      (∀ p, p ∈ mwpm_final ↔
        ∃ v w, map_at mixed_assignment v = .ok w ∧ map_at mixed_assignment w = .ok v ∧
          p = (min v w, max v w)) ∧
      (mwpm_final.map Prod.fst).Nodup ∧
      (∀ v, v ∈ wrong_vertices ↔
        ∃ w u, map_at mixed_assignment v = .ok w ∧ map_at mixed_assignment w = .ok u ∧ u ≠ v) ∧
      wrong_vertices.Nodup ∧
      ∀ final2, build_mwpm_final greedy_symmetric_approx_mwpm (unit_matrix 8)
          mixed_assignment = .ok final2 →
        ∃ added, final2 = mwpm_final ++ added ∧
          ∀ p ∈ added, p.1 ∈ wrong_vertices ∧ p.2 ∈ wrong_vertices :=
  split_keeps_symmetric_coherent_edges greedy_symmetric_approx_mwpm (unit_matrix 8)
    mixed_assignment (by decide) (by decide)

/-- C13: for every matrix and every edge list returned as spanning tree, in whatever order
the adjacency list is visited, the list mst_odd_vertices that christofides extracts has even
length, so the sub-matrix passed to minimum_weight_perfect_matching has even order: the call
that would raise OddVertexCount, one with an odd number of vertices, does not occur. -/
theorem mst_odd_vertices_even_length (E : Env) (sym_matrix : matrix) :
    (mst_odd_vertices E sym_matrix).length % 2 = 0 ∧
    (sym_matrix.get_sub_matrix (mst_odd_vertices E sym_matrix)).size % 2 = 0 :=
  ⟨length_odd_degree_vertices_even (E.mst_edges sym_matrix) (E.iter_adj _) (E.iter_adj_perm _),
    length_odd_degree_vertices_even (E.mst_edges sym_matrix) (E.iter_adj _) (E.iter_adj_perm _)⟩

/-- C14: for every matrix of order n >= 2, when the tree is a spanning tree, the MWPM mapping
a permutation without fixed point of the odd-degree vertices and the greedy helper returns
perfect matchings, the edge list eulerian_graph_edges is built (tree edges plus the edges of
mwpm_final), every vertex of its multigraph has even degree, the vertices of the multigraph
are exactly the n vertices 0..n-1, and a chain of its edges joins any two of them. -/
theorem eulerian_graph_even_and_connected (E : Env) (sym_matrix : matrix)
    (hn : 2 ≤ sym_matrix.size)
    (hmst : is_spanning_tree sym_matrix.size (E.mst_edges sym_matrix))
    (hmw : is_fixed_point_free_permutation (mwpm_of E sym_matrix)
      (mst_odd_vertices E sym_matrix).length)
    (hgreedy : ∀ m : matrix, m.size % 2 = 0 →
      is_perfect_matching (E.greedy_symmetric_approx_mwpm m) m.size) :
    ∃ mwpm_final eulerian_graph_edges,
      build_mwpm_final E.greedy_symmetric_approx_mwpm
        (sym_matrix.get_sub_matrix (mst_odd_vertices E sym_matrix)) (mwpm_of E sym_matrix) =
          .ok mwpm_final ∧
      add_matching_edges sym_matrix (mst_odd_vertices E sym_matrix) (E.iter_map mwpm_final)
        (E.mst_edges sym_matrix) [] = .ok eulerian_graph_edges ∧
      adj_even (adjacency_list_of_edges eulerian_graph_edges) ∧
      connected eulerian_graph_edges ∧
      (∀ v, v ∈ (adjacency_list_of_edges eulerian_graph_edges).map Prod.fst ↔
        v < sym_matrix.size) ∧
      (∀ u v, u < sym_matrix.size → v < sym_matrix.size →
        Relation.ReflTransGen (linked eulerian_graph_edges) u v) := by
  obtain ⟨final, es, h1, _, _, h2, _, h3, h4, _, h5, h6⟩ :=
    eulerian_graph_spec E sym_matrix hn hmst hmw (fun wrong hw => hgreedy _ hw)
  exact ⟨final, es, h1, h2, h3, h4, h5, h6⟩

theorem eulerian_graph_even_and_connected_witness :
    ∃ mwpm_final eulerian_graph_edges,
      build_mwpm_final star_env.greedy_symmetric_approx_mwpm
        ((unit_matrix 4).get_sub_matrix (mst_odd_vertices star_env (unit_matrix 4)))
        (mwpm_of star_env (unit_matrix 4)) = .ok mwpm_final ∧
      add_matching_edges (unit_matrix 4) (mst_odd_vertices star_env (unit_matrix 4))
        (star_env.iter_map mwpm_final) (star_env.mst_edges (unit_matrix 4)) [] =
          .ok eulerian_graph_edges ∧
      adj_even (adjacency_list_of_edges eulerian_graph_edges) ∧
      connected eulerian_graph_edges ∧
      (∀ v, v ∈ (adjacency_list_of_edges eulerian_graph_edges).map Prod.fst ↔
        v < (unit_matrix 4).size) ∧
      (∀ u v, u < (unit_matrix 4).size → v < (unit_matrix 4).size →
        Relation.ReflTransGen (linked eulerian_graph_edges) u v) :=
  eulerian_graph_even_and_connected star_env (unit_matrix 4) (by decide)
    (star_edges_spanning (unit_matrix 4) (by decide)) (by decide)
    greedy_symmetric_approx_mwpm_perfect

/-- C15 (as stated, refuted): the permutation of 0..3 that fixes 0 and sends 1 to 2, 2 to 3
and 3 to 1 has k = 4 even, and the split step leaves wrong_vertices = [1, 2, 3], of odd
length: the matrix handed to the greedy helper has order 3. -/
theorem wrong_vertices_odd_with_fixed_point :
    (fixed_point_cycle.map Prod.fst).Perm (List.range 4) ∧
    (fixed_point_cycle.map Prod.snd).Perm (List.range 4) ∧ 4 % 2 = 0 ∧
    split_loop fixed_point_cycle fixed_point_cycle [] [] = .ok ([(0, 0)], [1, 2, 3]) ∧
    [1, 2, 3].length % 2 = 1 ∧
    ((unit_matrix 4).get_sub_matrix [1, 2, 3]).size % 2 = 1 := by
  decide

/-- C15 (amended): for every permutation mwpm of 0..k-1 with k even and an even number of
fixed points, in particular without fixed point, the list wrong_vertices of the split step
has even length, so the sub-matrix passed to greedy_symmetric_approx_mwpm has even order. -/
theorem wrong_vertices_even_length (sub_matrix : matrix) (mwpm : List (Nat × Nat)) (k : Nat)
    (hk : k % 2 = 0) (hkeys : (mwpm.map Prod.fst).Perm (List.range k))
    (hvals : (mwpm.map Prod.snd).Perm (List.range k))
    (hfix : (mwpm.filter (fun e => decide (e.1 = e.2))).length % 2 = 0) :
    ∃ mwpm_final wrong_vertices,
      split_loop mwpm mwpm [] [] = .ok (mwpm_final, wrong_vertices) ∧
      wrong_vertices.length % 2 = 0 ∧
      (sub_matrix.get_sub_matrix wrong_vertices).size % 2 = 0 :=
  wrong_vertices_even_spec sub_matrix mwpm k hk hkeys hvals hfix

theorem wrong_vertices_even_length_witness :
    ∃ mwpm_final wrong_vertices,
      split_loop mixed_assignment mixed_assignment [] [] = .ok (mwpm_final, wrong_vertices) ∧
      wrong_vertices.length % 2 = 0 ∧
      ((unit_matrix 8).get_sub_matrix wrong_vertices).size % 2 = 0 :=
  wrong_vertices_even_length (unit_matrix 8) mixed_assignment 8 (by decide) (by decide)
    (by decide) (by decide)

/-! ### Claims about the loops of Hierholzer and about fixed points -/

/-- C16: for every finite multigraph in which every vertex has even degree, with at least
two vertices as the assertion before the loops requires, both Hierholzer loops of christofides
terminate: the outer loop runs at most (number of edges) times, each inner walk returns to
its initial vertex within as many steps as there are edges left, having removed the edges of
a closed walk, and each step removes exactly one edge from the adjacency lists. -/
theorem hierholzer_terminates (es : List edge) (start : Nat)
    (heven : adj_even (adjacency_list_of_edges es))
    (hsize : 2 ≤ (adjacency_list_of_edges es).length) :
    (∃ path, hierholzer_loop es.length (adjacency_list_of_edges es) [start] = .ok path) ∧
    (∀ adj path i, tour_reaches (adjacency_list_of_edges es) [start] adj path →
      find_new_tour_start adj path = some i →
      (∃ adj1 t,
        (∀ fuel, adj_total adj ≤ 2 * fuel →
          new_tour_loop fuel adj (path.getD i 0) (path.getD i 0) [] =
            .ok (adj1, path.getD i 0 :: t)) ∧
        adj_total adj1 + 2 * (t.length + 1) = adj_total adj ∧
        ∀ u w, (adj_get adj1 u).count w +
          arc_count (consecutive_pairs (path.getD i 0 :: t ++ [path.getD i 0])) u w =
            (adj_get adj u).count w) ∧
      ∀ adj2 cur, walk_reaches adj (path.getD i 0) adj2 cur →
        ∃ adj3 next, walk_step adj2 cur = .ok (adj3, next) ∧
          adj_total adj3 + 2 = adj_total adj2 ∧
          ∀ u w, (adj_get adj3 u).count w + arc_count [(cur, next)] u w =
            (adj_get adj2 u).count w) :=
  hierholzer_loops_terminate es start heven hsize

theorem hierholzer_terminates_witness :
    (∃ path, hierholzer_loop triangle_edges.length
      (adjacency_list_of_edges triangle_edges) [0] = .ok path) ∧
    (∀ adj path i, tour_reaches (adjacency_list_of_edges triangle_edges) [0] adj path →
      find_new_tour_start adj path = some i →
      (∃ adj1 t,
        (∀ fuel, adj_total adj ≤ 2 * fuel →
          new_tour_loop fuel adj (path.getD i 0) (path.getD i 0) [] =
            .ok (adj1, path.getD i 0 :: t)) ∧
        adj_total adj1 + 2 * (t.length + 1) = adj_total adj ∧
        ∀ u w, (adj_get adj1 u).count w +
          arc_count (consecutive_pairs (path.getD i 0 :: t ++ [path.getD i 0])) u w =
            (adj_get adj u).count w) ∧
      ∀ adj2 cur, walk_reaches adj (path.getD i 0) adj2 cur →
        ∃ adj3 next, walk_step adj2 cur = .ok (adj3, next) ∧
          adj_total adj3 + 2 = adj_total adj2 ∧
          ∀ u w, (adj_get adj3 u).count w + arc_count [(cur, next)] u w =
            (adj_get adj2 u).count w) :=
  hierholzer_terminates triangle_edges 0 triangle_edges_even (by decide)

/-- C17: for every multigraph in which every vertex has even degree, at every state that an
inner Hierholzer walk of christofides reaches, in every round of the outer loop, the adjacency
lists are symmetric, the list of current_vertex is not empty when its front is taken, the
list of next_vertex holds current_vertex when the occurrence to erase is looked for, and the
adjacency lists are symmetric again after the step. -/
theorem hierholzer_walk_never_stuck (es : List edge) (start : Nat)
    (heven : adj_even (adjacency_list_of_edges es))
    (adj : List (Nat × List Nat)) (path : List Nat)
    (hr : tour_reaches (adjacency_list_of_edges es) [start] adj path)
    (i : Nat) (hi : find_new_tour_start adj path = some i)
    (adj1 : List (Nat × List Nat)) (cur : Nat)
    (hw : walk_reaches adj (path.getD i 0) adj1 cur) :
    adj_symmetric adj1 ∧
    ∃ next rest adj2, adj_get adj1 cur = next :: rest ∧
      cur ∈ adj_get (adj_set adj1 cur rest) next ∧
      walk_step adj1 cur = .ok (adj2, next) ∧ adj_symmetric adj2 :=
  hierholzer_step_safe es start heven adj path hr i hi adj1 cur hw

theorem hierholzer_walk_never_stuck_witness :
    adj_symmetric [(0, [2]), (1, [2]), (2, [1, 0])] ∧
    ∃ next rest adj2, adj_get [(0, [2]), (1, [2]), (2, [1, 0])] 1 = next :: rest ∧
      1 ∈ adj_get (adj_set [(0, [2]), (1, [2]), (2, [1, 0])] 1 rest) next ∧
      walk_step [(0, [2]), (1, [2]), (2, [1, 0])] 1 = .ok (adj2, next) ∧
      adj_symmetric adj2 :=
  hierholzer_walk_never_stuck triangle_edges 0 triangle_edges_even
    (adjacency_list_of_edges triangle_edges) [0] tour_reaches.start 0 (by decide)
    [(0, [2]), (1, [2]), (2, [1, 0])] 1
    (walk_reaches.step (adjacency_list_of_edges triangle_edges) 0 _ 1 walk_reaches.start
      (by decide) (by decide))

/-- C18: for every MWPM mapping from the positions of the odd-degree vertices to positions
that maps some v to itself, the split step treats v as symmetric-coherent: v is not put in
wrong_vertices and mwpm_final receives the pair (v, v); whenever the repair and the loop over
mwpm_final return, the pair is in mwpm_final, eulerian_graph_edges holds a loop at the
original vertex mst_odd_vertices[v], and that vertex has an odd number of neighbours other
than itself in the adjacency list of the Eulerian graph; both return when the greedy helper
answers with indices of the matrix it was given. -/
theorem fixed_point_becomes_self_loop (E : Env) (sym_matrix : matrix)
    (hmst : is_spanning_tree sym_matrix.size (E.mst_edges sym_matrix))
    (hkeys : ((mwpm_of E sym_matrix).map Prod.fst).Perm
      (List.range (mst_odd_vertices E sym_matrix).length))
    (hvals : ∀ e ∈ mwpm_of E sym_matrix, e.2 < (mst_odd_vertices E sym_matrix).length)
    (v : Nat) (hv : map_at (mwpm_of E sym_matrix) v = .ok v) :
    ∃ mwpm_final wrong_vertices,
      split_loop (mwpm_of E sym_matrix) (mwpm_of E sym_matrix) [] [] =
        .ok (mwpm_final, wrong_vertices) ∧
      (v, v) ∈ mwpm_final ∧ v ∉ wrong_vertices ∧
      (∀ final2 es,
        build_mwpm_final E.greedy_symmetric_approx_mwpm
          (sym_matrix.get_sub_matrix (mst_odd_vertices E sym_matrix)) (mwpm_of E sym_matrix) =
            .ok final2 →
        add_matching_edges sym_matrix (mst_odd_vertices E sym_matrix) (E.iter_map final2)
          (E.mst_edges sym_matrix) [] = .ok es →
        (v, v) ∈ final2 ∧
        (⟨(mst_odd_vertices E sym_matrix).getD v 0, (mst_odd_vertices E sym_matrix).getD v 0,
          sym_matrix.cost ((mst_odd_vertices E sym_matrix).getD v 0)
            ((mst_odd_vertices E sym_matrix).getD v 0)⟩ : edge) ∈ es ∧
        ((adj_get (adjacency_list_of_edges es) ((mst_odd_vertices E sym_matrix).getD v 0)).filter
          (fun u => decide (u ≠ (mst_odd_vertices E sym_matrix).getD v 0))).length % 2 = 1) ∧
      ((∀ (wrong : List Nat) (e : Nat × Nat),
          e ∈ E.greedy_symmetric_approx_mwpm
            ((sym_matrix.get_sub_matrix (mst_odd_vertices E sym_matrix)).get_sub_matrix wrong) →
          e.1 < wrong.length ∧ e.2 < wrong.length) →
        ∃ final2 es,
          build_mwpm_final E.greedy_symmetric_approx_mwpm
            (sym_matrix.get_sub_matrix (mst_odd_vertices E sym_matrix)) (mwpm_of E sym_matrix) =
              .ok final2 ∧
          add_matching_edges sym_matrix (mst_odd_vertices E sym_matrix) (E.iter_map final2)
            (E.mst_edges sym_matrix) [] = .ok es) :=
  fixed_point_spec E sym_matrix hmst hkeys hvals v hv

theorem fixed_point_becomes_self_loop_witness :
    ∃ mwpm_final wrong_vertices,
      split_loop (mwpm_of identity_env (unit_matrix 2)) (mwpm_of identity_env (unit_matrix 2))
        [] [] = .ok (mwpm_final, wrong_vertices) ∧
      (0, 0) ∈ mwpm_final ∧ 0 ∉ wrong_vertices ∧
      (∀ final2 es,
        build_mwpm_final identity_env.greedy_symmetric_approx_mwpm
          ((unit_matrix 2).get_sub_matrix (mst_odd_vertices identity_env (unit_matrix 2)))
          (mwpm_of identity_env (unit_matrix 2)) = .ok final2 →
        add_matching_edges (unit_matrix 2) (mst_odd_vertices identity_env (unit_matrix 2))
          (identity_env.iter_map final2) (identity_env.mst_edges (unit_matrix 2)) [] = .ok es →
        (0, 0) ∈ final2 ∧
        (⟨(mst_odd_vertices identity_env (unit_matrix 2)).getD 0 0,
          (mst_odd_vertices identity_env (unit_matrix 2)).getD 0 0,
          (unit_matrix 2).cost ((mst_odd_vertices identity_env (unit_matrix 2)).getD 0 0)
            ((mst_odd_vertices identity_env (unit_matrix 2)).getD 0 0)⟩ : edge) ∈ es ∧
        ((adj_get (adjacency_list_of_edges es)
          ((mst_odd_vertices identity_env (unit_matrix 2)).getD 0 0)).filter
          (fun u => decide (u ≠ (mst_odd_vertices identity_env (unit_matrix 2)).getD 0 0))).length
            % 2 = 1) ∧
      ((∀ (wrong : List Nat) (e : Nat × Nat),
          e ∈ identity_env.greedy_symmetric_approx_mwpm
            (((unit_matrix 2).get_sub_matrix
              (mst_odd_vertices identity_env (unit_matrix 2))).get_sub_matrix wrong) →
          e.1 < wrong.length ∧ e.2 < wrong.length) →
        ∃ final2 es,
          build_mwpm_final identity_env.greedy_symmetric_approx_mwpm
            ((unit_matrix 2).get_sub_matrix (mst_odd_vertices identity_env (unit_matrix 2)))
            (mwpm_of identity_env (unit_matrix 2)) = .ok final2 ∧
          add_matching_edges (unit_matrix 2) (mst_odd_vertices identity_env (unit_matrix 2))
            (identity_env.iter_map final2) (identity_env.mst_edges (unit_matrix 2)) [] =
              .ok es) :=
  fixed_point_becomes_self_loop identity_env (unit_matrix 2)
    (star_edges_spanning (unit_matrix 2) (by decide)) (by decide) (by decide) 0 (by decide)

/-! ### Claims about the operators -/

/-- C7: for operators whose gain has been computed, operator< succeeds and is true exactly
when the gain of the left operand is strictly greater than the gain of the right one; the
induced order is irreflexive, asymmetric, transitive, and incomparability is transitive. -/
theorem operator_lt_gain_descending (a b c : ls_operator)
    (ha : a.gain_computed = true) (hb : b.gain_computed = true) (hc : c.gain_computed = true) :
    a.gain = .ok (a.stored_gain, a) ∧ b.gain = .ok (b.stored_gain, b) ∧
    operator_lt a b = .ok (decide (a.stored_gain > b.stored_gain)) ∧
    (operator_lt a b = .ok true ↔ a.stored_gain > b.stored_gain) ∧
    operator_lt a a = .ok false ∧
    (operator_lt a b = .ok true → operator_lt b a = .ok false) ∧
    (operator_lt a b = .ok true → operator_lt b c = .ok true → operator_lt a c = .ok true) ∧
    (operator_lt a b = .ok false → operator_lt b a = .ok false →
      operator_lt b c = .ok false → operator_lt c b = .ok false →
      operator_lt a c = .ok false ∧ operator_lt c a = .ok false) := by
  have hab : operator_lt a b = .ok (decide (a.stored_gain > b.stored_gain)) := by
    simp [operator_lt, ls_operator.gain, ha, hb]
  have hba : operator_lt b a = .ok (decide (b.stored_gain > a.stored_gain)) := by
    simp [operator_lt, ls_operator.gain, ha, hb]
  have hbc : operator_lt b c = .ok (decide (b.stored_gain > c.stored_gain)) := by
    simp [operator_lt, ls_operator.gain, hc, hb]
  have hcb : operator_lt c b = .ok (decide (c.stored_gain > b.stored_gain)) := by
    simp [operator_lt, ls_operator.gain, hc, hb]
  have hac : operator_lt a c = .ok (decide (a.stored_gain > c.stored_gain)) := by
    simp [operator_lt, ls_operator.gain, ha, hc]
  have hca : operator_lt c a = .ok (decide (c.stored_gain > a.stored_gain)) := by
    simp [operator_lt, ls_operator.gain, ha, hc]
  have haa : operator_lt a a = .ok false := by
    simp [operator_lt, ls_operator.gain, ha]
  refine ⟨by simp [ls_operator.gain, ha], by simp [ls_operator.gain, hb], hab, ?_, haa, ?_, ?_, ?_⟩
  · rw [hab]; simp
  · rw [hab, hba]; simp; intro h; omega
  · rw [hab, hbc, hac]; simp; intro h1 h2; omega
  · rw [hab, hba, hbc, hcb, hac, hca]; simp; intro h1 h2 h3 h4; omega

theorem operator_lt_gain_descending_witness :
    operator_lt ⟨0, 1, 1, 2, true, 5⟩ ⟨0, 0, 1, 0, true, 3⟩ = .ok true ∧
    operator_lt ⟨0, 0, 1, 0, true, 3⟩ ⟨0, 1, 1, 2, true, 5⟩ = .ok false :=
  let h := operator_lt_gain_descending ⟨0, 1, 1, 2, true, 5⟩ ⟨0, 0, 1, 0, true, 3⟩
    ⟨1, 0, 0, 0, true, 3⟩ rfl rfl rfl
  ⟨h.2.2.2.1.mpr (by decide), h.2.2.2.2.2.1 (h.2.2.2.1.mpr (by decide))⟩

/-- C8 (as stated, refuted): two operators with equal computed gain and different tuples, the
first with the lower tuple, for which operator< is not true. -/
theorem operator_lt_no_tuple_tie_break :
    ¬ (∀ a b : ls_operator, a.gain_computed = true → b.gain_computed = true →
        a.stored_gain = b.stored_gain → tuple_lower a.tuple b.tuple = true →
        operator_lt a b = .ok true) := by
  intro h
  have := h ⟨0, 0, 0, 0, true, 7⟩ ⟨0, 0, 0, 1, true, 7⟩ rfl rfl rfl (by decide)
  revert this
  decide

/-- C8 (amended): two operators with equal computed gain are not ordered by operator<, in
either direction, whatever their index tuples. -/
theorem operator_lt_equal_gain (a b : ls_operator)
    (ha : a.gain_computed = true) (hb : b.gain_computed = true)
    (hg : a.stored_gain = b.stored_gain) :
    operator_lt a b = .ok false ∧ operator_lt b a = .ok false := by
  simp [operator_lt, ls_operator.gain, ha, hb, hg]

theorem operator_lt_equal_gain_witness :
    operator_lt ⟨0, 0, 0, 0, true, 7⟩ ⟨0, 0, 0, 1, true, 7⟩ = .ok false ∧
    operator_lt ⟨0, 0, 0, 1, true, 7⟩ ⟨0, 0, 0, 0, true, 7⟩ = .ok false :=
  operator_lt_equal_gain ⟨0, 0, 0, 0, true, 7⟩ ⟨0, 0, 0, 1, true, 7⟩ rfl rfl rfl

/-- C9: gain returns stored_gain and leaves the operator as it is when gain_computed holds,
fails its assertion when it does not, and so fails on every operator that the constructor has
just built. -/
theorem gain_asserts_computed (op : ls_operator) (sv sr tv tr : Nat) (u : Int) :
    (op.gain_computed = true → op.gain = .ok (op.stored_gain, op)) ∧
    (op.gain_computed = false → op.gain = .error failure.assertion_failed) ∧
    (ls_operator.ctor sv sr tv tr u).gain = .error failure.assertion_failed ∧
    (∀ g op1, op.gain = .ok (g, op1) → op1 = op) := by
  refine ⟨?_, ?_, ?_, ?_⟩
  · intro h; simp [ls_operator.gain, h]
  · intro h; simp [ls_operator.gain, h]
  · simp [ls_operator.gain, ls_operator.ctor]
  · intro g op1 h
    unfold ls_operator.gain at h
    split at h
    · injection h with h; injection h with _ h2; exact h2.symm
    · exact absurd h (by simp)

theorem gain_asserts_computed_witness :
    (ls_operator.mk 0 1 1 2 true 5).gain = .ok (5, ls_operator.mk 0 1 1 2 true 5) ∧
    (ls_operator.ctor 0 1 1 2 5).gain = .error failure.assertion_failed :=
  ⟨(gain_asserts_computed (ls_operator.mk 0 1 1 2 true 5) 0 1 1 2 5).1 rfl,
    (gain_asserts_computed (ls_operator.mk 0 1 1 2 true 5) 0 1 1 2 5).2.2.1⟩

end Vroom
